import Mathlib

/-!
Verification development for the LinkedIn-profile QR-card core:
a shallow embedding, in Lean, of the input-normalization pipeline
(`linkedin.common`), the bounded cookie state store (`cookies.common`,
`cookies.server`), the per-client fixed-window rate limiter
(`linkedin.server`), and the content-addressed QR cache (`qr.common`,
`qr.server`), together with theorems settling the specified properties.

Modelling conventions:
* JavaScript `Date.now()` timestamps are `Nat` milliseconds; `Date` values
  stored in records are the corresponding `Nat`.
* JavaScript `Map` objects are association lists with distinct keys,
  mutated through `mapGet` / `mapSet` / `mapDelete` below.
* Strings are treated as sequences of Unicode scalar values (`Char`);
  byte-level operations (UTF-8 encoding, `Blob` sizes) are modelled for
  strings whose characters are ASCII, which covers every string the
  embedded code paths construct.
-/

set_option maxRecDepth 4000

namespace Scan2SayHi

instance {ε α : Type} [DecidableEq ε] [DecidableEq α] :
    DecidableEq (Except ε α) := fun x y =>
  match x, y with
  | .error a, .error b =>
    if h : a = b then isTrue (by rw [h])
    else isFalse (fun hc => h (by cases hc; rfl))
  | .error _, .ok _ => isFalse (fun hc => Except.noConfusion hc)
  | .ok _, .error _ => isFalse (fun hc => Except.noConfusion hc)
  | .ok a, .ok b =>
    if h : a = b then isTrue (by rw [h])
    else isFalse (fun hc => h (by cases hc; rfl))

/-! ## Association-list model of JavaScript `Map` -/

def mapGet {α : Type} (m : List (String × α)) (k : String) : Option α :=
  (m.find? (fun p => p.1 == k)).map Prod.snd

def mapSet {α : Type} (m : List (String × α)) (k : String) (v : α) :
    List (String × α) :=
  match m with
  | [] => [(k, v)]
  | (k', v') :: rest =>
    if k' == k then (k, v) :: rest else (k', v') :: mapSet rest k v

def mapDelete {α : Type} (m : List (String × α)) (k : String) :
    List (String × α) :=
  m.filter (fun p => !(p.1 == k))

theorem mapGet_mapSet_self {α : Type} (m : List (String × α)) (k : String)
    (v : α) : mapGet (mapSet m k v) k = some v := by
  induction m with
  | nil => simp [mapGet, mapSet]
  | cons hd tl ih =>
    by_cases h : hd.1 == k
    · simp [mapSet, h, mapGet]
    · simp only [mapSet, h]
      simpa [mapGet, h] using ih

theorem mapGet_mapSet_ne {α : Type} (m : List (String × α)) (k k' : String)
    (v : α) (h : k ≠ k') : mapGet (mapSet m k v) k' = mapGet m k' := by
  induction m with
  | nil => simp [mapGet, mapSet, h]
  | cons hd tl ih =>
    by_cases hh : hd.1 == k
    · have : hd.1 = k := by simpa using hh
      simp [mapSet, hh, mapGet, this, h]
    · simp only [mapSet, hh]
      by_cases hk' : hd.1 == k'
      · simp [mapGet, hk']
      · simpa [mapGet, hk'] using ih

/-! ## Rate limiter (`createLinkedinUrlProcessor` in `linkedin.server.ts`)

The processor closes over a mutable `Map<string, {count, resetTime}>`;
we model the map as explicit state threaded through `canMakeRequest`.
-/

structure RateLimitEntry where
  count : Nat
  resetTime : Nat
  deriving Repr, DecidableEq

abbrev RateLimitState := List (String × RateLimitEntry)

def minuteMs : Nat := 60 * 1000

/-- `canMakeRequest` from `createLinkedinUrlProcessor`: first request or
expired window resets the counter to 1 and admits; within the window,
admit and increment while `count < maxRequestsPerMinute`, else reject. -/
def canMakeRequest (maxRequestsPerMinute : Nat) (st : RateLimitState)
    (clientId : String) (now : Nat) : Bool × RateLimitState :=
  match mapGet st clientId with
  | none => (true, mapSet st clientId ⟨1, now + minuteMs⟩)
  | some clientData =>
    if now > clientData.resetTime then
      (true, mapSet st clientId ⟨1, now + minuteMs⟩)
    else if clientData.count ≥ maxRequestsPerMinute then
      (false, st)
    else
      (true, mapSet st clientId ⟨clientData.count + 1, clientData.resetTime⟩)

/-- Run a sequence of `canMakeRequest` calls for one client at the given
timestamps, collecting the admission decisions. -/
def runRequests (maxRPM : Nat) (st : RateLimitState) (clientId : String) :
    List Nat → List Bool × RateLimitState
  | [] => ([], st)
  | t :: ts =>
    let r := canMakeRequest maxRPM st clientId t
    let rest := runRequests maxRPM r.2 clientId ts
    (r.1 :: rest.1, rest.2)

theorem runRequests_cons (maxRPM : Nat) (st : RateLimitState) (c : String)
    (t : Nat) (ts : List Nat) :
    runRequests maxRPM st c (t :: ts) =
      ((canMakeRequest maxRPM st c t).1 ::
        (runRequests maxRPM (canMakeRequest maxRPM st c t).2 c ts).1,
       (runRequests maxRPM (canMakeRequest maxRPM st c t).2 c ts).2) := rfl

/-- Within a window: if the client record holds `count = min k maxRPM`
(for some `1 ≤ k`) with reset time `R`, and all further call times are
`≤ R`, then the i-th further call is admitted iff `k + i < maxRPM`,
and afterwards the record holds `min (k + len) maxRPM` with the same `R`. -/
theorem runRequests_window (maxRPM : Nat) (c : String) (R : Nat)
    (ts : List Nat) (hts : ∀ t ∈ ts, t ≤ R) :
    ∀ (st : RateLimitState) (k : Nat), 1 ≤ k →
    mapGet st c = some ⟨min k maxRPM, R⟩ →
    (runRequests maxRPM st c ts).1 =
      (List.range ts.length).map (fun i => decide (k + i < maxRPM)) ∧
    mapGet (runRequests maxRPM st c ts).2 c =
      some ⟨min (k + ts.length) maxRPM, R⟩ := by
  induction ts with
  | nil => intro st k hk hst; simpa [runRequests] using hst
  | cons t ts ih =>
    intro st k hk hst
    have ht : t ≤ R := hts t (by simp)
    have hts' : ∀ t' ∈ ts, t' ≤ R := fun t' h => hts t' (by simp [h])
    by_cases hcap : k < maxRPM
    · -- admitted: count goes from k to k+1
      have hmin : min k maxRPM = k := Nat.min_eq_left (Nat.le_of_lt hcap)
      have hstep : canMakeRequest maxRPM st c t =
          (true, mapSet st c ⟨k + 1, R⟩) := by
        simp only [canMakeRequest, hst, hmin]
        rw [if_neg (by omega), if_neg (by omega)]
      have hget : mapGet (mapSet st c ⟨k + 1, R⟩) c =
          some ⟨min (k + 1) maxRPM, R⟩ := by
        rw [mapGet_mapSet_self]
        have : min (k + 1) maxRPM = k + 1 := Nat.min_eq_left (by omega)
        rw [this]
      obtain ⟨h1, h2⟩ := ih hts' (mapSet st c ⟨k + 1, R⟩) (k + 1) (by omega) hget
      constructor
      · rw [runRequests_cons, hstep]
        simp only [h1, List.length_cons, List.range_succ_eq_map,
          List.map_cons, List.map_map]
        refine congrArg₂ List.cons ?_ ?_
        · simp only [Nat.add_zero]
          exact (decide_eq_true hcap).symm
        · refine List.map_congr_left fun i _ => ?_
          simp only [Function.comp, Nat.succ_eq_add_one]
          rw [show k + 1 + i = k + (i + 1) from by omega]
      · rw [runRequests_cons, hstep, h2]
        simp only [List.length_cons]
        rw [show k + 1 + ts.length = k + (ts.length + 1) from by omega]
    · -- rejected: state unchanged
      have hmin : min k maxRPM = maxRPM := Nat.min_eq_right (by omega)
      have hstep : canMakeRequest maxRPM st c t = (false, st) := by
        simp only [canMakeRequest, hst, hmin]
        rw [if_neg (by omega), if_pos (by omega)]
      obtain ⟨h1, h2⟩ := ih hts' st k hk (by rw [hst])
      constructor
      · rw [runRequests_cons, hstep]
        simp only [h1, List.length_cons, List.range_succ_eq_map,
          List.map_cons, List.map_map]
        refine congrArg₂ List.cons ?_ ?_
        · simp only [Nat.add_zero]
          exact (decide_eq_false (by omega)).symm
        · refine List.map_congr_left fun i _ => ?_
          simp only [Function.comp, Nat.succ_eq_add_one]
          rw [decide_eq_false (by omega), decide_eq_false (by omega)]
      · rw [runRequests_cons, hstep, h2]
        simp only [List.length_cons]
        have e1 : (k + ts.length) ⊓ maxRPM = maxRPM := Nat.min_eq_right (by omega)
        have e2 : (k + (ts.length + 1)) ⊓ maxRPM = maxRPM :=
          Nat.min_eq_right (by omega)
        rw [e1, e2]

/-! ## UTF-8 byte sequences (`TextEncoder`, `Blob` sizes) -/

/-- UTF-8 encoding of one character (`TextEncoder`). -/
def utf8EncodeChar (c : Char) : List Nat :=
  let n := c.toNat
  if n < 0x80 then [n]
  else if n < 0x800 then [0xC0 + n / 64, 0x80 + n % 64]
  else if n < 0x10000 then
    [0xE0 + n / 4096, 0x80 + n / 64 % 64, 0x80 + n % 64]
  else
    [0xF0 + n / 262144, 0x80 + n / 4096 % 64, 0x80 + n / 64 % 64,
     0x80 + n % 64]

def stringUtf8Bytes (s : String) : List Nat :=
  s.data.flatMap utf8EncodeChar

/-! ## Cookie data model (`cookies.common.ts`)

`UserDataCookie` and its serialization.  `JSON.stringify` is modelled for
the ASCII strings these records hold (URLs, ISO timestamps, hex colors):
no JSON string escaping is needed, and the UTF-8 byte size used by
`checkCookieSize` (`new Blob([serialized]).size`) is `String.utf8ByteSize`.
Object keys are emitted in the schema order; the serialized byte length,
which is all the size checks consume, does not depend on key order. -/

structure LinkedinUrlCookie where
  url : String
  validatedAt : String
  lastUsed : String
  usageCount : Nat
  deriving Repr, DecidableEq

structure QrColorsCookie where
  dark : String
  light : String
  deriving Repr, DecidableEq

structure QrConfigCookie where
  size : Nat
  errorCorrectionLevel : String
  colors : QrColorsCookie
  lastUpdated : String
  deriving Repr, DecidableEq

structure UserPreferencesCookie where
  showInstructions : Bool
  enableOfflineQr : Bool
  autoGenerateQr : Bool
  theme : String
  lastUpdated : String
  deriving Repr, DecidableEq

structure UserDataCookie where
  linkedinUrl : Option LinkedinUrlCookie
  qrConfig : Option QrConfigCookie
  preferences : Option UserPreferencesCookie
  version : String
  createdAt : String
  updatedAt : String
  deriving Repr, DecidableEq

def jsonString (s : String) : String := "\"" ++ s ++ "\""

def jsonBool (b : Bool) : String := if b then "true" else "false"

def serializeLinkedinUrlCookie (c : LinkedinUrlCookie) : String :=
  "\x7b\"url\":" ++ jsonString c.url ++
    ",\"validatedAt\":" ++ jsonString c.validatedAt ++
    ",\"lastUsed\":" ++ jsonString c.lastUsed ++
    ",\"usageCount\":" ++ toString c.usageCount ++ "\x7d"

def serializeQrConfigCookie (c : QrConfigCookie) : String :=
  "\x7b\"size\":" ++ toString c.size ++
    ",\"errorCorrectionLevel\":" ++ jsonString c.errorCorrectionLevel ++
    ",\"colors\":\x7b\"dark\":" ++ jsonString c.colors.dark ++
    ",\"light\":" ++ jsonString c.colors.light ++ "\x7d" ++
    ",\"lastUpdated\":" ++ jsonString c.lastUpdated ++ "\x7d"

def serializeUserPreferencesCookie (c : UserPreferencesCookie) : String :=
  "\x7b\"showInstructions\":" ++ jsonBool c.showInstructions ++
    ",\"enableOfflineQr\":" ++ jsonBool c.enableOfflineQr ++
    ",\"autoGenerateQr\":" ++ jsonBool c.autoGenerateQr ++
    ",\"theme\":" ++ jsonString c.theme ++
    ",\"lastUpdated\":" ++ jsonString c.lastUpdated ++ "\x7d"

/-- Comma-join of the serialized object fields. -/
def joinComma : List String → String
  | [] => ""
  | [s] => s
  | s :: rest => s ++ "," ++ joinComma rest

/-- `JSON.stringify` of a `UserDataCookie`; absent optional fields are
omitted, as `JSON.stringify` omits `undefined` properties. -/
def serializeUserDataCookie (d : UserDataCookie) : String :=
  let fields :=
    (match d.linkedinUrl with
     | some l => ["\"linkedinUrl\":" ++ serializeLinkedinUrlCookie l]
     | none => []) ++
    (match d.qrConfig with
     | some q => ["\"qrConfig\":" ++ serializeQrConfigCookie q]
     | none => []) ++
    (match d.preferences with
     | some p => ["\"preferences\":" ++ serializeUserPreferencesCookie p]
     | none => []) ++
    ["\"version\":" ++ jsonString d.version,
     "\"createdAt\":" ++ jsonString d.createdAt,
     "\"updatedAt\":" ++ jsonString d.updatedAt]
  "\x7b" ++ joinComma fields ++ "\x7d"

def COOKIE_MAX_SIZE : Nat := 3900

structure CookieSizeCheck where
  isValid : Bool
  size : Nat
  maxSize : Nat
  deriving Repr, DecidableEq

/-- `new Blob([s]).size`: the UTF-8 byte size of a string. -/
def blobByteSize (s : String) : Nat := (stringUtf8Bytes s).length

/-- `checkCookieSize`: serialized UTF-8 byte size against the 3900 ceiling. -/
def checkCookieSize (data : UserDataCookie) : CookieSizeCheck :=
  let size := blobByteSize (serializeUserDataCookie data)
  { isValid := size ≤ COOKIE_MAX_SIZE, size := size, maxSize := COOKIE_MAX_SIZE }

/-- The first sanitization stage of `sanitizeCookieData`: cap
`usageCount` at 999 when it exceeds 999.  Returns the (possibly)
modified record and whether a modification happened. -/
def clampUsageCount (d : UserDataCookie) : UserDataCookie × Bool :=
  match d.linkedinUrl with
  | some l =>
    if l.usageCount > 999 then
      ({ d with linkedinUrl := some { l with usageCount := min l.usageCount 999 } },
       true)
    else (d, false)
  | none => (d, false)

/-- The second sanitization stage of `sanitizeCookieData`: keep only
`version`, `createdAt`, `updatedAt` and `linkedinUrl`. -/
def essentialOnly (d : UserDataCookie) : UserDataCookie :=
  { linkedinUrl := d.linkedinUrl, qrConfig := none, preferences := none,
    version := d.version, createdAt := d.createdAt, updatedAt := d.updatedAt }

structure SanitizeResult where
  sanitized : UserDataCookie
  wasSanitized : Bool
  deriving Repr, DecidableEq

/-- `sanitizeCookieData`: no change when within the ceiling; otherwise cap
`usageCount`, and if the result is still oversized keep only the
essential fields. -/
def sanitizeCookieData (d : UserDataCookie) : SanitizeResult :=
  if (checkCookieSize d).isValid then ⟨d, false⟩
  else
    let c := clampUsageCount d
    if !(checkCookieSize c.1).isValid then ⟨essentialOnly c.1, true⟩
    else ⟨c.1, c.2⟩

/-! ## Cookie writing (`CookieManager.setUserData` in `cookies.server.ts`)

Modelled for the default cookie manager (cookie name
`linkedin_card_data`, default options: `Max-Age=2592000`, `Path=/`,
`HttpOnly`, `Secure`, `SameSite=lax`). -/

def hexUpperDigit (n : Nat) : Char :=
  if n < 10 then Char.ofNat (48 + n) else Char.ofNat (55 + n)

/-- `encodeURIComponent` for ASCII characters: the unreserved characters
pass through, everything else is percent-encoded. -/
def encodeURIComponentChar (c : Char) : String :=
  if c.isAlphanum || c = '-' || c = '_' || c = '.' || c = '!' || c = '~' ||
      c = '*' || c = Char.ofNat 39 || c = '(' || c = ')' then
    String.singleton c
  else
    "%" ++ String.singleton (hexUpperDigit (c.toNat / 16)) ++
      String.singleton (hexUpperDigit (c.toNat % 16))

def encodeURIComponent (s : String) : String :=
  String.join (s.data.map encodeURIComponentChar)

def USER_DATA_COOKIE_NAME : String := "linkedin_card_data"

/-- The `Set-Cookie` header assembled by `setUserData` on success, for the
default cookie options. -/
def buildSetCookieHeader (serializedData : String) : String :=
  String.intercalate "; "
    [USER_DATA_COOKIE_NAME ++ "=" ++ encodeURIComponent serializedData,
     "Max-Age=2592000", "Path=/", "HttpOnly", "Secure", "SameSite=lax"]

structure SetUserDataResult where
  success : Bool
  cookieHeader : String
  errors : List String
  warnings : List String
  deriving Repr, DecidableEq

/-- `CookieManager.setUserData`: sanitize, re-check the size, and either
refuse with a too-large error or emit the cookie header. -/
def setUserData (data : UserDataCookie) : SetUserDataResult :=
  let sanitizationResult := sanitizeCookieData data
  let sanitizedData := sanitizationResult.sanitized
  let sizeCheck := checkCookieSize sanitizedData
  if !sizeCheck.isValid then
    { success := false, cookieHeader := "",
      errors := ["Cookie data too large: " ++ toString sizeCheck.size ++
        " bytes (max: " ++ toString sizeCheck.maxSize ++ ")"],
      warnings := [] }
  else
    { success := true,
      cookieHeader := buildSetCookieHeader (serializeUserDataCookie sanitizedData),
      errors := [],
      warnings :=
        if sanitizationResult.wasSanitized then
          ["Cookie data was sanitized to fit size limits"]
        else [] }

/-! ## Cookie merge (`updateUserDataCookie` in `cookies.common.ts`) -/

structure PartialQrConfigCookie where
  size : Option Nat
  errorCorrectionLevel : Option String
  colors : Option QrColorsCookie
  lastUpdated : Option String
  deriving Repr, DecidableEq

structure PartialUserPreferencesCookie where
  showInstructions : Option Bool
  enableOfflineQr : Option Bool
  autoGenerateQr : Option Bool
  theme : Option String
  lastUpdated : Option String
  deriving Repr, DecidableEq

structure UserDataUpdates where
  linkedinUrl : Option String
  qrConfig : Option PartialQrConfigCookie
  preferences : Option PartialUserPreferencesCookie
  deriving Repr, DecidableEq

/-- The usage count chosen by `updateUserDataCookie`:
`existingUrl?.url === updates.linkedinUrl ? existingUrl.usageCount + 1 : 1`. -/
def nextUsageCount (existing : Option LinkedinUrlCookie) (u : String) : Nat :=
  match existing with
  | some ex => if ex.url = u then ex.usageCount + 1 else 1
  | none => 1

/-- `updateUserDataCookie`.  JavaScript truthiness. an update field is
applied when it is present, and for `linkedinUrl` also non-empty
(`if (updates.linkedinUrl)` is false for `""`).  The shallow config and
preference merges are `{...defaults, ...existing, ...updates}` with
`lastUpdated` forced to `now`; an existing full record overrides every
default field. -/
def updateUserDataCookie (existingData : UserDataCookie)
    (updates : UserDataUpdates) (now : String) : UserDataCookie :=
  let d0 := { existingData with updatedAt := now }
  let d1 :=
    match updates.linkedinUrl with
    | some u =>
      if u = "" then d0
      else
        let rec0 : LinkedinUrlCookie :=
          { url := u, validatedAt := now, lastUsed := now,
            usageCount := nextUsageCount existingData.linkedinUrl u }
        { d0 with linkedinUrl := some rec0 }
    | none => d0
  let d2 :=
    match updates.qrConfig with
    | some qc =>
      let base : QrConfigCookie :=
        match existingData.qrConfig with
        | some e => e
        | none =>
          { size := 256, errorCorrectionLevel := "M",
            colors := { dark := "#000000", light := "#FFFFFF" },
            lastUpdated := now }
      let merged : QrConfigCookie :=
        { size := qc.size.getD base.size,
          errorCorrectionLevel :=
            qc.errorCorrectionLevel.getD base.errorCorrectionLevel,
          colors := qc.colors.getD base.colors,
          lastUpdated := now }
      { d1 with qrConfig := some merged }
    | none => d1
  match updates.preferences with
  | some p =>
    let base : UserPreferencesCookie :=
      match existingData.preferences with
      | some e => e
      | none =>
        { showInstructions := true, enableOfflineQr := true,
          autoGenerateQr := true, theme := "auto", lastUpdated := now }
    let merged : UserPreferencesCookie :=
      { showInstructions := p.showInstructions.getD base.showInstructions,
        enableOfflineQr := p.enableOfflineQr.getD base.enableOfflineQr,
        autoGenerateQr := p.autoGenerateQr.getD base.autoGenerateQr,
        theme := p.theme.getD base.theme,
        lastUpdated := now }
    { d2 with preferences := some merged }
  | none => d2

/-! ## QR cache key (`generateQrCacheKey` in `qr.common.ts`)

The JavaScript hash loop works on signed 32-bit integers
(`((hash << 5) - hash + byte) & 0xffffffff`); we keep the running hash as
its unsigned 32-bit representative and reinterpret through `toInt32` at
each use. -/

structure QrColors where
  dark : String
  light : String
  deriving Repr, DecidableEq

structure QrConfig where
  size : Nat
  errorCorrectionLevel : String
  margin : Nat
  colors : QrColors
  includeMargin : Bool
  deriving Repr, DecidableEq

def DEFAULT_QR_CONFIG : QrConfig :=
  { size := 256, errorCorrectionLevel := "M", margin := 4,
    colors := { dark := "#000000", light := "#FFFFFF" },
    includeMargin := true }

/-- Reinterpret an unsigned 32-bit value as a signed 32-bit integer. -/
def toInt32 (n : Nat) : Int :=
  if n % 2 ^ 32 < 2 ^ 31 then ((n % 2 ^ 32 : Nat) : Int)
  else ((n % 2 ^ 32 : Nat) : Int) - 2 ^ 32

/-- Truncate an integer to its unsigned 32-bit representative. -/
def toUInt32n (i : Int) : Nat := (i % (2 ^ 32 : Int)).toNat

/-- One step of the JavaScript hash loop.  `hash << 5` wraps to a signed
32-bit value; the subtraction and byte addition are exact; the final
`& 0xffffffff` truncates back to 32 bits. -/
def jsHashStep (hash : Nat) (byte : Nat) : Nat :=
  let s := toInt32 hash
  let shifted := toInt32 (toUInt32n (s * 32))
  toUInt32n (shifted - s + byte)

def base36Char (n : Nat) : Char :=
  if n < 10 then Char.ofNat (48 + n) else Char.ofNat (87 + n)

def toBase36Aux : Nat → Nat → List Char → List Char
  | 0, _, acc => acc
  | fuel + 1, n, acc =>
    if n < 36 then base36Char n :: acc
    else toBase36Aux fuel (n / 36) (base36Char (n % 36) :: acc)

/-- `Number.prototype.toString(36)` for naturals. -/
def toBase36 (n : Nat) : String := String.mk (toBase36Aux (n + 1) n [])

/-- `String.prototype.padStart(len, c)`. -/
def padStart (len : Nat) (c : Char) (s : String) : String :=
  String.mk (List.replicate (len - s.length) c) ++ s

/-- The serialized subset of the config that enters the cache key
(`JSON.stringify` of size, errorCorrectionLevel, margin, colors and
includeMargin, in that order). -/
def qrConfigHashString (config : QrConfig) : String :=
  "\x7b\"size\":" ++ toString config.size ++
    ",\"errorCorrectionLevel\":" ++ jsonString config.errorCorrectionLevel ++
    ",\"margin\":" ++ toString config.margin ++
    ",\"colors\":\x7b\"dark\":" ++ jsonString config.colors.dark ++
    ",\"light\":" ++ jsonString config.colors.light ++ "\x7d" ++
    ",\"includeMargin\":" ++ jsonBool config.includeMargin ++ "\x7d"

/-- `generateQrCacheKey`. -/
def generateQrCacheKey (content : String) (config : QrConfig) : String :=
  let configHash := qrConfigHashString config
  let data := stringUtf8Bytes (content ++ "|" ++ configHash)
  let hash := data.foldl jsHashStep 0
  let hashStr :=
    padStart 8 '0' (toBase36 (toInt32 hash).natAbs) ++
      padStart 8 '0' (toBase36 (toInt32 (Nat.xor hash 0xaaaaaaaa)).natAbs)
  "qr_" ++ String.mk (hashStr.data.take 32)

/-! ## In-memory QR cache (`QrCodeCache` in `qr.server.ts`) -/

structure QrGenerationResult where
  content : String
  config : QrConfig
  dataUrl : String
  width : Nat
  height : Nat
  generatedAt : Nat
  format : String
  deriving Repr, DecidableEq

structure QrCacheEntry where
  key : String
  result : QrGenerationResult
  expiresAt : Nat
  accessCount : Nat
  lastAccessed : Nat
  deriving Repr, DecidableEq

abbrev QrCache := List (String × QrCacheEntry)

def QR_CACHE_MAX_SIZE : Nat := 1000

def QR_CACHE_DEFAULT_TTL : Nat := 3600000

/-- `QrCodeCache.get`: miss (or lazy expiry purge) returns `none`; a hit
bumps the access statistics. -/
def qrCacheGet (cache : QrCache) (key : String) (now : Nat) :
    Option QrGenerationResult × QrCache :=
  match mapGet cache key with
  | none => (none, mapDelete cache key)
  | some entry =>
    if entry.expiresAt < now then (none, mapDelete cache key)
    else
      (some entry.result,
       mapSet cache key
         { entry with accessCount := entry.accessCount + 1,
                      lastAccessed := now })

/-- `QrCodeCache.cleanup`: purge all expired entries. -/
def qrCacheCleanup (cache : QrCache) (now : Nat) : QrCache :=
  cache.filter (fun p => !(p.2.expiresAt < now))

/-- `Math.floor(maxSize * 0.2)`; exact for the default `maxSize = 1000`. -/
def qrEvictCount (maxSize : Nat) : Nat := maxSize / 5

/-- `QrCodeCache.set`: when full, purge expired entries, then if still
full evict the least-recently-accessed 20% (stable ascending sort by
`lastAccessed`), then insert with `expiresAt = now + (ttl || defaultTtl)`. -/
def qrCacheSet (maxSize : Nat) (cache : QrCache) (key : String)
    (result : QrGenerationResult) (ttl : Option Nat) (now : Nat) : QrCache :=
  let cache1 :=
    if cache.length ≥ maxSize then
      let cleaned := qrCacheCleanup cache now
      if cleaned.length ≥ maxSize then
        let sorted := cleaned.mergeSort
          (fun a b => a.2.lastAccessed ≤ b.2.lastAccessed)
        (sorted.take (qrEvictCount maxSize)).foldl
          (fun acc p => mapDelete acc p.1) cleaned
      else cleaned
    else cache
  let effTtl := match ttl with
    | some t => if t = 0 then QR_CACHE_DEFAULT_TTL else t
    | none => QR_CACHE_DEFAULT_TTL
  mapSet cache1 key
    { key := key, result := result, expiresAt := now + effTtl,
      accessCount := 0, lastAccessed := now }

/-- The operations a caller can perform on the cache, for the capacity
invariant. -/
inductive QrCacheOp where
  | get (key : String) (now : Nat)
  | set (key : String) (result : QrGenerationResult) (ttl : Option Nat)
      (now : Nat)
  | del (key : String)
  | clear
  | cleanup (now : Nat)

def qrCacheStep (maxSize : Nat) (cache : QrCache) : QrCacheOp → QrCache
  | .get key now => (qrCacheGet cache key now).2
  | .set key result ttl now => qrCacheSet maxSize cache key result ttl now
  | .del key => mapDelete cache key
  | .clear => []
  | .cleanup now => qrCacheCleanup cache now

def qrCacheRun (maxSize : Nat) (ops : List QrCacheOp) : QrCache :=
  ops.foldl (qrCacheStep maxSize) []

/-! ## Modelled WHATWG `URL` parser (`new URL(...)` in the sources)

The sources rely on the JavaScript `URL` / `URLSearchParams` classes.  We
model the fragment of their behaviour those call sites exercise:
scheme/authority/path/query/fragment splitting, lowercasing of scheme and
host, default-port elision, slash-forgiveness after special schemes, and
raw (undecoded) query pairs.  Outside the model: userinfo (`user@host`),
IPv6/percent-encoded/IDNA hosts, backslash separators, percent
en/decoding, and dot-segment normalization — none of which the embedded
code paths produce. -/

def isWsChar (c : Char) : Bool :=
  c = ' ' || c = '\t' || c = '\n' || c = '\r'

def trimChars (l : List Char) : List Char :=
  ((l.dropWhile isWsChar).reverse.dropWhile isWsChar).reverse

def isSchemeChar (c : Char) : Bool :=
  c.isAlphanum || c = '+' || c = '-' || c = '.'

def isHostChar (c : Char) : Bool :=
  c.isLower || c.isDigit || c = '.' || c = '-' || c = '_'

structure UrlRec where
  scheme : List Char
  host : List Char
  port : List Char
  pathname : List Char
  search : List Char
  hash : List Char
  deriving Repr, DecidableEq

def UrlRec.protocol (r : UrlRec) : List Char := r.scheme ++ [':']

/-- Split at the first character satisfying `p`; the second component
starts with the delimiter (or is empty when no delimiter occurs). -/
def splitAtFirst (p : Char → Bool) : List Char → List Char × List Char
  | [] => ([], [])
  | c :: cs =>
    if p c then ([], c :: cs)
    else
      let r := splitAtFirst p cs
      (c :: r.1, r.2)

theorem splitAtFirst_snd_length (p : Char → Bool) (l : List Char) :
    (splitAtFirst p l).2.length ≤ l.length := by
  induction l with
  | nil => simp [splitAtFirst]
  | cons c cs ih =>
    by_cases h : p c
    · simp [splitAtFirst, h]
    · simp only [splitAtFirst, h, if_false, Bool.false_eq_true]
      exact Nat.le_succ_of_le ih

def splitSepAux (sep : Char) : Nat → List Char → List (List Char)
  | 0, l => [l]
  | fuel + 1, l =>
    let t := splitAtFirst (fun c => c = sep) l
    match t.2 with
    | [] => [t.1]
    | _ :: rest => t.1 :: splitSepAux sep fuel rest

/-- `String.prototype.split(sep)` on character lists. -/
def splitSep (sep : Char) (l : List Char) : List (List Char) :=
  splitSepAux sep l.length l

def splitAtLastColon (l : List Char) : Option (List Char × List Char) :=
  let r := splitAtFirst (fun c => c = ':') l.reverse
  match r.2 with
  | [] => none
  | _ :: rest => some (rest.reverse, r.1.reverse)

def natOfDigits (l : List Char) : Nat :=
  l.foldl (fun n c => n * 10 + (c.toNat - 48)) 0

def decimalDigitChar (n : Nat) : Char := Char.ofNat (48 + n)

def natToDecimalAux : Nat → Nat → List Char
  | 0, _ => []
  | fuel + 1, n =>
    if n < 10 then [decimalDigitChar n]
    else natToDecimalAux fuel (n / 10) ++ [decimalDigitChar (n % 10)]

/-- Decimal representation of a natural number (port canonicalization). -/
def natToDecimal (n : Nat) : List Char := natToDecimalAux (n + 1) n

def defaultPortOf (scheme : List Char) : Nat :=
  if scheme = "https".data then 443 else if scheme = "http".data then 80 else 0

/-- Parse `host[:port]`.  The host is lowercased and must consist of
allowed host characters; an explicit default port is elided; the port is
canonicalized to its decimal representation. -/
def parseAuthority (special : Bool) (scheme : List Char) (auth : List Char) :
    Option (List Char × List Char) :=
  if auth.contains '@' then none
  else
    let checkHost := fun (h : List Char) (port : List Char) =>
      let h' := h.map Char.toLower
      if h' ≠ [] && h'.all isHostChar then some (h', port) else none
    match splitAtLastColon auth with
    | none => checkHost auth []
    | some (h, pdigits) =>
      if pdigits.all Char.isDigit then
        if pdigits = [] then checkHost h []
        else
          let n := natOfDigits pdigits
          if n ≥ 65536 then none
          else if special && n = defaultPortOf scheme then checkHost h []
          else checkHost h (natToDecimal n)
      else none

def parseHashPart (l : List Char) : List Char :=
  match l with
  | '#' :: rest => if rest = [] then [] else '#' :: rest
  | _ => []

def parseSearchHash (l : List Char) : List Char × List Char :=
  match l with
  | '?' :: rest =>
    let t := splitAtFirst (fun c => c = '#') rest
    (if t.1 = [] then [] else '?' :: t.1, parseHashPart t.2)
  | other => ([], parseHashPart other)

def isPathDelim (c : Char) : Bool := c = '/' || c = '?' || c = '#'

/-- Split the part after the authority into pathname, search and hash;
for special schemes an absent path defaults to `/`. -/
def parsePathSearchHash (special : Bool) (rest2 : List Char) :
    List Char × List Char × List Char :=
  match rest2 with
  | '/' :: _ =>
    let t := splitAtFirst (fun c => c = '?' || c = '#') rest2
    let sh := parseSearchHash t.2
    (t.1, sh.1, sh.2)
  | other =>
    let sh := parseSearchHash other
    (if special then ['/'] else [], sh.1, sh.2)

/-- Parse what follows `scheme:` for a special (`http`/`https`) scheme:
any run of slashes, then authority, then path/search/hash. -/
def parseSpecialRest (scheme rest : List Char) : Option UrlRec :=
  let rest1 := rest.dropWhile (fun c => c = '/')
  let pr := splitAtFirst isPathDelim rest1
  match parseAuthority true scheme pr.1 with
  | none => none
  | some (host, port) =>
    let psh := parsePathSearchHash true pr.2
    some { scheme := scheme, host := host, port := port,
           pathname := psh.1, search := psh.2.1, hash := psh.2.2 }

/-- Parse what follows `scheme:` for a non-special scheme: an authority
only after a literal `//`, otherwise an opaque path. -/
def parseNonSpecialRest (scheme rest : List Char) : Option UrlRec :=
  match rest with
  | '/' :: '/' :: rest1 =>
    let pr := splitAtFirst isPathDelim rest1
    match parseAuthority false scheme pr.1 with
    | none => none
    | some (host, port) =>
      let psh := parsePathSearchHash false pr.2
      some { scheme := scheme, host := host, port := port,
             pathname := psh.1, search := psh.2.1, hash := psh.2.2 }
  | _ =>
    let t := splitAtFirst (fun c => c = '?' || c = '#') rest
    let sh := parseSearchHash t.2
    some { scheme := scheme, host := [], port := [],
           pathname := t.1, search := sh.1, hash := sh.2 }

/-- URL parsing on an already-trimmed character list. -/
def jsUrlParseList (l : List Char) : Option UrlRec :=
  let sr := splitAtFirst (fun c => !isSchemeChar c) l
  match sr.2 with
  | c :: rest =>
    if c = ':' then
      let scheme := sr.1.map Char.toLower
      match scheme with
      | [] => none
      | c0 :: _ =>
        if !c0.isAlpha then none
        else if scheme = "http".data || scheme = "https".data then
          parseSpecialRest scheme rest
        else parseNonSpecialRest scheme rest
    else none
  | [] => none

/-- `new URL(s)`: trim, then parse. -/
def jsUrlParse (s : String) : Option UrlRec :=
  jsUrlParseList (trimChars s.data)

/-- `url.toString()` / `url.href`. -/
def serializeUrl (r : UrlRec) : List Char :=
  r.scheme ++ ':' ::
    ((if r.host ≠ [] then
        '/' :: '/' :: (r.host ++ (if r.port = [] then [] else ':' :: r.port))
      else []) ++ r.pathname ++ r.search ++ r.hash)

def UrlRec.href (r : UrlRec) : String := String.mk (serializeUrl r)

/-! ### `URLSearchParams` (raw pairs, no percent decoding) -/

def parseQueryPairs (search : List Char) : List (List Char × List Char) :=
  let q := match search with
    | '?' :: t => t
    | other => other
  ((splitSep '&' q).filter (fun piece => piece ≠ [])).map fun piece =>
    let t := splitAtFirst (fun c => c = '=') piece
    match t.2 with
    | '=' :: v => (t.1, v)
    | _ => (t.1, [])

def serializeQueryPairs : List (List Char × List Char) → List Char
  | [] => []
  | [p] => p.1 ++ '=' :: p.2
  | p :: ps => p.1 ++ '=' :: p.2 ++ '&' :: serializeQueryPairs ps

def deleteQueryParam (ps : List (List Char × List Char)) (name : List Char) :
    List (List Char × List Char) :=
  ps.filter (fun p => p.1 ≠ name)

def hasQueryParamPairs (ps : List (List Char × List Char))
    (name : List Char) : Bool :=
  ps.any (fun p => p.1 = name)

/-- The `urlObj.search` setter: empty string clears the query, anything
else is stored behind a `?`. -/
def setSearch (r : UrlRec) (q : List Char) : UrlRec :=
  { r with search := if q = [] then [] else '?' :: q }

/-! ## LinkedIn URL validation and normalization (`linkedin.common`) -/

def LINKEDIN_BASE_URL : String := "https://linkedin.com/in/"

def TRACKING_PARAMETERS : List String :=
  ["utm_source", "utm_medium", "utm_campaign", "utm_content", "utm_term",
   "ref", "refId", "trackingId", "source", "src", "fbclid", "gclid"]

def isUsernameChar (c : Char) : Bool :=
  c.isAlphanum || c = '-' || c = '_'

/-- `linkedinUsernameSchema`: 3–100 characters from `[a-zA-Z0-9_-]`. -/
def validateLinkedinUsername (l : List Char) : Bool :=
  3 ≤ l.length && l.length ≤ 100 && l.all isUsernameChar

def stripTrailingSlashes (l : List Char) : List Char :=
  (l.reverse.dropWhile (fun c => c = '/')).reverse

/-- Case-insensitive prefix test (`/^pat/i.test`); `pat` is lowercase. -/
def ciHasPrefix (pat : String) (l : List Char) : Bool :=
  (l.take pat.data.length).map Char.toLower = pat.data

/-- `.replace(/^http:/, 'https:')` — case-sensitive. -/
def replaceHttpPrefixColon (l : List Char) : List Char :=
  if "http:".data.isPrefixOf l then "https:".data ++ l.drop 5 else l

/-- The transform of `linkedinFlexibleInputSchema`, applied to the
already-trimmed input. -/
def flexibleTransform (input : List Char) : List Char :=
  let cleaned := trimChars (stripTrailingSlashes input)
  if !cleaned.contains '/' && !cleaned.contains '.' then cleaned
  else if ciHasPrefix "linkedin.com/in/" cleaned then
    "https://".data ++ cleaned
  else if ciHasPrefix "www.linkedin.com/in/" cleaned then
    "https://".data ++ cleaned
  else if ciHasPrefix "http://linkedin.com/in/" cleaned then
    replaceHttpPrefixColon cleaned
  else if ciHasPrefix "http://www.linkedin.com/in/" cleaned then
    replaceHttpPrefixColon cleaned
  else cleaned

/-- `validateFlexibleInput`: trim, require non-empty, then transform. -/
def validateFlexibleInput (input : String) : Option String :=
  let t := trimChars input.data
  if t = [] then none else some (String.mk (flexibleTransform t))

/-- `String.prototype.includes(pat)` on character lists. -/
def listIsInfixOf (pat : List Char) : List Char → Bool
  | [] => pat.isPrefixOf []
  | c :: cs => pat.isPrefixOf (c :: cs) || listIsInfixOf pat cs

/-- `String.prototype.replace(pat, '')` for a literal pattern: remove the
first occurrence. -/
def removeFirstOcc (pat : List Char) : List Char → List Char
  | [] => []
  | c :: cs =>
    if pat.isPrefixOf (c :: cs) then (c :: cs).drop pat.length
    else c :: removeFirstOcc pat cs

/-- `urlObj.pathname.replace('/in/', '').split('/')[0] || ''`. -/
def extractPathUsername (pathname : List Char) : List Char :=
  (splitSep '/' (removeFirstOcc "/in/".data pathname)).headD []

/-- `linkedinNormalizedUrlSchema` (`validateLinkedinUrl`): a URL with
scheme `https`, host `linkedin.com` or `www.linkedin.com`, a path
starting with `/in/` and a valid username in the first path segment. -/
def validateLinkedinUrl (s : String) : Bool :=
  match jsUrlParse s with
  | none => false
  | some r =>
    r.protocol = "https:".data &&
    (r.host = "linkedin.com".data || r.host = "www.linkedin.com".data) &&
    "/in/".data.isPrefixOf r.pathname &&
    validateLinkedinUsername (extractPathUsername r.pathname)

/-- `cleanTrackingParameters`: delete every tracking parameter from the
query and rebuild the URL; unparsable input is returned unchanged. -/
def cleanTrackingParameters (s : String) : String :=
  match jsUrlParse s with
  | none => s
  | some r =>
    let ps := parseQueryPairs r.search
    let cleanedPs := TRACKING_PARAMETERS.foldl
      (fun acc name => deleteQueryParam acc name.data) ps
    (setSearch r (serializeQueryPairs cleanedPs)).href

/-- Step 4 of `linkedinUrlNormalizationSchema`: rewrite a
`www.linkedin.com` host to `linkedin.com` and reserialize. -/
def canonicalizeLinkedinHost (s : String) : String :=
  match jsUrlParse s with
  | none => s
  | some r =>
    if r.host = "www.linkedin.com".data then
      ({ r with host := "linkedin.com".data } : UrlRec).href
    else r.href

/-- The username refinement of `linkedinUrlNormalizationSchema` (its
second `refine`): requires `/` and `.`; when `/in/` occurs the URL must
parse and carry a valid username. -/
def normalizationUsernameCheck (processed : List Char) : Bool :=
  if !processed.contains '/' || !processed.contains '.' then false
  else if listIsInfixOf "/in/".data processed then
    match jsUrlParseList (trimChars processed) with
    | none => false
    | some r => validateLinkedinUsername (extractPathUsername r.pathname)
  else true

/-- `normalizeLinkedinUrl` (`linkedinUrlNormalizationSchema.safeParse`):
trim and require non-empty; apply the flexible transform; prepend the
canonical base to bare handles; check the username; strip tracking
parameters; canonicalize the host; finally validate the result. -/
def normalizeLinkedinUrl (input : String) : Option String :=
  let t := trimChars input.data
  if t = [] then none
  else
    let processed0 := flexibleTransform t
    let processed :=
      if !processed0.contains '/' && !processed0.contains '.' then
        LINKEDIN_BASE_URL.data ++ processed0
      else processed0
    if !normalizationUsernameCheck processed then none
    else
      let cleaned := cleanTrackingParameters (String.mk processed)
      let canonical := canonicalizeLinkedinHost cleaned
      if validateLinkedinUrl canonical then some canonical else none

/-! ## Suspicion analysis (`detectSuspiciousUrlIndicators`) -/

structure SuspiciousUrlIndicators where
  hasTrackingParams : Bool
  hasUnusualParameters : Bool
  hasShortUsername : Bool
  hasUnusualFormat : Bool
  deriving Repr, DecidableEq

/-- Case-insensitive substring test (`/pat/i.test`); `pat` is lowercase. -/
def ciContains (pat : String) (l : List Char) : Bool :=
  listIsInfixOf pat.data (l.map Char.toLower)

def SHORT_USERNAME_THRESHOLD : Nat := 3

def MAX_QUERY_PARAMS : Nat := 2

def matchesSuspiciousParamPattern (name : List Char) : Bool :=
  ciContains "track" name || ciContains "ref" name ||
    ciContains "source" name || ciContains "campaign" name

def detectSuspiciousUrlIndicators (url : String) : SuspiciousUrlIndicators :=
  if url = "" || trimChars url.data = [] ||
      !(listIsInfixOf "://".data url.data) then
    ⟨false, false, false, true⟩
  else
    match jsUrlParse url with
    | none => ⟨false, false, false, true⟩
    | some r =>
      let ps := parseQueryPairs r.search
      let username := extractPathUsername r.pathname
      let hasTrackingParams :=
        TRACKING_PARAMETERS.any (fun p => hasQueryParamPairs ps p.data)
      let hasUnusualParameters :=
        ps.length > MAX_QUERY_PARAMS ||
          ps.any (fun q => matchesSuspiciousParamPattern q.1)
      let hasShortUsername := username.length ≤ SHORT_USERNAME_THRESHOLD
      let hasUnusualFormat :=
        (splitSep '/' r.pathname).length > 3 ||
          r.hash.length > 0 ||
          r.port ≠ [] ||
          !(r.protocol = "http:".data || r.protocol = "https:".data) ||
          (username ≠ [] && username.all Char.isDigit) ||
          listIsInfixOf "--".data username ||
          listIsInfixOf "__".data username
      ⟨hasTrackingParams, hasUnusualParameters, hasShortUsername,
        hasUnusualFormat⟩

def isSuspiciousUrl (url : String) : Bool :=
  let i := detectSuspiciousUrlIndicators url
  i.hasTrackingParams || i.hasUnusualParameters || i.hasShortUsername ||
    i.hasUnusualFormat

/-! ## Analysis wrapper and rate-limited processing (`linkedin.server`) -/

structure UrlNormalizationResult where
  originalInput : String
  normalizedUrl : String
  extractedUsername : String
  wasTranformed : Bool
  suspiciousIndicators : SuspiciousUrlIndicators
  deriving Repr, DecidableEq

/-- `normalizeLinkedinUrlWithAnalysis`: suspicion is computed on the
original (or minimally processed) input, then full normalization runs. -/
def normalizeLinkedinUrlWithAnalysis (input : String) :
    Option (UrlNormalizationResult × Bool) :=
  let originalUrlForAnalysis :=
    match validateFlexibleInput input with
    | none => input
    | some processed =>
      if !processed.data.contains '/' && !processed.data.contains '.' then
        if validateLinkedinUsername processed.data then
          LINKEDIN_BASE_URL ++ processed
        else input
      else processed
  let indicators := detectSuspiciousUrlIndicators originalUrlForAnalysis
  let suspicious := isSuspiciousUrl originalUrlForAnalysis
  match normalizeLinkedinUrl input with
  | none => none
  | some normalizedUrl =>
    let extractedUsername :=
      match jsUrlParse normalizedUrl with
      | some r => String.mk (extractPathUsername r.pathname)
      | none => "unknown"
    some ({ originalInput := input, normalizedUrl := normalizedUrl,
            extractedUsername := extractedUsername,
            wasTranformed := input ≠ normalizedUrl,
            suspiciousIndicators := indicators }, suspicious)

inductive ProcessUrlOutcome where
  | rateLimited (message : String) (code : String) (retryAfter : Nat)
  | processed (r : Option (UrlNormalizationResult × Bool))
  deriving Repr, DecidableEq

/-- `createLinkedinUrlProcessor(...).processUrl`: consult the rate
limiter, then normalize. -/
def processUrl (maxRPM : Nat) (st : RateLimitState) (clientId : String)
    (now : Nat) (input : String) : ProcessUrlOutcome × RateLimitState :=
  let c := canMakeRequest maxRPM st clientId now
  if c.1 then (.processed (normalizeLinkedinUrlWithAnalysis input), c.2)
  else (.rateLimited "Rate limit exceeded" "rate_limit_exceeded" 60, c.2)

/-! ## QR content and config validation (`qr.common.ts`) -/

/-- `qrContentSchema`: 1–2953 characters, and either a parsable URL or at
least 3 characters of text. -/
def validateQrContent (content : String) : Bool :=
  1 ≤ content.length && content.length ≤ 2953 &&
    ((jsUrlParse content).isSome || content.length ≥ 3)

def isHexColorChar (c : Char) : Bool :=
  c.isDigit || ('a' ≤ c && c ≤ 'f') || ('A' ≤ c && c ≤ 'F')

/-- The `/^#[0-9A-Fa-f]{6}$/` color pattern. -/
def isHexColor (s : String) : Bool :=
  match s.data with
  | '#' :: rest => rest.length = 6 && rest.all isHexColorChar
  | _ => false

/-- `qrConfigSchema` on a fully populated config. -/
def validateQrConfig (c : QrConfig) : Bool :=
  64 ≤ c.size && c.size ≤ 1024 &&
    ["L", "M", "Q", "H"].contains c.errorCorrectionLevel &&
    c.margin ≤ 10 &&
    isHexColor c.colors.dark && isHexColor c.colors.light

structure PartialQrConfig where
  size : Option Nat
  errorCorrectionLevel : Option String
  margin : Option Nat
  colors : Option QrColors
  includeMargin : Option Bool
  deriving Repr, DecidableEq

/-- `{...DEFAULT_QR_CONFIG, ...config}`. -/
def mergeQrConfig (base : QrConfig) (p : PartialQrConfig) : QrConfig :=
  { size := p.size.getD base.size,
    errorCorrectionLevel :=
      p.errorCorrectionLevel.getD base.errorCorrectionLevel,
    margin := p.margin.getD base.margin,
    colors := p.colors.getD base.colors,
    includeMargin := p.includeMargin.getD base.includeMargin }

def emptyPartialQrConfig : PartialQrConfig :=
  { size := none, errorCorrectionLevel := none, margin := none,
    colors := none, includeMargin := none }

/-! ## QR generation with caching (`qr.server.ts`)

The external renderer (`QRCode.toDataURL`) is an input of the model: the
state carries a script of outcomes, one consumed per renderer
invocation, and `renderCount` counts the invocations. -/

structure QrError where
  message : String
  code : String
  deriving Repr, DecidableEq

structure QrServerState where
  cache : QrCache
  renderOutcomes : List (Except String String)
  renderCount : Nat
  deriving Repr

def qrContentErrorMessage (content : String) : String :=
  if content.length < 1 then "QR code content cannot be empty"
  else if content.length > 2953 then
    "QR code content exceeds maximum length for reliable encoding"
  else "QR code content must be a valid URL or meaningful text"

/-- `generateQrCodeServer`: validate content, merge and validate config,
then call the external renderer; a rejected promise becomes a
`generation_failed` error. -/
def generateQrCodeServer (st : QrServerState) (content : String)
    (config : PartialQrConfig) (now : Nat) :
    Except QrError QrGenerationResult × QrServerState :=
  if !validateQrContent content then
    (.error ⟨qrContentErrorMessage content, "invalid_content"⟩, st)
  else
    let fullConfig := mergeQrConfig DEFAULT_QR_CONFIG config
    if !validateQrConfig fullConfig then
      (.error ⟨"Invalid QR code configuration", "invalid_config"⟩, st)
    else
      match st.renderOutcomes with
      | .ok dataUrl :: rest =>
        (.ok { content := content, config := fullConfig, dataUrl := dataUrl,
               width := fullConfig.size, height := fullConfig.size,
               generatedAt := now, format := "png" },
         { st with renderOutcomes := rest,
                   renderCount := st.renderCount + 1 })
      | .error msg :: rest =>
        (.error ⟨msg, "generation_failed"⟩,
         { st with renderOutcomes := rest,
                   renderCount := st.renderCount + 1 })
      | [] =>
        (.error ⟨"Failed to generate QR code", "generation_failed"⟩,
         { st with renderCount := st.renderCount + 1 })

/-- `generateCachedQrCode`: try the cache under the content-addressed
key; on a miss, render and cache only a successful result.  The boolean
in the result is `fromCache`. -/
def generateCachedQrCode (st : QrServerState) (content : String)
    (config : PartialQrConfig) (now : Nat) :
    Except QrError (QrGenerationResult × Bool) × QrServerState :=
  let fullConfig := mergeQrConfig DEFAULT_QR_CONFIG config
  let cacheKey := generateQrCacheKey content fullConfig
  let g := qrCacheGet st.cache cacheKey now
  let st1 := { st with cache := g.2 }
  match g.1 with
  | some cached => (.ok (cached, true), st1)
  | none =>
    let r := generateQrCodeServer st1 content config now
    match r.1 with
    | .error e => (.error e, r.2)
    | .ok data =>
      (.ok (data, false),
       { r.2 with cache :=
           qrCacheSet QR_CACHE_MAX_SIZE r.2.cache cacheKey data none now })

/-! ## Claim C4: cache-key dependence -/

/-- C4, counterexample: two configs that agree on `size`,
`errorCorrectionLevel`, `margin` and `colors` but differ in
`includeMargin` produce different cache keys, so the key does not depend
only on those four config fields.  (The hash loop is evaluated in chunks
of 16 bytes to keep each kernel reduction shallow.) -/
theorem generateQrCacheKey_not_only_four_fields :
    let c2 : QrConfig := { DEFAULT_QR_CONFIG with includeMargin := false }
    DEFAULT_QR_CONFIG.size = c2.size ∧
    DEFAULT_QR_CONFIG.errorCorrectionLevel = c2.errorCorrectionLevel ∧
    DEFAULT_QR_CONFIG.margin = c2.margin ∧
    DEFAULT_QR_CONFIG.colors = c2.colors ∧
    generateQrCacheKey "x" DEFAULT_QR_CONFIG ≠
      generateQrCacheKey "x" c2 := by
  refine ⟨rfl, rfl, rfl, rfl, ?_⟩
  have h0 : List.foldl jsHashStep 0
      [120, 124, 123, 34, 115, 105, 122, 101, 34, 58, 50, 53, 54, 44, 34, 101] =
      111167584 := by decide
  have h1 : List.foldl jsHashStep 111167584
      [114, 114, 111, 114, 67, 111, 114, 114, 101, 99, 116, 105, 111, 110, 76, 101] =
      127145370 := by decide
  have h2 : List.foldl jsHashStep 127145370
      [118, 101, 108, 34, 58, 34, 77, 34, 44, 34, 109, 97, 114, 103, 105, 110] =
      2304758400 := by decide
  have h3 : List.foldl jsHashStep 2304758400
      [34, 58, 52, 44, 34, 99, 111, 108, 111, 114, 115, 34, 58, 123, 34, 100] =
      993254755 := by decide
  have h4 : List.foldl jsHashStep 993254755
      [97, 114, 107, 34, 58, 34, 35, 48, 48, 48, 48, 48, 48, 34, 44, 34] =
      1311022056 := by decide
  have h5 : List.foldl jsHashStep 1311022056
      [108, 105, 103, 104, 116, 34, 58, 34, 35, 70, 70, 70, 70, 70, 70, 34] =
      3057887803 := by decide
  have h6 : List.foldl jsHashStep 3057887803
      [125, 44, 34, 105, 110, 99, 108, 117, 100, 101, 77, 97, 114, 103, 105, 110] =
      1321000158 := by decide
  have h7T : List.foldl jsHashStep 1321000158
      [34, 58, 116, 114, 117, 101, 125] = 3988634809 := by decide
  have h7F : List.foldl jsHashStep 1321000158
      [34, 58, 102, 97, 108, 115, 101, 125] = 2971831536 := by decide
  have hb1 : stringUtf8Bytes ("x" ++ "|" ++ qrConfigHashString DEFAULT_QR_CONFIG) =
      [120, 124, 123, 34, 115, 105, 122, 101, 34, 58, 50, 53, 54, 44, 34, 101] ++
      [114, 114, 111, 114, 67, 111, 114, 114, 101, 99, 116, 105, 111, 110, 76, 101] ++
      [118, 101, 108, 34, 58, 34, 77, 34, 44, 34, 109, 97, 114, 103, 105, 110] ++
      [34, 58, 52, 44, 34, 99, 111, 108, 111, 114, 115, 34, 58, 123, 34, 100] ++
      [97, 114, 107, 34, 58, 34, 35, 48, 48, 48, 48, 48, 48, 34, 44, 34] ++
      [108, 105, 103, 104, 116, 34, 58, 34, 35, 70, 70, 70, 70, 70, 70, 34] ++
      [125, 44, 34, 105, 110, 99, 108, 117, 100, 101, 77, 97, 114, 103, 105, 110] ++
      [34, 58, 116, 114, 117, 101, 125] := by decide
  have hb2 : stringUtf8Bytes ("x" ++ "|" ++
        qrConfigHashString { DEFAULT_QR_CONFIG with includeMargin := false }) =
      [120, 124, 123, 34, 115, 105, 122, 101, 34, 58, 50, 53, 54, 44, 34, 101] ++
      [114, 114, 111, 114, 67, 111, 114, 114, 101, 99, 116, 105, 111, 110, 76, 101] ++
      [118, 101, 108, 34, 58, 34, 77, 34, 44, 34, 109, 97, 114, 103, 105, 110] ++
      [34, 58, 52, 44, 34, 99, 111, 108, 111, 114, 115, 34, 58, 123, 34, 100] ++
      [97, 114, 107, 34, 58, 34, 35, 48, 48, 48, 48, 48, 48, 34, 44, 34] ++
      [108, 105, 103, 104, 116, 34, 58, 34, 35, 70, 70, 70, 70, 70, 70, 34] ++
      [125, 44, 34, 105, 110, 99, 108, 117, 100, 101, 77, 97, 114, 103, 105, 110] ++
      [34, 58, 102, 97, 108, 115, 101, 125] := by decide
  have e1 : generateQrCacheKey "x" DEFAULT_QR_CONFIG = "qr_0052drnr00jq3llf" := by
    simp only [generateQrCacheKey]
    rw [hb1, List.foldl_append, List.foldl_append, List.foldl_append,
      List.foldl_append, List.foldl_append, List.foldl_append,
      List.foldl_append, h0, h1, h2, h3, h4, h5, h6, h7T]
    decide
  have e2 : generateQrCacheKey "x"
      { DEFAULT_QR_CONFIG with includeMargin := false } =
      "qr_00lvre34007n0a56" := by
    simp only [generateQrCacheKey]
    rw [hb2, List.foldl_append, List.foldl_append, List.foldl_append,
      List.foldl_append, List.foldl_append, List.foldl_append,
      List.foldl_append, h0, h1, h2, h3, h4, h5, h6, h7F]
    decide
  rw [e1, e2]
  decide

/-- C4 (amended): the cache key is deterministic and depends only on the
content together with the config fields `size`, `errorCorrectionLevel`,
`margin`, `colors` and `includeMargin`: configs agreeing on those five
fields yield the same key for the same content. -/
theorem generateQrCacheKey_depends_only_on_hash_fields
    (content : String) (c1 c2 : QrConfig)
    (hsize : c1.size = c2.size)
    (hecl : c1.errorCorrectionLevel = c2.errorCorrectionLevel)
    (hmargin : c1.margin = c2.margin)
    (hcolors : c1.colors = c2.colors)
    (hinc : c1.includeMargin = c2.includeMargin) :
    generateQrCacheKey content c1 = generateQrCacheKey content c2 := by
  cases c1; cases c2
  simp only at hsize hecl hmargin hcolors hinc
  subst hsize; subst hecl; subst hmargin; subst hcolors; subst hinc
  rfl

/-- C4 witness: a concrete instance of the amended dependence theorem. -/
theorem generateQrCacheKey_depends_only_on_hash_fields_witness :
    generateQrCacheKey "x" DEFAULT_QR_CONFIG =
      generateQrCacheKey "x"
        { size := 256, errorCorrectionLevel := "M", margin := 4,
          colors := { dark := "#000000", light := "#FFFFFF" },
          includeMargin := true } :=
  generateQrCacheKey_depends_only_on_hash_fields "x" _ _ rfl rfl rfl rfl rfl

/-! ## Claim C8: usage-count rule of the cookie merge -/

def c8ExistingExample : UserDataCookie :=
  { linkedinUrl := some
      { url := "https://linkedin.com/in/abc", validatedAt := "t0",
        lastUsed := "t0", usageCount := 5 },
    qrConfig := none, preferences := none, version := "1.0",
    createdAt := "t0", updatedAt := "t0" }

def c8UpdatesExample : UserDataUpdates :=
  { linkedinUrl := some "", qrConfig := none, preferences := none }

/-- C8, counterexample: an identifier update carrying the empty string is
ignored (JavaScript truthiness), so `usageCount` is neither incremented
nor reset to 1 even though the submitted URL differs from the stored
one — the existing count 5 survives. -/
theorem updateUserDataCookie_empty_url_counterexample :
    c8UpdatesExample.linkedinUrl = some "" ∧
    "" ≠ (c8ExistingExample.linkedinUrl.map (fun l => l.url)).getD "" ∧
    ((updateUserDataCookie c8ExistingExample c8UpdatesExample "t1").linkedinUrl.map
      (fun l => l.usageCount)) = some 5 := by
  refine ⟨rfl, by decide, rfl⟩

/-- C8 (amended): for every existing persisted state and every identifier
update carrying a non-empty URL, the merge stores that URL and sets
`usageCount` to the existing count plus 1 when the submitted URL equals
the stored URL, and resets it to 1 otherwise (including when no
identifier record existed).  An empty-string update is ignored. -/
theorem updateUserDataCookie_usageCount
    (existing : UserDataCookie) (updates : UserDataUpdates) (now : String)
    (u : String) (hu : updates.linkedinUrl = some u) (hne : u ≠ "") :
    ∃ rec, (updateUserDataCookie existing updates now).linkedinUrl = some rec ∧
      rec.url = u ∧
      rec.usageCount = nextUsageCount existing.linkedinUrl u ∧
      nextUsageCount existing.linkedinUrl u =
        (match existing.linkedinUrl with
         | some ex => if ex.url = u then ex.usageCount + 1 else 1
         | none => 1) := by
  refine ⟨{ url := u, validatedAt := now, lastUsed := now,
            usageCount := nextUsageCount existing.linkedinUrl u }, ?_, rfl, rfl, rfl⟩
  unfold updateUserDataCookie
  rw [hu]
  cases updates.qrConfig <;> cases updates.preferences <;> simp [hne]

/-- C8 witness: resubmitting the stored URL increments the count from 5
to 6. -/
theorem updateUserDataCookie_usageCount_witness :
    ∃ rec, (updateUserDataCookie c8ExistingExample
        { linkedinUrl := some "https://linkedin.com/in/abc",
          qrConfig := none, preferences := none } "t1").linkedinUrl =
      some rec ∧
      rec.url = "https://linkedin.com/in/abc" ∧
      rec.usageCount =
        nextUsageCount c8ExistingExample.linkedinUrl
          "https://linkedin.com/in/abc" ∧
      nextUsageCount c8ExistingExample.linkedinUrl
          "https://linkedin.com/in/abc" =
        (match c8ExistingExample.linkedinUrl with
         | some ex =>
           if ex.url = "https://linkedin.com/in/abc" then ex.usageCount + 1
           else 1
         | none => 1) :=
  updateUserDataCookie_usageCount c8ExistingExample _ "t1"
    "https://linkedin.com/in/abc" rfl (by decide)

/-! ## Claim C2: staged sanitization of the cookie write -/

theorem stringUtf8Bytes_append (s t : String) :
    stringUtf8Bytes (s ++ t) = stringUtf8Bytes s ++ stringUtf8Bytes t := by
  cases s with
  | mk a =>
    cases t with
    | mk b =>
      show (String.mk (a ++ b)).data.flatMap utf8EncodeChar = _
      simp [stringUtf8Bytes]

theorem blobByteSize_append (s t : String) :
    blobByteSize (s ++ t) = blobByteSize s + blobByteSize t := by
  simp [blobByteSize, stringUtf8Bytes_append]

theorem blobByteSize_replicate_a (n : Nat) :
    blobByteSize (String.mk (List.replicate n 'a')) = n := by
  induction n with
  | zero => rfl
  | succ n ih =>
    show (stringUtf8Bytes (String.mk (List.replicate (n + 1) 'a'))).length = n + 1
    rw [List.replicate_succ]
    show (utf8EncodeChar 'a' ++
      (List.replicate n 'a').flatMap utf8EncodeChar).length = n + 1
    rw [List.length_append]
    have : (utf8EncodeChar 'a').length = 1 := by decide
    rw [this]
    have ih' : ((List.replicate n 'a').flatMap utf8EncodeChar).length = n := ih
    omega

theorem string_data_append (s t : String) :
    (s ++ t).data = s.data ++ t.data := by
  cases s; cases t; rfl

theorem listIsPrefixOf_append (p r : List Char) :
    p.isPrefixOf (p ++ r) = true := by
  induction p with
  | nil => simp [List.isPrefixOf]
  | cons c cs ih => simp [List.isPrefixOf, ih]

theorem clampUsageCount_fst_of_snd_false (d : UserDataCookie)
    (h : (clampUsageCount d).2 = false) : (clampUsageCount d).1 = d := by
  cases hd : d.linkedinUrl with
  | none => simp [clampUsageCount, hd]
  | some l =>
    by_cases hc : l.usageCount > 999
    · simp [clampUsageCount, hd, hc] at h
    · simp [clampUsageCount, hd, hc]

/-- C2: `setUserData` sanitizes before serializing.  If the serialized
state fits the 3900-byte ceiling it is written unchanged; if oversized,
the usage count is first capped at 999; if still oversized only the
identifier record, version and timestamps are kept; if even that exceeds
the ceiling the write fails with a data-too-large error and an empty
cookie header, so nothing is written. -/
theorem setUserData_size_stages (d : UserDataCookie) :
    ((checkCookieSize d).isValid = true →
      setUserData d =
        { success := true,
          cookieHeader := buildSetCookieHeader (serializeUserDataCookie d),
          errors := [], warnings := [] }) ∧
    ((checkCookieSize d).isValid = false →
      (checkCookieSize (clampUsageCount d).1).isValid = true →
      setUserData d =
        { success := true,
          cookieHeader :=
            buildSetCookieHeader (serializeUserDataCookie (clampUsageCount d).1),
          errors := [],
          warnings := ["Cookie data was sanitized to fit size limits"] }) ∧
    ((checkCookieSize d).isValid = false →
      (checkCookieSize (clampUsageCount d).1).isValid = false →
      (checkCookieSize (essentialOnly (clampUsageCount d).1)).isValid = true →
      setUserData d =
        { success := true,
          cookieHeader := buildSetCookieHeader
            (serializeUserDataCookie (essentialOnly (clampUsageCount d).1)),
          errors := [],
          warnings := ["Cookie data was sanitized to fit size limits"] }) ∧
    ((checkCookieSize d).isValid = false →
      (checkCookieSize (clampUsageCount d).1).isValid = false →
      (checkCookieSize (essentialOnly (clampUsageCount d).1)).isValid = false →
      (setUserData d).success = false ∧ (setUserData d).cookieHeader = "" ∧
        ∃ msg, (setUserData d).errors = [msg] ∧
          "Cookie data too large: ".data.isPrefixOf msg.data = true) := by
  refine ⟨?_, ?_, ?_, ?_⟩
  · intro h1
    simp [setUserData, sanitizeCookieData, h1]
  · intro h1 h2
    have hcl : (clampUsageCount d).2 = true := by
      cases hcl : (clampUsageCount d).2 with
      | true => rfl
      | false =>
        rw [clampUsageCount_fst_of_snd_false d hcl] at h2
        rw [h1] at h2
        exact absurd h2 (by simp)
    simp [setUserData, sanitizeCookieData, h1, h2, hcl]
  · intro h1 h2 h3
    simp [setUserData, sanitizeCookieData, h1, h2, h3]
  · intro h1 h2 h3
    have hs : (setUserData d).success = false ∧
        (setUserData d).cookieHeader = "" ∧
        (setUserData d).errors =
          ["Cookie data too large: " ++
            toString (checkCookieSize (essentialOnly (clampUsageCount d).1)).size ++
            " bytes (max: " ++
            toString (checkCookieSize (essentialOnly (clampUsageCount d).1)).maxSize ++
            ")"] := by
      refine ⟨?_, ?_, ?_⟩ <;> simp [setUserData, sanitizeCookieData, h1, h2, h3]
    refine ⟨hs.1, hs.2.1, ⟨_, hs.2.2, ?_⟩⟩
    rw [string_data_append, string_data_append, string_data_append,
      string_data_append, List.append_assoc, List.append_assoc,
      List.append_assoc]
    exact listIsPrefixOf_append _ _

def c2PathologicalData : UserDataCookie :=
  { linkedinUrl := some
      { url := String.mk (List.replicate 5000 'a'),
        validatedAt := "2024-01-01T00:00:00.000Z",
        lastUsed := "2024-01-01T00:00:00.000Z", usageCount := 1 },
    qrConfig := none, preferences := none, version := "1.0",
    createdAt := "2024-01-01T00:00:00.000Z",
    updatedAt := "2024-01-01T00:00:00.000Z" }

/-- C2 witness: a persisted state holding a 5000-character identifier URL
stays oversized after every sanitization stage; the write fails, emits no
cookie header, and reports a single data-too-large error. -/
theorem setUserData_size_stages_witness :
    (setUserData c2PathologicalData).success = false ∧
    (setUserData c2PathologicalData).cookieHeader = "" ∧
    ∃ msg, (setUserData c2PathologicalData).errors = [msg] ∧
      "Cookie data too large: ".data.isPrefixOf msg.data = true := by
  have hclamp : clampUsageCount c2PathologicalData =
      (c2PathologicalData, false) := rfl
  have hess : essentialOnly c2PathologicalData = c2PathologicalData := rfl
  have hsize : blobByteSize (serializeUserDataCookie c2PathologicalData) =
      5214 := by
    simp only [serializeUserDataCookie, c2PathologicalData,
      serializeLinkedinUrlCookie, jsonString, joinComma]
    simp only [blobByteSize_append, blobByteSize_replicate_a]
    decide
  have hbig : (checkCookieSize c2PathologicalData).isValid = false := by
    simp only [checkCookieSize, COOKIE_MAX_SIZE, hsize]
    decide
  have h := (setUserData_size_stages c2PathologicalData).2.2.2
  rw [hclamp] at h
  exact h hbig hbig (by rw [hess]; exact hbig)

/-! ## Claim C3: fixed-window rate limiting -/

theorem canMakeRequest_reject (maxRPM : Nat) (st : RateLimitState)
    (c : String) (t : Nat) (e : RateLimitEntry)
    (hget : mapGet st c = some e) (ht : ¬ t > e.resetTime)
    (hcount : e.count ≥ maxRPM) :
    canMakeRequest maxRPM st c t = (false, st) := by
  simp only [canMakeRequest, hget]
  rw [if_neg ht, if_pos hcount]

theorem canMakeRequest_reset (maxRPM : Nat) (st : RateLimitState)
    (c : String) (t : Nat) (e : RateLimitEntry)
    (hget : mapGet st c = some e) (ht : t > e.resetTime) :
    canMakeRequest maxRPM st c t =
      (true, mapSet st c ⟨1, t + minuteMs⟩) := by
  simp only [canMakeRequest, hget]
  rw [if_pos ht]

/-- C3: a fresh rate limiter with capacity `N ≥ 1` admits exactly the
first `N` calls of a client within the 60-second window (the i-th call is
admitted iff `i < N`); once `N` calls have been made, every further call
in the window is rejected without changing the state, and through
`processUrl` yields the rate-limit error with `retryAfter = 60`; a call
made strictly after the window admits again. -/
theorem rateLimiter_window_behavior (N : Nat) (clientId : String)
    (t0 : Nat) (ts : List Nat) (hN : 1 ≤ N)
    (hts : ∀ t ∈ ts, t ≤ t0 + minuteMs) :
    (canMakeRequest N [] clientId t0).1 ::
      (runRequests N (canMakeRequest N [] clientId t0).2 clientId ts).1 =
      (List.range (ts.length + 1)).map (fun i => decide (i < N)) ∧
    (N ≤ ts.length + 1 →
      ∀ t, t ≤ t0 + minuteMs →
        canMakeRequest N
          (runRequests N (canMakeRequest N [] clientId t0).2 clientId ts).2
          clientId t =
        (false,
         (runRequests N (canMakeRequest N [] clientId t0).2 clientId ts).2)) ∧
    (N ≤ ts.length + 1 →
      ∀ t input, t ≤ t0 + minuteMs →
        processUrl N
          (runRequests N (canMakeRequest N [] clientId t0).2 clientId ts).2
          clientId t input =
        (.rateLimited "Rate limit exceeded" "rate_limit_exceeded" 60,
         (runRequests N (canMakeRequest N [] clientId t0).2 clientId ts).2)) ∧
    (∀ t, t0 + minuteMs < t →
      (canMakeRequest N
        (runRequests N (canMakeRequest N [] clientId t0).2 clientId ts).2
        clientId t).1 = true) := by
  have hfirst : canMakeRequest N [] clientId t0 =
      (true, [(clientId, ⟨1, t0 + minuteMs⟩)]) := by
    simp [canMakeRequest, mapGet, mapSet]
  have hget0 : mapGet (canMakeRequest N [] clientId t0).2 clientId =
      some ⟨min 1 N, t0 + minuteMs⟩ := by
    rw [hfirst, Nat.min_eq_left hN]
    simp [mapGet]
  obtain ⟨h1, h2⟩ := runRequests_window N clientId (t0 + minuteMs) ts hts
    (canMakeRequest N [] clientId t0).2 1 le_rfl hget0
  have hreject : N ≤ ts.length + 1 →
      ∀ t, t ≤ t0 + minuteMs →
        canMakeRequest N
          (runRequests N (canMakeRequest N [] clientId t0).2 clientId ts).2
          clientId t =
        (false,
         (runRequests N (canMakeRequest N [] clientId t0).2 clientId ts).2) := by
    intro hNle t ht
    have hmin : min (1 + ts.length) N = N := Nat.min_eq_right (by omega)
    rw [hmin] at h2
    exact canMakeRequest_reject N _ clientId t _ h2 (by simp; omega)
      (by simp)
  refine ⟨?_, hreject, ?_, ?_⟩
  · simp only [List.range_succ_eq_map, List.map_cons, List.map_map]
    refine congrArg₂ List.cons ?_ ?_
    · rw [hfirst]
      exact (decide_eq_true (by omega)).symm
    · rw [h1]
      refine List.map_congr_left fun i _ => ?_
      simp only [Function.comp, Nat.succ_eq_add_one]
      rw [show 1 + i = i + 1 from by omega]
  · intro hNle t input ht
    have hr := hreject hNle t ht
    simp [processUrl, hr]
  · intro t ht
    rw [canMakeRequest_reset N _ clientId t _ h2 (by simpa using ht)]

/-- C3 witness: capacity 5, calls at 0,1,2,3,4 admitted; the sixth call
at time 5 is rejected through `processUrl` with `retryAfter = 60`; a call
at 60001 (strictly past the window) is admitted again. -/
theorem rateLimiter_window_behavior_witness :
    (canMakeRequest 5 [] "c1" 0).1 ::
      (runRequests 5 (canMakeRequest 5 [] "c1" 0).2 "c1" [1, 2, 3, 4]).1 =
      [true, true, true, true, true] ∧
    processUrl 5
        (runRequests 5 (canMakeRequest 5 [] "c1" 0).2 "c1" [1, 2, 3, 4]).2
        "c1" 5 "johndoe" =
      (.rateLimited "Rate limit exceeded" "rate_limit_exceeded" 60,
       (runRequests 5 (canMakeRequest 5 [] "c1" 0).2 "c1" [1, 2, 3, 4]).2) ∧
    (canMakeRequest 5
      (runRequests 5 (canMakeRequest 5 [] "c1" 0).2 "c1" [1, 2, 3, 4]).2
      "c1" 60001).1 = true := by
  obtain ⟨h1, h2, h3, h4⟩ := rateLimiter_window_behavior 5 "c1" 0 [1, 2, 3, 4]
    (by decide) (by decide)
  exact ⟨by rw [h1]; decide, h3 (by decide) 5 "johndoe" (by decide),
    h4 60001 (by decide)⟩

/-! ## Claim C9: acceptance window of the content validation -/

/-- C9, counterexample: the content `"ab"` has length 2, inside the
claimed 1..2953 window, yet content validation rejects it (it is not a
parsable URL and is shorter than 3 characters). -/
theorem validateQrContent_ab_counterexample :
    1 ≤ "ab".length ∧ "ab".length ≤ 2953 ∧
      validateQrContent "ab" = false := by
  refine ⟨by decide, by decide, by decide⟩

/-- C9 (amended): content validation accepts exactly the strings whose
length is between 1 and 2953 characters and which moreover either parse
as a URL or are at least 3 characters long; in particular every string of
length 3..2953 is accepted, and non-URL strings of length 1..2 are
rejected. -/
theorem validateQrContent_iff (content : String) :
    validateQrContent content = true ↔
      1 ≤ content.length ∧ content.length ≤ 2953 ∧
        ((jsUrlParse content).isSome = true ∨ 3 ≤ content.length) := by
  simp [validateQrContent, Bool.and_eq_true, Bool.or_eq_true,
    decide_eq_true_eq, Nat.succ_le_iff]
  tauto

/-- C9 witness: `"abc"` (length 3) is accepted via the amended criterion. -/
theorem validateQrContent_iff_witness : validateQrContent "abc" = true :=
  (validateQrContent_iff "abc").mpr ⟨by decide, by decide, Or.inr (by decide)⟩

/-! ## Claim C10: capacity invariant of the QR cache -/

def mapKeys {α : Type} (m : List (String × α)) : List String :=
  m.map Prod.fst

theorem mapKeys_length {α : Type} (m : List (String × α)) :
    (mapKeys m).length = m.length := by
  simp [mapKeys]

theorem mapKeys_mapSet {α : Type} (m : List (String × α)) (k : String)
    (v : α) :
    mapKeys (mapSet m k v) =
      if k ∈ mapKeys m then mapKeys m else mapKeys m ++ [k] := by
  induction m with
  | nil => simp [mapKeys, mapSet]
  | cons hd tl ih =>
    by_cases h : hd.1 == k
    · have hk : hd.1 = k := by simpa using h
      simp [mapSet, h, mapKeys, hk]
    · have hk : ¬ hd.1 = k := by simpa using h
      have hk' : ¬ k = hd.1 := fun he => hk he.symm
      have hcons : mapKeys (mapSet (hd :: tl) k v) =
          hd.1 :: mapKeys (mapSet tl k v) := by
        simp only [mapSet]
        rw [if_neg h]
        rfl
      rw [hcons, ih]
      by_cases hmem : k ∈ mapKeys tl
      · rw [if_pos hmem,
          if_pos (show k ∈ mapKeys (hd :: tl) from
            List.mem_cons_of_mem hd.1 hmem)]
        rfl
      · rw [if_neg hmem,
          if_neg (show ¬ k ∈ mapKeys (hd :: tl) from by
            simp only [mapKeys, List.map_cons, List.mem_cons]
            rintro (h1 | h2)
            · exact hk' h1
            · exact hmem h2)]
        rfl

theorem length_mapSet_le {α : Type} (m : List (String × α)) (k : String)
    (v : α) : (mapSet m k v).length ≤ m.length + 1 := by
  have h := congrArg List.length (mapKeys_mapSet m k v)
  rw [mapKeys_length] at h
  by_cases hmem : k ∈ mapKeys m
  · rw [if_pos hmem, mapKeys_length] at h
    omega
  · rw [if_neg hmem, List.length_append, mapKeys_length] at h
    simp at h
    omega

theorem length_mapSet_of_mem {α : Type} (m : List (String × α)) (k : String)
    (v : α) (hmem : k ∈ mapKeys m) :
    (mapSet m k v).length = m.length := by
  have h := congrArg List.length (mapKeys_mapSet m k v)
  rw [if_pos hmem, mapKeys_length, mapKeys_length] at h
  exact h

theorem nodup_mapKeys_mapSet {α : Type} (m : List (String × α)) (k : String)
    (v : α) (hnd : (mapKeys m).Nodup) : (mapKeys (mapSet m k v)).Nodup := by
  rw [mapKeys_mapSet]
  by_cases hmem : k ∈ mapKeys m
  · rwa [if_pos hmem]
  · rw [if_neg hmem]
    simp [List.nodup_append, hnd, hmem]

theorem mapKeys_mapDelete_sublist {α : Type} (m : List (String × α))
    (k : String) : (mapKeys (mapDelete m k)).Sublist (mapKeys m) :=
  List.Sublist.map _ (List.filter_sublist _)

theorem nodup_mapKeys_mapDelete {α : Type} (m : List (String × α))
    (k : String) (hnd : (mapKeys m).Nodup) :
    (mapKeys (mapDelete m k)).Nodup :=
  hnd.sublist (mapKeys_mapDelete_sublist m k)

theorem length_mapDelete_le {α : Type} (m : List (String × α)) (k : String) :
    (mapDelete m k).length ≤ m.length :=
  (List.filter_sublist _).length_le

theorem length_mapDelete_lt {α : Type} (m : List (String × α)) (k : String)
    (hmem : k ∈ mapKeys m) : (mapDelete m k).length < m.length := by
  obtain ⟨p, hp, hpk⟩ := List.mem_map.mp hmem
  exact List.length_filter_lt_length_iff_exists.mpr
    ⟨p, hp, by simp [hpk]⟩

theorem mem_mapKeys_mapDelete {α : Type} (m : List (String × α))
    (k k' : String) (hne : k' ≠ k) (hmem : k' ∈ mapKeys m) :
    k' ∈ mapKeys (mapDelete m k) := by
  obtain ⟨p, hp, hpk⟩ := List.mem_map.mp hmem
  exact List.mem_map.mpr
    ⟨p, List.mem_filter.mpr ⟨hp, by simp [hpk, hne]⟩, hpk⟩

theorem mem_mapKeys_of_mapGet {α : Type} (m : List (String × α)) (k : String)
    (v : α) (h : mapGet m k = some v) : k ∈ mapKeys m := by
  induction m with
  | nil => simp [mapGet] at h
  | cons hd tl ih =>
    by_cases hh : hd.1 == k
    · have : hd.1 = k := by simpa using hh
      simp [mapKeys, this]
    · have h' : mapGet tl k = some v := by
        simpa [mapGet, List.find?_cons, hh] using h
      exact List.mem_cons_of_mem hd.1 (ih h')

theorem length_foldl_mapDelete {α : Type} (ks : List String) :
    ∀ m : List (String × α), ks.Nodup → (∀ k ∈ ks, k ∈ mapKeys m) →
      (ks.foldl mapDelete m).length + ks.length ≤ m.length := by
  induction ks with
  | nil => intro m _ _; simp
  | cons k ks ih =>
    intro m hnd hmem
    have hk : k ∈ mapKeys m := hmem k (by simp)
    have hlt := length_mapDelete_lt m k hk
    have hnd' : ks.Nodup := (List.nodup_cons.mp hnd).2
    have hkn : k ∉ ks := (List.nodup_cons.mp hnd).1
    have hmem' : ∀ k' ∈ ks, k' ∈ mapKeys (mapDelete m k) := fun k' hk' =>
      mem_mapKeys_mapDelete m k k' (fun he => hkn (he ▸ hk'))
        (hmem k' (by simp [hk']))
    have := ih (mapDelete m k) hnd' hmem'
    simp only [List.foldl_cons, List.length_cons]
    omega

theorem nodup_foldl_mapDelete {α : Type} (ks : List String) :
    ∀ m : List (String × α), (mapKeys m).Nodup →
      (mapKeys (ks.foldl mapDelete m)).Nodup := by
  induction ks with
  | nil => intro m h; exact h
  | cons k ks ih =>
    intro m h
    exact ih (mapDelete m k) (nodup_mapKeys_mapDelete m k h)

theorem foldl_pair_delete (ps : List (String × QrCacheEntry)) :
    ∀ m : QrCache,
      ps.foldl (fun acc p => mapDelete acc p.1) m =
        (mapKeys ps).foldl mapDelete m := by
  induction ps with
  | nil => intro m; rfl
  | cons p ps ih => intro m; simp [mapKeys, ih]

theorem qrCacheSet_inv (cache : QrCache) (key : String)
    (result : QrGenerationResult) (ttl : Option Nat) (now : Nat)
    (hnd : (mapKeys cache).Nodup) (hlen : cache.length ≤ 1000) :
    (mapKeys (qrCacheSet 1000 cache key result ttl now)).Nodup ∧
      (qrCacheSet 1000 cache key result ttl now).length ≤ 1000 := by
  have main : ∀ c1 : QrCache, (mapKeys c1).Nodup → c1.length ≤ 999 →
      ∀ e : QrCacheEntry, (mapKeys (mapSet c1 key e)).Nodup ∧
        (mapSet c1 key e).length ≤ 1000 := by
    intro c1 h1 h2 e
    exact ⟨nodup_mapKeys_mapSet c1 key e h1,
      le_trans (length_mapSet_le c1 key e) (by omega)⟩
  unfold qrCacheSet
  by_cases hfull : cache.length ≥ 1000
  · rw [if_pos hfull]
    have hclnodup : (mapKeys (qrCacheCleanup cache now)).Nodup := by
      unfold qrCacheCleanup
      exact hnd.sublist (List.Sublist.map _ (List.filter_sublist _))
    have hcllen : (qrCacheCleanup cache now).length ≤ cache.length := by
      unfold qrCacheCleanup
      exact (List.filter_sublist _).length_le
    by_cases hfull2 : (qrCacheCleanup cache now).length ≥ 1000
    · rw [if_pos hfull2]
      set cleaned := qrCacheCleanup cache now with hcl
      have heq : cleaned.length = 1000 := by omega
      have hperm : (cleaned.mergeSort
          (fun a b => a.2.lastAccessed ≤ b.2.lastAccessed)).Perm cleaned :=
        List.mergeSort_perm cleaned _
      set sorted := cleaned.mergeSort
        (fun a b => a.2.lastAccessed ≤ b.2.lastAccessed) with hsrt
      have hkeysperm : (mapKeys sorted).Perm (mapKeys cleaned) := hperm.map _
      have hsortnodup : (mapKeys sorted).Nodup :=
        (hkeysperm.nodup_iff).mpr hclnodup
      have hsortlen : sorted.length = 1000 := by
        rw [hperm.length_eq]; exact heq
      have hpslen : (sorted.take (qrEvictCount 1000)).length = 200 := by
        rw [List.length_take, hsortlen]
        decide
      have hkeystake : mapKeys (sorted.take (qrEvictCount 1000)) =
          (mapKeys sorted).take 200 := by
        simp only [mapKeys, List.map_take]
        rfl
      have hpsnodup : (mapKeys (sorted.take (qrEvictCount 1000))).Nodup := by
        rw [hkeystake]
        exact hsortnodup.sublist (List.take_sublist _ _)
      have hpsmem : ∀ k ∈ mapKeys (sorted.take (qrEvictCount 1000)),
          k ∈ mapKeys cleaned := by
        intro k hk
        rw [hkeystake] at hk
        exact hkeysperm.mem_iff.mp ((List.take_sublist _ _).subset hk)
      have hfoldlen := length_foldl_mapDelete
        (mapKeys (sorted.take (qrEvictCount 1000))) cleaned hpsnodup hpsmem
      have hfoldnodup := nodup_foldl_mapDelete
        (mapKeys (sorted.take (qrEvictCount 1000))) cleaned hclnodup
      rw [foldl_pair_delete]
      refine main _ hfoldnodup ?_ _
      have hlks : (mapKeys (sorted.take (qrEvictCount 1000))).length = 200 := by
        rw [mapKeys_length, hpslen]
      omega
    · rw [if_neg hfull2]
      exact main (qrCacheCleanup cache now) hclnodup (by omega) _
  · rw [if_neg hfull]
    exact main cache hnd (by omega) _

theorem qrCacheGet_inv (cache : QrCache) (key : String) (now : Nat)
    (hnd : (mapKeys cache).Nodup) (hlen : cache.length ≤ 1000) :
    (mapKeys (qrCacheGet cache key now).2).Nodup ∧
      (qrCacheGet cache key now).2.length ≤ 1000 := by
  unfold qrCacheGet
  cases hg : mapGet cache key with
  | none =>
    exact ⟨nodup_mapKeys_mapDelete cache key hnd,
      le_trans (length_mapDelete_le cache key) hlen⟩
  | some entry =>
    dsimp only
    by_cases he : entry.expiresAt < now
    · rw [if_pos he]
      exact ⟨nodup_mapKeys_mapDelete cache key hnd,
        le_trans (length_mapDelete_le cache key) hlen⟩
    · rw [if_neg he]
      have hmem := mem_mapKeys_of_mapGet cache key entry hg
      refine ⟨nodup_mapKeys_mapSet cache key _ hnd, ?_⟩
      rw [length_mapSet_of_mem cache key _ hmem]
      exact hlen

theorem qrCacheStep_inv (cache : QrCache) (op : QrCacheOp)
    (hnd : (mapKeys cache).Nodup) (hlen : cache.length ≤ 1000) :
    (mapKeys (qrCacheStep 1000 cache op)).Nodup ∧
      (qrCacheStep 1000 cache op).length ≤ 1000 := by
  cases op with
  | get key now => exact qrCacheGet_inv cache key now hnd hlen
  | set key result ttl now => exact qrCacheSet_inv cache key result ttl now hnd hlen
  | del key =>
    exact ⟨nodup_mapKeys_mapDelete cache key hnd,
      le_trans (length_mapDelete_le cache key) hlen⟩
  | clear => exact ⟨List.nodup_nil, Nat.zero_le 1000⟩
  | cleanup now =>
    exact ⟨hnd.sublist (List.Sublist.map _ (List.filter_sublist _)),
      le_trans (List.filter_sublist _).length_le hlen⟩

theorem qrCacheRun_aux (ops : List QrCacheOp) :
    ∀ c : QrCache, (mapKeys c).Nodup → c.length ≤ 1000 →
      (mapKeys (ops.foldl (qrCacheStep 1000) c)).Nodup ∧
        (ops.foldl (qrCacheStep 1000) c).length ≤ 1000 := by
  induction ops with
  | nil => intro c h1 h2; exact ⟨h1, h2⟩
  | cons op ops ih =>
    intro c h1 h2
    have hstep := qrCacheStep_inv c op h1 h2
    simpa using ih _ hstep.1 hstep.2

/-- C10: starting from the empty cache, after any sequence of `get`,
`set`, `delete`, `clear` and `cleanup` operations, the QR cache with its
default maximum of 1000 entries never stores more than 1000 entries:
`set` purges expired entries and evicts the least-recently-accessed 20%
of capacity before inserting when full. -/
theorem qrCache_capacity_invariant (ops : List QrCacheOp) :
    (qrCacheRun 1000 ops).length ≤ 1000 :=
  (qrCacheRun_aux ops [] (by simp [mapKeys]) (by simp)).2

/-! ## Claim C5: second identical request served from cache -/

theorem generateQrCodeServer_renderCount_le (st : QrServerState)
    (content : String) (config : PartialQrConfig) (now : Nat) :
    (generateQrCodeServer st content config now).2.renderCount ≤
      st.renderCount + 1 := by
  unfold generateQrCodeServer
  by_cases h1 : validateQrContent content
  · simp only [h1]
    by_cases h2 : validateQrConfig (mergeQrConfig DEFAULT_QR_CONFIG config)
    · simp only [h2]
      cases st.renderOutcomes with
      | nil => simp
      | cons o rest => cases o <;> simp
    · simp [h2]
  · simp [h1]

theorem qrCacheGet_after_set (cache : QrCache) (key : String)
    (res : QrGenerationResult) (now1 now2 : Nat)
    (h : now2 ≤ now1 + QR_CACHE_DEFAULT_TTL) :
    qrCacheGet (qrCacheSet QR_CACHE_MAX_SIZE cache key res none now1) key now2 =
      (some res,
       mapSet (qrCacheSet QR_CACHE_MAX_SIZE cache key res none now1) key
         { key := key, result := res,
           expiresAt := now1 + QR_CACHE_DEFAULT_TTL,
           accessCount := 1, lastAccessed := now2 }) := by
  have hm : mapGet (qrCacheSet QR_CACHE_MAX_SIZE cache key res none now1) key =
      some { key := key, result := res,
             expiresAt := now1 + QR_CACHE_DEFAULT_TTL,
             accessCount := 0, lastAccessed := now1 } :=
    mapGet_mapSet_self _ _ _
  unfold qrCacheGet
  rw [hm]
  dsimp only
  rw [if_neg (by simp only [QR_CACHE_DEFAULT_TTL] at h ⊢; omega)]

/-- C5 (amended): when `generateCachedQrCode` misses the cache and the
render succeeds (`fromCache = false`), a second call with identical
content and config before the entry's expiry is served from the cache:
it returns the same data with `fromCache = true`, invokes the renderer
no further time, and in total the renderer ran at most once. -/
theorem generateCachedQrCode_second_hit (st : QrServerState)
    (content : String) (config : PartialQrConfig) (now1 now2 : Nat)
    (data : QrGenerationResult)
    (h1 : (generateCachedQrCode st content config now1).1 = .ok (data, false))
    (h2 : now2 ≤ now1 + QR_CACHE_DEFAULT_TTL) :
    (generateCachedQrCode (generateCachedQrCode st content config now1).2
        content config now2).1 = .ok (data, true) ∧
    (generateCachedQrCode (generateCachedQrCode st content config now1).2
        content config now2).2.renderCount =
      (generateCachedQrCode st content config now1).2.renderCount ∧
    (generateCachedQrCode st content config now1).2.renderCount ≤
      st.renderCount + 1 := by
  simp only [generateCachedQrCode] at h1 ⊢
  cases hg : (qrCacheGet st.cache
      (generateQrCacheKey content (mergeQrConfig DEFAULT_QR_CONFIG config))
      now1).1 with
  | some cached =>
    rw [hg] at h1
    simp at h1
  | none =>
    rw [hg] at h1
    dsimp only at h1
    cases hr : (generateQrCodeServer
        { st with cache := (qrCacheGet st.cache
            (generateQrCacheKey content (mergeQrConfig DEFAULT_QR_CONFIG config))
            now1).2 } content config now1).1 with
    | error e =>
      rw [hr] at h1
      simp at h1
    | ok d =>
      rw [hr] at h1
      dsimp only at h1
      have hd : d = data := by
        have := Except.ok.inj h1
        exact (Prod.mk.injEq _ _ _ _).mp this |>.1
      subst hd
      dsimp only
      rw [qrCacheGet_after_set _ _ _ _ _ h2]
      dsimp only
      refine ⟨rfl, rfl, ?_⟩
      exact generateQrCodeServer_renderCount_le _ content config now1

def c5FailState : QrServerState :=
  { cache := [],
    renderOutcomes := [.error "render failed", .error "render failed"],
    renderCount := 0 }

/-- C5, counterexample: when the first render fails, nothing is cached,
so a second identical request invokes the renderer again (two invocations
in total) and is not served from the cache — the claim as stated, with no
success assumption on the first call, is false. -/
theorem generateCachedQrCode_render_failure_counterexample :
    (generateCachedQrCode
        (generateCachedQrCode c5FailState "https://linkedin.com/in/johndoe"
          emptyPartialQrConfig 0).2
        "https://linkedin.com/in/johndoe" emptyPartialQrConfig 1).2.renderCount
      = 2 ∧
    (generateCachedQrCode
        (generateCachedQrCode c5FailState "https://linkedin.com/in/johndoe"
          emptyPartialQrConfig 0).2
        "https://linkedin.com/in/johndoe" emptyPartialQrConfig 1).1 =
      .error ⟨"render failed", "generation_failed"⟩ := by
  exact ⟨by decide, by decide⟩

def c5OkState : QrServerState :=
  { cache := [],
    renderOutcomes := [.ok "data:image/png;base64,AAAA"],
    renderCount := 0 }

def c5OkData : QrGenerationResult :=
  { content := "https://linkedin.com/in/johndoe", config := DEFAULT_QR_CONFIG,
    dataUrl := "data:image/png;base64,AAAA", width := 256, height := 256,
    generatedAt := 0, format := "png" }

/-- C5 witness: a concrete miss-then-hit run of the amended theorem. -/
theorem generateCachedQrCode_second_hit_witness :
    (generateCachedQrCode
        (generateCachedQrCode c5OkState "https://linkedin.com/in/johndoe"
          emptyPartialQrConfig 0).2
        "https://linkedin.com/in/johndoe" emptyPartialQrConfig 1).1 =
      .ok (c5OkData, true) ∧
    (generateCachedQrCode
        (generateCachedQrCode c5OkState "https://linkedin.com/in/johndoe"
          emptyPartialQrConfig 0).2
        "https://linkedin.com/in/johndoe" emptyPartialQrConfig 1).2.renderCount =
      (generateCachedQrCode c5OkState "https://linkedin.com/in/johndoe"
        emptyPartialQrConfig 0).2.renderCount ∧
    (generateCachedQrCode c5OkState "https://linkedin.com/in/johndoe"
        emptyPartialQrConfig 0).2.renderCount ≤ c5OkState.renderCount + 1 :=
  generateCachedQrCode_second_hit c5OkState "https://linkedin.com/in/johndoe"
    emptyPartialQrConfig 0 1 c5OkData (by decide) (by decide)

/-! ## URL parser laws

How `jsUrlParseList` decomposes inputs of the shape
`scheme ++ ':' :: "//" ++ host ++ [:port] ++ tail`, culminating in a
characterization of parsing a serialized special-scheme URL.  These
lemmas drive the proofs of claims C1, C6 and C7. -/

theorem splitAtFirst_of_forall (p : Char → Bool) (l : List Char)
    (h : ∀ c ∈ l, ¬ p c = true) : splitAtFirst p l = (l, []) := by
  induction l with
  | nil => rfl
  | cons c cs ih =>
    have hc : ¬ p c = true := h c (List.mem_cons_self c cs)
    simp only [splitAtFirst, if_neg hc]
    rw [ih (fun d hd => h d (List.mem_cons_of_mem c hd))]

theorem splitAtFirst_append (p : Char → Bool) (a b : List Char)
    (h : ∀ c ∈ a, ¬ p c = true) :
    splitAtFirst p (a ++ b) =
      (a ++ (splitAtFirst p b).1, (splitAtFirst p b).2) := by
  induction a with
  | nil => simp
  | cons c cs ih =>
    have hc : ¬ p c = true := h c (List.mem_cons_self c cs)
    simp only [List.cons_append, splitAtFirst, if_neg hc, List.append_eq]
    rw [ih (fun d hd => h d (List.mem_cons_of_mem c hd))]

theorem splitAtFirst_cons_of_pos (p : Char → Bool) (c : Char)
    (cs : List Char) (h : p c = true) :
    splitAtFirst p (c :: cs) = ([], c :: cs) := by
  simp [splitAtFirst, h]

theorem dropWhile_eq_self_of_head (p : Char → Bool) (c : Char)
    (cs : List Char) (h : ¬ p c = true) :
    List.dropWhile p (c :: cs) = c :: cs := by
  rw [List.dropWhile_cons, if_neg h]

theorem dropWhile_eq_self_of_forall (p : Char → Bool) (l : List Char)
    (h : ∀ c ∈ l, ¬ p c = true) : List.dropWhile p l = l := by
  cases l with
  | nil => rfl
  | cons c cs =>
    exact dropWhile_eq_self_of_head p c cs (h c (List.mem_cons_self c cs))

theorem dropWhile_append_of_ne (p : Char → Bool) (a b : List Char)
    (h : List.dropWhile p a ≠ []) :
    List.dropWhile p (a ++ b) = List.dropWhile p a ++ b := by
  induction a with
  | nil => exact absurd rfl h
  | cons c cs ih =>
    by_cases hc : p c = true
    · rw [List.dropWhile_cons, if_pos hc] at h
      rw [List.cons_append, List.dropWhile_cons, if_pos hc,
        List.dropWhile_cons, if_pos hc, ih h]
    · rw [List.cons_append, List.dropWhile_cons, if_neg hc,
        List.dropWhile_cons, if_neg hc, List.cons_append]

theorem trimChars_eq_self (l : List Char)
    (h : ∀ c ∈ l, ¬ isWsChar c = true) : trimChars l = l := by
  unfold trimChars
  rw [dropWhile_eq_self_of_forall _ _ h,
    dropWhile_eq_self_of_forall _ _ (fun c hc => h c (List.mem_reverse.mp hc)),
    List.reverse_reverse]

/-- Right trim: what `trimChars` does to a string with a non-whitespace
prefix anchor. -/
def trimRightChars (l : List Char) : List Char :=
  (l.reverse.dropWhile isWsChar).reverse

theorem trimChars_append_anchor (c : Char) (a t : List Char)
    (hc : ¬ isWsChar c = true)
    (ht : trimRightChars t ≠ []) :
    trimChars ((c :: a) ++ t) = (c :: a) ++ trimRightChars t := by
  have ht' : List.dropWhile isWsChar t.reverse ≠ [] := by
    intro h0
    apply ht
    unfold trimRightChars
    rw [h0, List.reverse_nil]
  unfold trimChars trimRightChars
  rw [List.cons_append, dropWhile_eq_self_of_head _ _ _ hc]
  rw [show (c :: (a ++ t)).reverse = t.reverse ++ (a.reverse ++ [c]) by
    simp [List.reverse_cons, List.reverse_append, List.append_assoc]]
  rw [dropWhile_append_of_ne _ _ _ ht']
  simp [List.reverse_append]

/-! ### Character classes -/

theorem toLower_eq_self_of_not_upper (c : Char)
    (h : ¬ (65 ≤ c.toNat ∧ c.toNat ≤ 90)) : Char.toLower c = c := by
  unfold Char.toLower
  exact if_neg h

theorem toNat_bounds_of_isLower (c : Char) (h : c.isLower = true) :
    97 ≤ c.toNat ∧ c.toNat ≤ 122 := by
  unfold Char.isLower at h
  simp only [Bool.and_eq_true, decide_eq_true_eq, UInt32.le_def,
    BitVec.le_def] at h
  exact h

theorem toNat_bounds_of_isDigit (c : Char) (h : c.isDigit = true) :
    48 ≤ c.toNat ∧ c.toNat ≤ 57 := by
  unfold Char.isDigit at h
  simp only [Bool.and_eq_true, decide_eq_true_eq, UInt32.le_def,
    BitVec.le_def] at h
  exact h

theorem toLower_eq_self_of_isHostChar (c : Char) (h : isHostChar c = true) :
    Char.toLower c = c := by
  apply toLower_eq_self_of_not_upper
  unfold isHostChar at h
  simp only [Bool.or_eq_true, decide_eq_true_eq] at h
  rcases h with (((h | h) | h) | h) | h
  · have := toNat_bounds_of_isLower c h
    omega
  · have := toNat_bounds_of_isDigit c h
    omega
  · subst h; decide
  · subst h; decide
  · subst h; decide

theorem map_toLower_eq_self_of_hostChars (l : List Char)
    (h : l.all isHostChar = true) : l.map Char.toLower = l := by
  induction l with
  | nil => rfl
  | cons c cs ih =>
    rw [List.all_cons, Bool.and_eq_true] at h
    rw [List.map_cons, toLower_eq_self_of_isHostChar c h.1, ih h.2]

/-! ### Decimal port canonicalization -/

theorem decimalDigitChar_isDigit (n : Nat) (h : n < 10) :
    (decimalDigitChar n).isDigit = true := by
  interval_cases n <;> decide

theorem decimalDigitChar_toNat (n : Nat) (h : n < 10) :
    (decimalDigitChar n).toNat = 48 + n := by
  interval_cases n <;> decide

theorem natOfDigits_append_digit (l : List Char) (c : Char) :
    natOfDigits (l ++ [c]) = natOfDigits l * 10 + (c.toNat - 48) := by
  unfold natOfDigits
  rw [List.foldl_append]
  rfl

theorem natToDecimalAux_fuel : ∀ n fuel : Nat, n < fuel →
    natToDecimalAux fuel n = natToDecimal n := by
  intro n
  induction n using Nat.strong_induction_on with
  | _ n ih =>
    intro fuel hf
    match fuel, hf with
    | fuel + 1, _ =>
      unfold natToDecimal
      show natToDecimalAux (fuel + 1) n = natToDecimalAux (n + 1) n
      by_cases h10 : n < 10
      · unfold natToDecimalAux
        rw [if_pos h10, if_pos h10]
      · have hdiv : n / 10 < n := Nat.div_lt_self (by omega) (by omega)
        unfold natToDecimalAux
        rw [if_neg h10, if_neg h10,
          ih (n / 10) hdiv fuel (by omega), ih (n / 10) hdiv n (by omega)]

theorem natToDecimal_spec (n : Nat) :
    natOfDigits (natToDecimal n) = n ∧
    (natToDecimal n).all Char.isDigit = true ∧ natToDecimal n ≠ [] := by
  induction n using Nat.strong_induction_on with
  | _ n ih =>
    by_cases h10 : n < 10
    · unfold natToDecimal natToDecimalAux
      rw [if_pos h10]
      refine ⟨?_, ?_, by simp⟩
      · show 0 * 10 + ((decimalDigitChar n).toNat - 48) = n
        rw [decimalDigitChar_toNat n h10]
        omega
      · simp [decimalDigitChar_isDigit n h10]
    · have hdiv : n / 10 < n := Nat.div_lt_self (by omega) (by omega)
      obtain ⟨ihv, ihd, ihne⟩ := ih (n / 10) hdiv
      have hmod : n % 10 < 10 := Nat.mod_lt n (by omega)
      have hstep : natToDecimalAux (n + 1) n =
          if n < 10 then [decimalDigitChar n]
          else natToDecimalAux n (n / 10) ++ [decimalDigitChar (n % 10)] :=
        rfl
      have hunf : natToDecimal n =
          natToDecimal (n / 10) ++ [decimalDigitChar (n % 10)] := by
        unfold natToDecimal
        rw [hstep, if_neg h10, natToDecimalAux_fuel (n / 10) n (by omega)]
        rfl
      refine ⟨?_, ?_, ?_⟩
      · rw [hunf, natOfDigits_append_digit, ihv,
          decimalDigitChar_toNat (n % 10) hmod]
        omega
      · rw [hunf, List.all_append, ihd]
        simp [decimalDigitChar_isDigit (n % 10) hmod]
      · rw [hunf]
        simp

/-! ### Wellformed URL components -/

def portPart (port : List Char) : List Char :=
  if port = [] then [] else ':' :: port

/-- A canonical port for a special scheme: empty, or canonical decimal
digits of a non-default value below 65536. -/
def wfPort (scheme port : List Char) : Bool :=
  port.isEmpty ||
    (port.all Char.isDigit &&
      decide (port = natToDecimal (natOfDigits port)) &&
      decide (natOfDigits port < 65536) &&
      !decide (natOfDigits port = defaultPortOf scheme))

theorem ne_of_class (p : Char → Bool) (c a : Char) (h : p c = true)
    (ha : p a = false) : ¬ c = a := by
  intro he
  subst he
  rw [ha] at h
  exact Bool.false_ne_true h

theorem contains_eq_false_of_forall (l : List Char) (a : Char)
    (h : ∀ c ∈ l, ¬ c = a) : l.contains a = false := by
  induction l with
  | nil => rfl
  | cons c cs ih =>
    rw [List.contains_cons]
    have hca : (a == c) = false := by
      rw [beq_eq_false_iff_ne]
      exact fun he => h c (List.mem_cons_self c cs) he.symm
    rw [hca, Bool.false_or]
    exact ih (fun d hd => h d (List.mem_cons_of_mem c hd))

theorem wfPort_spec (scheme port : List Char) (hp : wfPort scheme port = true)
    (h0 : port ≠ []) :
    port.all Char.isDigit = true ∧
    port = natToDecimal (natOfDigits port) ∧
    natOfDigits port < 65536 ∧
    ¬ natOfDigits port = defaultPortOf scheme := by
  unfold wfPort at hp
  simp only [Bool.or_eq_true, Bool.and_eq_true, decide_eq_true_eq,
    Bool.not_eq_true', decide_eq_false_iff_not, List.isEmpty_iff] at hp
  rcases hp with h | h
  · exact absurd h h0
  · exact ⟨h.1.1.1, h.1.1.2, h.1.2, h.2⟩

/-- `parseAuthority` recovers a wellformed host/port pair from its
serialization. -/
theorem parseAuthority_wf (scheme host port : List Char)
    (hh0 : host ≠ []) (hhc : host.all isHostChar = true)
    (hp : wfPort scheme port = true) :
    parseAuthority true scheme (host ++ portPart port) = some (host, port) := by
  have hhost : ∀ c ∈ host, isHostChar c = true :=
    fun c hc => List.all_eq_true.mp hhc c hc
  have hmap := map_toLower_eq_self_of_hostChars host hhc
  by_cases hp0 : port = []
  · subst hp0
    have hauth : host ++ portPart [] = host := by simp [portPart]
    rw [hauth]
    have hat : host.contains '@' = false := by
      apply contains_eq_false_of_forall
      intro c hc
      exact ne_of_class isHostChar c '@' (hhost c hc) (by decide)
    have hcolon : splitAtLastColon host = none := by
      unfold splitAtLastColon
      rw [splitAtFirst_of_forall _ _ ?hnc]
      case hnc =>
        intro c hc
        simp only [decide_eq_true_eq]
        exact ne_of_class isHostChar c ':'
          (hhost c (List.mem_reverse.mp hc)) (by decide)
    unfold parseAuthority
    rw [if_neg (by rw [hat]; exact Bool.false_ne_true), hcolon]
    dsimp only
    simp only [hmap]
    rw [if_pos (by simp [hh0, hhc])]
  · obtain ⟨hd, hcan, hlt, hdef⟩ := wfPort_spec scheme port hp hp0
    have hdigits : ∀ c ∈ port, Char.isDigit c = true :=
      fun c hc => List.all_eq_true.mp hd c hc
    have hpp : host ++ portPart port = host ++ ':' :: port := by
      unfold portPart
      rw [if_neg hp0]
    rw [hpp]
    have hat : (host ++ ':' :: port).contains '@' = false := by
      apply contains_eq_false_of_forall
      intro c hc
      rcases List.mem_append.mp hc with h | h
      · exact ne_of_class isHostChar c '@' (hhost c h) (by decide)
      · rcases List.mem_cons.mp h with h | h
        · subst h; decide
        · exact ne_of_class Char.isDigit c '@' (hdigits c h) (by decide)
    have hcolon : splitAtLastColon (host ++ ':' :: port) =
        some (host, port) := by
      unfold splitAtLastColon
      rw [List.reverse_append, List.reverse_cons, List.append_assoc,
        List.singleton_append, splitAtFirst_append _ _ _ ?hpc,
        splitAtFirst_cons_of_pos _ _ _ (by decide)]
      case hpc =>
        intro c hc
        simp only [decide_eq_true_eq]
        exact ne_of_class Char.isDigit c ':'
          (hdigits c (List.mem_reverse.mp hc)) (by decide)
      simp
    unfold parseAuthority
    rw [if_neg (by rw [hat]; exact Bool.false_ne_true), hcolon]
    dsimp only
    rw [if_pos hd, if_neg hp0, if_neg (by omega : ¬ natOfDigits port ≥ 65536),
      if_neg ?hdef2]
    case hdef2 =>
      simp only [Bool.true_and, decide_eq_true_eq]
      exact hdef
    simp only [hmap]
    rw [if_pos (by simp [hh0, hhc]), ← hcan]

theorem jsUrlParseList_eq_parseSpecialRest (l ss rest : List Char)
    (hsplit : splitAtFirst (fun c => !isSchemeChar c) l = (ss, ':' :: rest))
    (hlow : ss.map Char.toLower = "http".data ∨
      ss.map Char.toLower = "https".data) :
    jsUrlParseList l = parseSpecialRest (ss.map Char.toLower) rest := by
  unfold jsUrlParseList
  rw [hsplit]
  dsimp only
  rw [if_pos rfl]
  rcases hlow with h | h <;> rw [h] <;> rfl

theorem jsUrlParseList_eq_parseNonSpecialRest (l ss rest : List Char)
    (c0 : Char) (s0 : List Char)
    (hsplit : splitAtFirst (fun c => !isSchemeChar c) l = (ss, ':' :: rest))
    (hmap : ss.map Char.toLower = c0 :: s0)
    (halpha : c0.isAlpha = true)
    (hns : ¬ (c0 :: s0 = "http".data ∨ c0 :: s0 = "https".data)) :
    jsUrlParseList l = parseNonSpecialRest (c0 :: s0) rest := by
  unfold jsUrlParseList
  rw [hsplit]
  dsimp only
  rw [if_pos rfl, hmap]
  dsimp only
  rw [if_neg (by rw [halpha]; exact Bool.false_ne_true),
    if_neg (by simp only [Bool.or_eq_true, decide_eq_true_eq]; exact hns)]

theorem parseSpecialRest_scheme (s rest : List Char) (r : UrlRec)
    (h : parseSpecialRest s rest = some r) : r.scheme = s := by
  unfold parseSpecialRest at h
  dsimp only at h
  split at h
  · simp at h
  · cases h
    rfl

theorem parseNonSpecialRest_scheme (s rest : List Char) (r : UrlRec)
    (h : parseNonSpecialRest s rest = some r) : r.scheme = s := by
  unfold parseNonSpecialRest at h
  dsimp only at h
  split at h
  · split at h
    · simp at h
    · cases h
      rfl
  · cases h
    rfl

theorem not_pathDelim_of_hostChar (c : Char) (h : isHostChar c = true) :
    ¬ isPathDelim c = true := by
  intro hd
  unfold isPathDelim at hd
  simp only [Bool.or_eq_true, decide_eq_true_eq] at hd
  rcases hd with (h1 | h1) | h1 <;> subst h1 <;> exact absurd h (by decide)

theorem not_pathDelim_of_digit (c : Char) (h : Char.isDigit c = true) :
    ¬ isPathDelim c = true := by
  intro hd
  unfold isPathDelim at hd
  simp only [Bool.or_eq_true, decide_eq_true_eq] at hd
  rcases hd with (h1 | h1) | h1 <;> subst h1 <;> exact absurd h (by decide)

/-- Parsing the serialization of a wellformed special-scheme URL recovers
scheme, host and port exactly; the tail is split by
`parsePathSearchHash`. -/
theorem jsUrlParseList_special (scheme host port t : List Char)
    (hs : scheme = "http".data ∨ scheme = "https".data)
    (hh0 : host ≠ []) (hhc : host.all isHostChar = true)
    (hp : wfPort scheme port = true)
    (ht : t = [] ∨ ∃ t0, t = '/' :: t0) :
    jsUrlParseList (scheme ++ ':' ::
        ('/' :: '/' :: (host ++ portPart port) ++ t)) =
      some { scheme := scheme, host := host, port := port,
             pathname := (parsePathSearchHash true t).1,
             search := (parsePathSearchHash true t).2.1,
             hash := (parsePathSearchHash true t).2.2 } := by
  have hsch : ∀ c ∈ scheme, ¬ (!isSchemeChar c) = true := by
    rcases hs with h | h <;> subst h <;> decide
  have hsplit : splitAtFirst (fun c => !isSchemeChar c)
      (scheme ++ ':' :: ('/' :: '/' :: (host ++ portPart port) ++ t)) =
      (scheme, ':' :: ('/' :: '/' :: (host ++ portPart port) ++ t)) := by
    rw [splitAtFirst_append _ _ _ hsch,
      splitAtFirst_cons_of_pos _ _ _ (by decide)]
    simp
  have hlowid : scheme.map Char.toLower = scheme := by
    rcases hs with h | h <;> subst h <;> decide
  have hdisp := jsUrlParseList_eq_parseSpecialRest _ scheme _ hsplit
    (by rw [hlowid]; exact hs)
  rw [hdisp, hlowid]
  obtain ⟨hc0, hrest, hhost_eq⟩ : ∃ c0 r0, host = c0 :: r0 := by
    cases host with
    | nil => exact absurd rfl hh0
    | cons a b => exact ⟨a, b, rfl⟩
  subst hhost_eq
  have hc0h : isHostChar hc0 = true := by
    rw [List.all_cons, Bool.and_eq_true] at hhc
    exact hhc.1
  have hporta : ∀ c ∈ (hc0 :: hrest) ++ portPart port,
      ¬ isPathDelim c = true := by
    intro c hc
    rcases List.mem_append.mp hc with h | h
    · exact not_pathDelim_of_hostChar c (List.all_eq_true.mp hhc c h)
    · unfold portPart at h
      by_cases hp0 : port = []
      · rw [if_pos hp0] at h
        cases h
      · rw [if_neg hp0] at h
        rcases List.mem_cons.mp h with h | h
        · subst h; decide
        · exact not_pathDelim_of_digit c
            (List.all_eq_true.mp (wfPort_spec scheme port hp hp0).1 c h)
  have hsplitt : splitAtFirst isPathDelim t = ([], t) := by
    rcases ht with h | ⟨t0, h⟩ <;> subst h
    · rfl
    · exact splitAtFirst_cons_of_pos _ _ _ (by decide)
  have hdrop : ('/' :: '/' :: ((hc0 :: hrest) ++ portPart port) ++ t).dropWhile
      (fun c => decide (c = '/')) = (hc0 :: hrest) ++ portPart port ++ t := by
    rw [List.cons_append, List.cons_append, List.dropWhile_cons,
      if_pos (by decide), List.dropWhile_cons, if_pos (by decide),
      List.cons_append, List.cons_append]
    exact dropWhile_eq_self_of_head _ _ _ (by
      simp only [decide_eq_true_eq]
      exact ne_of_class isHostChar hc0 '/' hc0h (by decide))
  have hpr : splitAtFirst isPathDelim ((hc0 :: hrest) ++ portPart port ++ t) =
      ((hc0 :: hrest) ++ portPart port, t) := by
    rw [splitAtFirst_append _ _ _ hporta, hsplitt]
    simp
  unfold parseSpecialRest
  rw [hdrop]
  dsimp only
  rw [hpr]
  dsimp only
  rw [parseAuthority_wf scheme (hc0 :: hrest) port hh0 hhc hp]

/-! ### Query-pair serialization laws -/

theorem splitAtFirst_recombine (p : Char → Bool) (l : List Char) :
    (splitAtFirst p l).1 ++ (splitAtFirst p l).2 = l := by
  induction l with
  | nil => rfl
  | cons c cs ih =>
    by_cases h : p c = true
    · rw [splitAtFirst_cons_of_pos _ _ _ h]
      rfl
    · simp only [splitAtFirst, if_neg h]
      rw [List.cons_append, ih]

theorem splitAtFirst_fst_mem (p : Char → Bool) (l : List Char) :
    ∀ c ∈ (splitAtFirst p l).1, p c = false := by
  induction l with
  | nil => intro c hc; cases hc
  | cons a as ih =>
    by_cases h : p a = true
    · rw [splitAtFirst_cons_of_pos _ _ _ h]
      intro c hc
      cases hc
    · simp only [splitAtFirst, if_neg h]
      intro c hc
      rcases List.mem_cons.mp hc with hc | hc
      · subst hc
        exact Bool.eq_false_iff.mpr h
      · exact ih c hc

theorem splitAtFirst_snd_shape (p : Char → Bool) (l : List Char) :
    (splitAtFirst p l).2 = [] ∨
      ∃ c cs, (splitAtFirst p l).2 = c :: cs ∧ p c = true := by
  induction l with
  | nil => exact Or.inl rfl
  | cons a as ih =>
    by_cases h : p a = true
    · rw [splitAtFirst_cons_of_pos _ _ _ h]
      exact Or.inr ⟨a, as, rfl, h⟩
    · simp only [splitAtFirst, if_neg h]
      exact ih

theorem splitSepAux_succ_nil (sep : Char) (fuel : Nat) (l : List Char)
    (h : (splitAtFirst (fun c => c = sep) l).2 = []) :
    splitSepAux sep (fuel + 1) l = [(splitAtFirst (fun c => c = sep) l).1] := by
  conv_lhs => rw [splitSepAux]
  rw [h]

theorem splitSepAux_succ_cons (sep : Char) (fuel : Nat) (l x : List Char)
    (c : Char) (h : (splitAtFirst (fun d => d = sep) l).2 = c :: x) :
    splitSepAux sep (fuel + 1) l =
      (splitAtFirst (fun d => d = sep) l).1 :: splitSepAux sep fuel x := by
  conv_lhs => rw [splitSepAux]
  rw [h]

theorem splitSepAux_nil (sep : Char) (fuel : Nat) :
    splitSepAux sep fuel [] = [[]] := by
  cases fuel with
  | zero => rfl
  | succ n => rfl

theorem splitSepAux_fuel (sep : Char) :
    ∀ f1 f2 l, l.length ≤ f1 → l.length ≤ f2 →
      splitSepAux sep f1 l = splitSepAux sep f2 l := by
  intro f1
  induction f1 with
  | zero =>
    intro f2 l h1 _
    have : l = [] := List.length_eq_zero.mp (Nat.le_zero.mp h1)
    subst this
    rw [splitSepAux_nil, splitSepAux_nil]
  | succ n ih =>
    intro f2 l h1 h2
    cases f2 with
    | zero =>
      have : l = [] := List.length_eq_zero.mp (Nat.le_zero.mp h2)
      subst this
      rw [splitSepAux_nil, splitSepAux_nil]
    | succ m =>
      rcases splitAtFirst_snd_shape (fun d => d = sep) l with hs | ⟨c, cs, hs, _⟩
      · rw [splitSepAux_succ_nil sep n l hs, splitSepAux_succ_nil sep m l hs]
      · have hlen : cs.length + 1 ≤ l.length := by
          have h0 := splitAtFirst_snd_length (fun d => d = sep) l
          rw [hs] at h0
          simpa using h0
        rw [splitSepAux_succ_cons sep n l cs c hs,
          splitSepAux_succ_cons sep m l cs c hs,
          ih m cs (by omega) (by omega)]

theorem splitSep_eq_splitSepAux (sep : Char) (fuel : Nat) (l : List Char)
    (h : l.length ≤ fuel) : splitSepAux sep fuel l = splitSep sep l :=
  splitSepAux_fuel sep fuel l.length l h le_rfl

theorem splitSep_no_sep (sep : Char) (l : List Char)
    (h : ∀ c ∈ l, ¬ c = sep) : splitSep sep l = [l] := by
  have hsp : splitAtFirst (fun c => c = sep) l = (l, []) :=
    splitAtFirst_of_forall _ _ (by
      intro c hc
      simp only [decide_eq_true_eq]
      exact h c hc)
  cases l with
  | nil => rfl
  | cons a as =>
    show splitSepAux sep (a :: as).length (a :: as) = [a :: as]
    rw [List.length_cons, splitSepAux_succ_nil sep as.length (a :: as)
      (by rw [hsp]), hsp]

theorem splitSep_append_cons (sep : Char) (a b : List Char)
    (ha : ∀ c ∈ a, ¬ c = sep) :
    splitSep sep (a ++ sep :: b) = a :: splitSep sep b := by
  have hsp : splitAtFirst (fun c => c = sep) (a ++ sep :: b) =
      (a, sep :: b) := by
    rw [splitAtFirst_append _ _ _ (by
        intro c hc
        simp only [decide_eq_true_eq]
        exact ha c hc),
      splitAtFirst_cons_of_pos _ _ _ (by simp)]
    simp
  show splitSepAux sep (a ++ sep :: b).length (a ++ sep :: b) =
    a :: splitSep sep b
  have hlen : (a ++ sep :: b).length = a.length + b.length + 1 := by
    simp
    omega
  rw [hlen, splitSepAux_succ_cons sep (a.length + b.length) _ b sep
    (by rw [hsp]), hsp,
    splitSep_eq_splitSepAux sep (a.length + b.length) b (by omega)]

theorem splitSepAux_chars (sep : Char) :
    ∀ fuel l, l.length ≤ fuel →
      ∀ piece ∈ splitSepAux sep fuel l, ∀ c ∈ piece, c ∈ l := by
  intro fuel
  induction fuel with
  | zero =>
    intro l hl piece hp c hc
    have : l = [] := List.length_eq_zero.mp (Nat.le_zero.mp hl)
    subst this
    rw [splitSepAux_nil] at hp
    have : piece = [] := by simpa using hp
    subst this
    cases hc
  | succ n ih =>
    intro l hl piece hp c hc
    rcases splitAtFirst_snd_shape (fun d => d = sep) l with hs | ⟨x, xs, hs, _⟩
    · rw [splitSepAux_succ_nil sep n l hs] at hp
      have : piece = (splitAtFirst (fun d => d = sep) l).1 := by simpa using hp
      subst this
      rw [← splitAtFirst_recombine (fun d => d = sep) l]
      exact List.mem_append.mpr (Or.inl hc)
    · rw [splitSepAux_succ_cons sep n l xs x hs] at hp
      have hlen : xs.length + 1 ≤ l.length := by
        have h0 := splitAtFirst_snd_length (fun d => d = sep) l
        rw [hs] at h0
        simpa using h0
      rcases List.mem_cons.mp hp with h | h
      · subst h
        rw [← splitAtFirst_recombine (fun d => d = sep) l]
        exact List.mem_append.mpr (Or.inl hc)
      · have hc2 := ih xs (by omega) piece h c hc
        rw [← splitAtFirst_recombine (fun d => d = sep) l, hs]
        exact List.mem_append.mpr (Or.inr (List.mem_cons_of_mem x hc2))

theorem splitSep_chars (sep : Char) (l : List Char) :
    ∀ piece ∈ splitSep sep l, ∀ c ∈ piece, c ∈ l :=
  splitSepAux_chars sep l.length l le_rfl

theorem splitSepAux_no_sep_in_piece (sep : Char) :
    ∀ fuel l, l.length ≤ fuel →
      ∀ piece ∈ splitSepAux sep fuel l, ∀ c ∈ piece, ¬ c = sep := by
  intro fuel
  induction fuel with
  | zero =>
    intro l hl piece hp c hc
    have : l = [] := List.length_eq_zero.mp (Nat.le_zero.mp hl)
    subst this
    rw [splitSepAux_nil] at hp
    have : piece = [] := by simpa using hp
    subst this
    cases hc
  | succ n ih =>
    intro l hl piece hp c hc
    rcases splitAtFirst_snd_shape (fun d => d = sep) l with hs | ⟨x, xs, hs, _⟩
    · rw [splitSepAux_succ_nil sep n l hs] at hp
      have : piece = (splitAtFirst (fun d => d = sep) l).1 := by simpa using hp
      subst this
      have := splitAtFirst_fst_mem (fun d => d = sep) l c hc
      simpa using this
    · rw [splitSepAux_succ_cons sep n l xs x hs] at hp
      have hlen : xs.length + 1 ≤ l.length := by
        have h0 := splitAtFirst_snd_length (fun d => d = sep) l
        rw [hs] at h0
        simpa using h0
      rcases List.mem_cons.mp hp with h | h
      · subst h
        have := splitAtFirst_fst_mem (fun d => d = sep) l c hc
        simpa using this
      · exact ih xs (by omega) piece h c hc

theorem splitSep_no_sep_in_piece (sep : Char) (l : List Char) :
    ∀ piece ∈ splitSep sep l, ∀ c ∈ piece, ¬ c = sep :=
  splitSepAux_no_sep_in_piece sep l.length l le_rfl

/-- Shape of a search component as stored by the parser: empty, or `?`
followed by a nonempty `#`-free tail. -/
def wfSearch : List Char → Bool
  | [] => true
  | '?' :: t => !t.isEmpty && t.all (fun c => !(c = '#'))
  | _ => false

/-- Shape of a hash component as stored by the parser: empty, or `#`
followed by a nonempty tail. -/
def wfHash : List Char → Bool
  | [] => true
  | '#' :: t => !t.isEmpty
  | _ => false

theorem wfSearch_cases (s : List Char) (h : wfSearch s = true) :
    s = [] ∨ ∃ s0, s = '?' :: s0 ∧ s0 ≠ [] ∧
      s0.all (fun c => !(c = '#')) = true := by
  unfold wfSearch at h
  split at h
  · exact Or.inl rfl
  · rename_i t
    rw [Bool.and_eq_true, Bool.not_eq_true', List.isEmpty_eq_false] at h
    exact Or.inr ⟨t, rfl, h.1, h.2⟩
  · exact absurd h (by simp)

theorem wfHash_cases (l : List Char) (h : wfHash l = true) :
    l = [] ∨ ∃ t0, l = '#' :: t0 ∧ t0 ≠ [] := by
  unfold wfHash at h
  split at h
  · exact Or.inl rfl
  · rename_i t
    rw [Bool.not_eq_true', List.isEmpty_eq_false] at h
    exact Or.inr ⟨t, rfl, h⟩
  · exact absurd h (by simp)

/-! ### Query pairs: wellformedness and round trip -/

/-- Pairs as produced by `URLSearchParams` parsing: names contain no
`&`/`=`, values contain no `&`. -/
def wfPairs (ps : List (List Char × List Char)) : Bool :=
  ps.all fun p =>
    !p.1.contains '&' && !p.1.contains '=' && !p.2.contains '&'

theorem forall_ne_of_contains_eq_false (l : List Char) (a : Char)
    (h : l.contains a = false) : ∀ c ∈ l, ¬ c = a := by
  induction l with
  | nil =>
    intro c hc
    cases hc
  | cons b bs ih =>
    rw [List.contains_cons, Bool.or_eq_false_iff] at h
    intro c hc
    rcases List.mem_cons.mp hc with hc | hc
    · subst hc
      intro he
      have h1 := h.1
      simp [he] at h1
    · exact ih h.2 c hc

theorem serializeQueryPairs_ne_nil (p : List Char × List Char)
    (ps : List (List Char × List Char)) :
    serializeQueryPairs (p :: ps) ≠ [] := by
  cases ps with
  | nil => simp [serializeQueryPairs]
  | cons q qs => simp [serializeQueryPairs]

theorem serializeQueryPairs_chars (ps : List (List Char × List Char)) :
    ∀ c ∈ serializeQueryPairs ps,
      c = '=' ∨ c = '&' ∨ ∃ p ∈ ps, c ∈ p.1 ∨ c ∈ p.2 := by
  induction ps with
  | nil =>
    intro c hc
    cases hc
  | cons p ps ih =>
    cases ps with
    | nil =>
      intro c hc
      rw [show serializeQueryPairs [p] = p.1 ++ '=' :: p.2 from rfl] at hc
      rcases List.mem_append.mp hc with h | h
      · exact Or.inr (Or.inr ⟨p, List.mem_cons_self p [], Or.inl h⟩)
      · rcases List.mem_cons.mp h with h | h
        · exact Or.inl h
        · exact Or.inr (Or.inr ⟨p, List.mem_cons_self p [], Or.inr h⟩)
    | cons q qs =>
      intro c hc
      rw [show serializeQueryPairs (p :: q :: qs) =
        (p.1 ++ '=' :: p.2) ++ '&' :: serializeQueryPairs (q :: qs)
        from rfl] at hc
      rcases List.mem_append.mp hc with h | h
      · rcases List.mem_append.mp h with h1 | h1
        · exact Or.inr (Or.inr ⟨p, List.mem_cons_self p _, Or.inl h1⟩)
        · rcases List.mem_cons.mp h1 with h1 | h1
          · exact Or.inl h1
          · exact Or.inr (Or.inr ⟨p, List.mem_cons_self p _, Or.inr h1⟩)
      · rcases List.mem_cons.mp h with h1 | h1
        · exact Or.inr (Or.inl h1)
        · rcases ih c h1 with h2 | h2 | ⟨r, hr, h2⟩
          · exact Or.inl h2
          · exact Or.inr (Or.inl h2)
          · exact Or.inr (Or.inr ⟨r, List.mem_cons_of_mem p hr, h2⟩)

theorem splitSep_serialize (ps : List (List Char × List Char))
    (h : wfPairs ps = true) (hne : ps ≠ []) :
    splitSep '&' (serializeQueryPairs ps) =
      ps.map (fun p => p.1 ++ '=' :: p.2) := by
  induction ps with
  | nil => exact absurd rfl hne
  | cons p ps ih =>
    have hw := List.all_eq_true.mp h p (List.mem_cons_self p ps)
    simp only [Bool.and_eq_true, Bool.not_eq_true'] at hw
    have hp1amp := forall_ne_of_contains_eq_false p.1 '&' hw.1.1
    have hp2amp := forall_ne_of_contains_eq_false p.2 '&' hw.2
    have hpiece : ∀ c ∈ p.1 ++ '=' :: p.2, ¬ c = '&' := by
      intro c hc
      rcases List.mem_append.mp hc with h1 | h1
      · exact hp1amp c h1
      · rcases List.mem_cons.mp h1 with h1 | h1
        · subst h1; decide
        · exact hp2amp c h1
    cases ps with
    | nil =>
      rw [show serializeQueryPairs [p] = p.1 ++ '=' :: p.2 from rfl,
        splitSep_no_sep '&' _ hpiece]
      rfl
    | cons q qs =>
      have hwtail : wfPairs (q :: qs) = true := by
        rw [wfPairs] at h ⊢
        rw [List.all_cons, Bool.and_eq_true] at h
        exact h.2
      rw [show serializeQueryPairs (p :: q :: qs) =
          (p.1 ++ '=' :: p.2) ++ '&' :: serializeQueryPairs (q :: qs)
          from rfl,
        splitSep_append_cons '&' _ _ hpiece, ih hwtail (by simp)]
      rfl

theorem parseQueryPairs_quest (t : List Char) :
    parseQueryPairs ('?' :: t) =
      ((splitSep '&' t).filter (fun piece => piece ≠ [])).map fun piece =>
        match (splitAtFirst (fun c => c = '=') piece).2 with
        | '=' :: v => ((splitAtFirst (fun c => c = '=') piece).1, v)
        | _ => ((splitAtFirst (fun c => c = '=') piece).1, []) := rfl

theorem parseQueryPairs_nil : parseQueryPairs [] = [] := rfl

/-- Parsing the serialization of wellformed query pairs (behind the
`search` setter's `?`) recovers them exactly. -/
theorem parseQueryPairs_of_serialize (ps : List (List Char × List Char))
    (h : wfPairs ps = true) :
    parseQueryPairs (if serializeQueryPairs ps = [] then []
      else '?' :: serializeQueryPairs ps) = ps := by
  cases ps with
  | nil => rfl
  | cons p ps =>
    rw [if_neg (serializeQueryPairs_ne_nil p ps), parseQueryPairs_quest,
      splitSep_serialize (p :: ps) h (by simp)]
    rw [List.filter_eq_self.mpr ?hfil]
    case hfil =>
      intro piece hpiece
      rcases List.mem_map.mp hpiece with ⟨q, _, rfl⟩
      simp
    rw [List.map_map]
    conv_rhs => rw [← List.map_id (p :: ps)]
    apply List.map_congr_left
    intro q hq
    simp only [Function.comp_apply, id_eq]
    have hw := List.all_eq_true.mp h q hq
    simp only [Bool.and_eq_true, Bool.not_eq_true'] at hw
    have hq1eq := forall_ne_of_contains_eq_false q.1 '=' hw.1.2
    have hsp : splitAtFirst (fun c => c = '=') (q.1 ++ '=' :: q.2) =
        (q.1, '=' :: q.2) := by
      rw [splitAtFirst_append _ _ _ (by
          intro c hc
          simp only [decide_eq_true_eq]
          exact hq1eq c hc),
        splitAtFirst_cons_of_pos _ _ _ (by simp)]
      simp
    rw [hsp]
    rfl

/-- The pairs produced by parsing any `?`-headed or empty search string
are wellformed. -/
theorem wfPairs_core (q : List Char) :
    wfPairs (((splitSep '&' q).filter (fun piece => piece ≠ [])).map
      fun piece =>
        match (splitAtFirst (fun c => c = '=') piece).2 with
        | '=' :: v => ((splitAtFirst (fun c => c = '=') piece).1, v)
        | _ => ((splitAtFirst (fun c => c = '=') piece).1, [])) = true := by
  rw [wfPairs, List.all_eq_true]
  intro p hp
  rcases List.mem_map.mp hp with ⟨piece, hpiece, hFp⟩
  obtain ⟨hpieceSep, _⟩ := List.mem_filter.mp hpiece
  have hnoamp : ∀ c ∈ piece, ¬ c = '&' :=
    splitSep_no_sep_in_piece '&' q piece hpieceSep
  have hfst : ∀ c ∈ (splitAtFirst (fun c => c = '=') piece).1, ¬ c = '=' := by
    intro c hc
    have := splitAtFirst_fst_mem _ piece c hc
    simpa using this
  have hfstamp : ∀ c ∈ (splitAtFirst (fun c => c = '=') piece).1,
      ¬ c = '&' := by
    intro c hc
    apply hnoamp
    rw [← splitAtFirst_recombine (fun c => c = '=') piece]
    exact List.mem_append.mpr (Or.inl hc)
  rcases splitAtFirst_snd_shape (fun c => c = '=') piece with
    hsnd | ⟨c0, cs, hsnd, hc0⟩
  · rw [hsnd] at hFp
    rw [← hFp]
    simp only [Bool.and_eq_true, Bool.not_eq_true']
    exact ⟨⟨contains_eq_false_of_forall _ _ hfstamp,
      contains_eq_false_of_forall _ _ hfst⟩, rfl⟩
  · have hc0' : c0 = '=' := by simpa using hc0
    subst hc0'
    rw [hsnd] at hFp
    have hFp2 : ((splitAtFirst (fun c => c = '=') piece).1, cs) = p := hFp
    have hvalamp : ∀ c ∈ cs, ¬ c = '&' := by
      intro c hc
      apply hnoamp
      rw [← splitAtFirst_recombine (fun c => c = '=') piece, hsnd]
      exact List.mem_append.mpr (Or.inr (List.mem_cons_of_mem '=' hc))
    rw [← hFp2]
    simp only [Bool.and_eq_true, Bool.not_eq_true']
    exact ⟨⟨contains_eq_false_of_forall _ _ hfstamp,
      contains_eq_false_of_forall _ _ hfst⟩,
      contains_eq_false_of_forall _ _ hvalamp⟩

theorem wfPairs_parseQueryPairs (s : List Char) (hs : wfSearch s = true) :
    wfPairs (parseQueryPairs s) = true := by
  rcases wfSearch_cases s hs with rfl | ⟨s0, rfl, _, _⟩
  · rw [parseQueryPairs_nil]
    rfl
  · rw [parseQueryPairs_quest]
    exact wfPairs_core s0

/-! ### Path/search/hash decomposition -/

theorem splitAtFirst_cons_of_neg (p : Char → Bool) (c : Char)
    (cs : List Char) (h : ¬ p c = true) :
    splitAtFirst p (c :: cs) =
      (c :: (splitAtFirst p cs).1, (splitAtFirst p cs).2) := by
  simp [splitAtFirst, h]

theorem parseHashPart_nil : parseHashPart [] = [] := rfl

theorem parseHashPart_hash (t : List Char) :
    parseHashPart ('#' :: t) = if t = [] then [] else '#' :: t := rfl

theorem parseSearchHash_nil : parseSearchHash [] = ([], []) := rfl

theorem parseSearchHash_quest (rest : List Char) :
    parseSearchHash ('?' :: rest) =
      (if (splitAtFirst (fun c => c = '#') rest).1 = [] then []
       else '?' :: (splitAtFirst (fun c => c = '#') rest).1,
       parseHashPart (splitAtFirst (fun c => c = '#') rest).2) := rfl

theorem parseSearchHash_hash (t : List Char) :
    parseSearchHash ('#' :: t) = ([], parseHashPart ('#' :: t)) := rfl

theorem parsePathSearchHash_slash (special : Bool) (rest : List Char) :
    parsePathSearchHash special ('/' :: rest) =
      ((splitAtFirst (fun c => c = '?' || c = '#') ('/' :: rest)).1,
       (parseSearchHash
         (splitAtFirst (fun c => c = '?' || c = '#') ('/' :: rest)).2).1,
       (parseSearchHash
         (splitAtFirst (fun c => c = '?' || c = '#') ('/' :: rest)).2).2) := rfl

/-- Splitting a serialized wellformed tail recovers its components. -/
theorem parsePathSearchHash_decomp (p0 search hsh : List Char)
    (hpc : ('/' :: p0).all (fun c => !(c = '?' || c = '#')) = true)
    (hs : wfSearch search = true) (hh : wfHash hsh = true) :
    parsePathSearchHash true (('/' :: p0) ++ search ++ hsh) =
      ('/' :: p0, search, hsh) := by
  have hpnot : ∀ c ∈ '/' :: p0, ¬ (c = '?' || c = '#' : Bool) = true := by
    intro c hc
    have h1 := List.all_eq_true.mp hpc c hc
    rw [Bool.not_eq_true'] at h1
    intro hcontra
    rw [h1] at hcontra
    exact Bool.false_ne_true hcontra
  rw [show (('/' :: p0) ++ search ++ hsh : List Char) =
      '/' :: (p0 ++ (search ++ hsh)) from by simp]
  rw [parsePathSearchHash_slash]
  rw [show ('/' :: (p0 ++ (search ++ hsh)) : List Char) =
      ('/' :: p0) ++ (search ++ hsh) from rfl]
  rw [splitAtFirst_append _ _ _ hpnot]
  rcases wfSearch_cases search hs with rfl | ⟨s0, rfl, hs0ne, hs0c⟩
  · rw [List.nil_append]
    rcases wfHash_cases hsh hh with rfl | ⟨t0, rfl, ht0⟩
    · simp [splitAtFirst, parseSearchHash_nil]
    · rw [splitAtFirst_cons_of_pos _ _ _ (by decide), parseSearchHash_hash,
        parseHashPart_hash, if_neg ht0]
      simp
  · have hs0not : ∀ c ∈ s0, ¬ (c = '#' : Bool) = true := by
      intro c hc
      have h1 := List.all_eq_true.mp hs0c c hc
      rw [Bool.not_eq_true'] at h1
      intro hcontra
      rw [h1] at hcontra
      exact Bool.false_ne_true hcontra
    rw [show (('?' :: s0) ++ hsh : List Char) = '?' :: (s0 ++ hsh) from rfl,
      splitAtFirst_cons_of_pos _ _ _ (by decide)]
    dsimp only
    rw [List.append_nil, parseSearchHash_quest]
    rcases wfHash_cases hsh hh with rfl | ⟨t0, rfl, ht0⟩
    · have hsp : splitAtFirst (fun c => c = '#') (s0 ++ []) = (s0, []) := by
        rw [List.append_nil]
        exact splitAtFirst_of_forall _ _ hs0not
      rw [hsp]
      dsimp only
      rw [if_neg hs0ne, parseHashPart_nil]
    · have hsp : splitAtFirst (fun c => c = '#') (s0 ++ '#' :: t0) =
          (s0, '#' :: t0) := by
        rw [splitAtFirst_append _ _ _ hs0not,
          splitAtFirst_cons_of_pos _ _ _ (by decide)]
        simp
      rw [hsp]
      dsimp only
      rw [if_neg hs0ne, parseHashPart_hash, if_neg ht0]

/-! ### Wellformedness of parser outputs -/

theorem parseHashPart_wf (l : List Char) : wfHash (parseHashPart l) = true := by
  unfold parseHashPart
  split
  · rename_i t
    split
    · rfl
    · rename_i hne
      show wfHash ('#' :: t) = true
      cases t with
      | nil => exact absurd rfl hne
      | cons a b => rfl
  · rfl

theorem parseSearchHash_wf (x : List Char) :
    wfSearch (parseSearchHash x).1 = true ∧
    wfHash (parseSearchHash x).2 = true := by
  unfold parseSearchHash
  split
  · rename_i rest
    refine ⟨?_, parseHashPart_wf _⟩
    dsimp only
    split
    · rfl
    · rename_i hne
      show wfSearch ('?' :: (splitAtFirst (fun c => c = '#') rest).1) = true
      show (!(splitAtFirst (fun c => c = '#') rest).1.isEmpty &&
        (splitAtFirst (fun c => c = '#') rest).1.all
          (fun c => !(c = '#'))) = true
      rw [Bool.and_eq_true]
      constructor
      · rw [Bool.not_eq_true', List.isEmpty_eq_false]
        exact hne
      · rw [List.all_eq_true]
        intro c hc
        have := splitAtFirst_fst_mem (fun c => c = '#') rest c hc
        simp [this]
  · exact ⟨rfl, parseHashPart_wf _⟩

theorem parsePathSearchHash_wf (rest2 : List Char) :
    (∃ q0, (parsePathSearchHash true rest2).1 = '/' :: q0) ∧
    (parsePathSearchHash true rest2).1.all
      (fun c => !(c = '?' || c = '#')) = true ∧
    wfSearch (parsePathSearchHash true rest2).2.1 = true ∧
    wfHash (parsePathSearchHash true rest2).2.2 = true := by
  unfold parsePathSearchHash
  split
  · rename_i c0 tail
    dsimp only
    refine ⟨?_, ?_, (parseSearchHash_wf _).1, (parseSearchHash_wf _).2⟩
    · rw [splitAtFirst_cons_of_neg _ _ _ (by decide)]
      exact ⟨_, rfl⟩
    · rw [List.all_eq_true]
      intro c hc
      have := splitAtFirst_fst_mem (fun c => c = '?' || c = '#') _ c hc
      simp only [Bool.or_eq_false_iff] at this
      simp [this.1, this.2]
  · dsimp only
    exact ⟨⟨[], rfl⟩, by decide, (parseSearchHash_wf _).1,
      (parseSearchHash_wf _).2⟩

theorem parseAuthority_out (s auth host port : List Char)
    (h : parseAuthority true s auth = some (host, port)) :
    host ≠ [] ∧ host.all isHostChar = true ∧ wfPort s port = true := by
  unfold parseAuthority at h
  split at h
  · simp at h
  · dsimp only at h
    have hcheck : ∀ (h0 : List Char) (p0 : List Char),
        (if (decide (h0.map Char.toLower ≠ []) &&
            (h0.map Char.toLower).all isHostChar) = true
          then some (h0.map Char.toLower, p0) else none) = some (host, port) →
        wfPort s p0 = true → host ≠ [] ∧ host.all isHostChar = true ∧
          wfPort s port = true := by
      intro h0 p0 hif hwf
      split at hif
      · rename_i hcond
        rw [Option.some.injEq, Prod.mk.injEq] at hif
        obtain ⟨h1, h2⟩ := hif
        simp only [Bool.and_eq_true, decide_eq_true_eq] at hcond
        subst h2
        exact ⟨h1 ▸ hcond.1, h1 ▸ hcond.2, hwf⟩
      · simp at hif
    split at h
    · exact hcheck auth [] h rfl
    · rename_i hh pdigits hsplit2
      split at h
      · split at h
        · rename_i hd hnil
          exact hcheck _ [] h rfl
        · split at h
          · simp at h
          · split at h
            · exact hcheck _ [] h rfl
            · rename_i hd hnil hge hdef
              refine hcheck _ _ h ?_
              have hspec := natToDecimal_spec (natOfDigits pdigits)
              unfold wfPort
              rw [Bool.or_eq_true]
              right
              simp only [Bool.and_eq_true, decide_eq_true_eq,
                Bool.not_eq_true', decide_eq_false_iff_not]
              refine ⟨⟨⟨hspec.2.1, ?_⟩, ?_⟩, ?_⟩
              · rw [hspec.1]
              · rw [hspec.1]
                omega
              · rw [hspec.1]
                intro hcontra
                exact hdef (by simp [hcontra])
      · simp at h

theorem parseSpecialRest_wf (s rest : List Char) (r : UrlRec)
    (h : parseSpecialRest s rest = some r) :
    r.host ≠ [] ∧ r.host.all isHostChar = true ∧ wfPort s r.port = true ∧
    (∃ p0, r.pathname = '/' :: p0) ∧
    r.pathname.all (fun c => !(c = '?' || c = '#')) = true ∧
    wfSearch r.search = true ∧ wfHash r.hash = true := by
  unfold parseSpecialRest at h
  dsimp only at h
  split at h
  · simp at h
  · rename_i host port hauth
    obtain ⟨hh0, hhc, hwp⟩ := parseAuthority_out s _ host port hauth
    cases h
    have hpsh := parsePathSearchHash_wf
      (splitAtFirst isPathDelim
        (rest.dropWhile (fun c => c = '/'))).2
    exact ⟨hh0, hhc, hwp, hpsh.1, hpsh.2.1, hpsh.2.2.1, hpsh.2.2.2⟩

/-! ### Trim anchoring and serialization round trips -/

theorem not_ws_of_hostChar (c : Char) (h : isHostChar c = true) :
    ¬ isWsChar c = true := by
  intro hw
  unfold isWsChar at hw
  simp only [Bool.or_eq_true, decide_eq_true_eq] at hw
  rcases hw with ((h1 | h1) | h1) | h1 <;> subst h1 <;>
    exact absurd h (by decide)

theorem not_ws_of_digit (c : Char) (h : Char.isDigit c = true) :
    ¬ isWsChar c = true := by
  intro hw
  unfold isWsChar at hw
  simp only [Bool.or_eq_true, decide_eq_true_eq] at hw
  rcases hw with ((h1 | h1) | h1) | h1 <;> subst h1 <;>
    exact absurd h (by decide)

theorem dropWhile_append_nil (p : Char → Bool) (a b : List Char)
    (h : List.dropWhile p a = []) :
    List.dropWhile p (a ++ b) = List.dropWhile p b := by
  induction a with
  | nil => rfl
  | cons c cs ih =>
    rw [List.dropWhile_cons] at h
    by_cases hc : p c = true
    · rw [if_pos hc] at h
      rw [List.cons_append, List.dropWhile_cons, if_pos hc]
      exact ih h
    · rw [if_neg hc] at h
      exact absurd h (by simp)

theorem trimRightChars_cons (c : Char) (rest : List Char)
    (hc : ¬ isWsChar c = true) :
    trimRightChars (c :: rest) = c :: trimRightChars rest := by
  unfold trimRightChars
  rw [List.reverse_cons]
  by_cases h0 : List.dropWhile isWsChar rest.reverse = []
  · rw [dropWhile_append_nil _ _ _ h0, h0,
      dropWhile_eq_self_of_head _ _ _ hc]
    rfl
  · rw [dropWhile_append_of_ne _ _ _ h0, List.reverse_append]
    rfl

theorem trimChars_append_anchor2 (c : Char) (a t : List Char)
    (hc : ¬ isWsChar c = true) (ha : ∀ d ∈ a, ¬ isWsChar d = true) :
    trimChars ((c :: a) ++ t) = (c :: a) ++ trimRightChars t := by
  by_cases h0 : List.dropWhile isWsChar t.reverse = []
  · have htr : trimRightChars t = [] := by
      unfold trimRightChars
      rw [h0]
      rfl
    rw [htr, List.append_nil]
    unfold trimChars
    rw [List.cons_append, dropWhile_eq_self_of_head _ _ _ hc]
    rw [show (c :: (a ++ t)).reverse = t.reverse ++ (a.reverse ++ [c]) from by
      simp [List.reverse_cons, List.reverse_append, List.append_assoc]]
    rw [dropWhile_append_nil _ _ _ h0]
    rw [dropWhile_eq_self_of_forall _ _ ?ha2]
    case ha2 =>
      intro d hd
      rcases List.mem_append.mp hd with h1 | h1
      · exact ha d (List.mem_reverse.mp h1)
      · rcases List.mem_cons.mp h1 with h1 | h1
        · subst h1
          exact hc
        · cases h1
    simp
  · exact trimChars_append_anchor c a t hc (by
      intro hcontra
      apply h0
      unfold trimRightChars at hcontra
      rwa [List.reverse_eq_nil_iff] at hcontra)

theorem trimChars_append_anchor3 (a t : List Char) (ha0 : a ≠ [])
    (ha : ∀ d ∈ a, ¬ isWsChar d = true) :
    trimChars (a ++ t) = a ++ trimRightChars t := by
  cases a with
  | nil => exact absurd rfl ha0
  | cons c as =>
    exact trimChars_append_anchor2 c as t (ha c (List.mem_cons_self c as))
      (fun d hd => ha d (List.mem_cons_of_mem c hd))

/-- The serialization of a URL with an authority, reshaped. -/
theorem serializeUrl_shape (r : UrlRec) (hh0 : r.host ≠ []) :
    serializeUrl r = (r.scheme ++ ':' :: '/' :: '/' ::
      (r.host ++ portPart r.port)) ++ (r.pathname ++ r.search ++ r.hash) := by
  unfold serializeUrl portPart
  rw [if_pos hh0]
  simp [List.append_assoc]

theorem serialize_head_not_ws (r : UrlRec)
    (hs : r.scheme = "http".data ∨ r.scheme = "https".data)
    (hhc : r.host.all isHostChar = true)
    (hp : wfPort r.scheme r.port = true) :
    ∀ d ∈ r.scheme ++ ':' :: '/' :: '/' :: (r.host ++ portPart r.port),
      ¬ isWsChar d = true := by
  intro d hd
  rcases List.mem_append.mp hd with h1 | h1
  · rcases hs with h | h <;> rw [h] at h1 <;> fin_cases h1 <;> decide
  · rcases List.mem_cons.mp h1 with h1 | h1
    · subst h1; decide
    · rcases List.mem_cons.mp h1 with h1 | h1
      · subst h1; decide
      · rcases List.mem_cons.mp h1 with h1 | h1
        · subst h1; decide
        · rcases List.mem_append.mp h1 with h2 | h2
          · exact not_ws_of_hostChar d (List.all_eq_true.mp hhc d h2)
          · unfold portPart at h2
            by_cases hp0 : r.port = []
            · rw [if_pos hp0] at h2
              cases h2
            · rw [if_neg hp0] at h2
              rcases List.mem_cons.mp h2 with h2 | h2
              · subst h2; decide
              · exact not_ws_of_digit d (List.all_eq_true.mp
                  (wfPort_spec r.scheme r.port hp hp0).1 d h2)

/-- Parsing (with trim, as `new URL` does) the serialization of a URL
with wellformed scheme/host/port and a slash-headed path recovers the
scheme, host and port exactly, whatever whitespace the tail may carry. -/
theorem jsUrlParseList_trim_serialize (r : UrlRec)
    (hs : r.scheme = "http".data ∨ r.scheme = "https".data)
    (hh0 : r.host ≠ []) (hhc : r.host.all isHostChar = true)
    (hp : wfPort r.scheme r.port = true)
    (hpath : ∃ p0, r.pathname = '/' :: p0) :
    jsUrlParseList (trimChars (serializeUrl r)) =
      some { scheme := r.scheme, host := r.host, port := r.port,
             pathname := (parsePathSearchHash true
               (trimRightChars (r.pathname ++ r.search ++ r.hash))).1,
             search := (parsePathSearchHash true
               (trimRightChars (r.pathname ++ r.search ++ r.hash))).2.1,
             hash := (parsePathSearchHash true
               (trimRightChars (r.pathname ++ r.search ++ r.hash))).2.2 } := by
  have hne : r.scheme ++ ':' :: '/' :: '/' :: (r.host ++ portPart r.port) ≠
      [] := by
    rcases hs with h | h <;> rw [h] <;> simp
  rw [serializeUrl_shape r hh0,
    trimChars_append_anchor3 _ _ hne (serialize_head_not_ws r hs hhc hp)]
  have ht' : ∃ t0, trimRightChars (r.pathname ++ r.search ++ r.hash) =
      '/' :: t0 := by
    obtain ⟨p0, hp0⟩ := hpath
    rw [hp0]
    rw [show (('/' :: p0) ++ r.search ++ r.hash : List Char) =
      '/' :: (p0 ++ r.search ++ r.hash) from rfl]
    exact ⟨_, trimRightChars_cons '/' _ (by decide)⟩
  rw [show (r.scheme ++ ':' :: '/' :: '/' :: (r.host ++ portPart r.port)) ++
      trimRightChars (r.pathname ++ r.search ++ r.hash) =
      r.scheme ++ ':' :: ('/' :: '/' :: (r.host ++ portPart r.port) ++
        trimRightChars (r.pathname ++ r.search ++ r.hash)) from by
    simp [List.append_assoc]]
  exact jsUrlParseList_special r.scheme r.host r.port _ hs hh0 hhc hp
    (Or.inr ht')

/-- Full round trip: parsing the serialization of a wellformed record
returns it unchanged. -/
theorem jsUrlParseList_serialize (r : UrlRec)
    (hs : r.scheme = "http".data ∨ r.scheme = "https".data)
    (hh0 : r.host ≠ []) (hhc : r.host.all isHostChar = true)
    (hp : wfPort r.scheme r.port = true)
    (hpath : ∃ p0, r.pathname = '/' :: p0)
    (hpc : r.pathname.all (fun c => !(c = '?' || c = '#')) = true)
    (hsrch : wfSearch r.search = true) (hhsh : wfHash r.hash = true) :
    jsUrlParseList (serializeUrl r) = some r := by
  obtain ⟨p0, hp0⟩ := hpath
  rw [serializeUrl_shape r hh0]
  rw [show (r.scheme ++ ':' :: '/' :: '/' :: (r.host ++ portPart r.port)) ++
      (r.pathname ++ r.search ++ r.hash) =
      r.scheme ++ ':' :: ('/' :: '/' :: (r.host ++ portPart r.port) ++
        (r.pathname ++ r.search ++ r.hash)) from by
    simp [List.append_assoc]]
  rw [jsUrlParseList_special r.scheme r.host r.port _ hs hh0 hhc hp
    (Or.inr ⟨p0 ++ r.search ++ r.hash, by rw [hp0]; rfl⟩)]
  rw [hp0, parsePathSearchHash_decomp p0 r.search r.hash (hp0 ▸ hpc) hsrch
    hhsh]
  rw [← hp0]

/-! ### Canonical identifiers (claims C1 and C6)

The canonical lists are wrapped in definitions so that rewriting is
stable under `simp`'s normalization of string literals. -/

def httpsSchemeChars : List Char := "https".data

def linkedinHostChars : List Char := "linkedin.com".data

def wwwLinkedinHostChars : List Char := "www.linkedin.com".data

def inSegChars : List Char := "/in/".data

def canonicalBaseChars : List Char := "https://linkedin.com/in/".data

/-- The record denoted by a canonical identifier. -/
def canonicalRec (name : List Char) : UrlRec :=
  { scheme := httpsSchemeChars, host := linkedinHostChars, port := [],
    pathname := inSegChars ++ name, search := [], hash := [] }

theorem not_ws_of_usernameChar (c : Char) (h : isUsernameChar c = true) :
    ¬ isWsChar c = true := by
  intro hw
  unfold isWsChar at hw
  simp only [Bool.or_eq_true, decide_eq_true_eq] at hw
  rcases hw with ((h1 | h1) | h1) | h1 <;> subst h1 <;>
    exact absurd h (by decide)

theorem contains_eq_true_of_mem (l : List Char) (a : Char) (h : a ∈ l) :
    l.contains a = true := by
  induction l with
  | nil => cases h
  | cons b bs ih =>
    rw [List.contains_cons]
    rcases List.mem_cons.mp h with h1 | h1
    · subst h1
      simp
    · rw [ih h1]
      simp

theorem listIsInfixOf_append_of_front (p l : List Char)
    (h : p.isPrefixOf l = true) : listIsInfixOf p l = true := by
  cases l with
  | nil => exact h
  | cons c cs =>
    unfold listIsInfixOf
    rw [h, Bool.true_or]

theorem listIsInfixOf_cons_of (p : List Char) (c : Char) (cs : List Char)
    (h : listIsInfixOf p cs = true) : listIsInfixOf p (c :: cs) = true := by
  unfold listIsInfixOf
  rw [h, Bool.or_true]

theorem listIsInfixOf_append_left (p x l : List Char)
    (h : listIsInfixOf p l = true) : listIsInfixOf p (x ++ l) = true := by
  induction x with
  | nil => exact h
  | cons c cs ih =>
    rw [List.cons_append]
    exact listIsInfixOf_cons_of p c _ ih

theorem validateLinkedinUsername_spec (name : List Char)
    (h : validateLinkedinUsername name = true) :
    3 ≤ name.length ∧ name.length ≤ 100 ∧
      name.all isUsernameChar = true := by
  unfold validateLinkedinUsername at h
  simp only [Bool.and_eq_true, decide_eq_true_eq] at h
  exact ⟨h.1.1, h.1.2, h.2⟩

/-- Parsing a canonical identifier list. -/
theorem jsUrlParseList_canonical (name : List Char)
    (hchars : name.all isUsernameChar = true) :
    jsUrlParseList (canonicalBaseChars ++ name) =
      some (canonicalRec name) := by
  have hnodelim : ∀ c ∈ '/' :: ("in/".data ++ name),
      ¬ (c = '?' || c = '#' : Bool) = true := by
    intro c hc
    rcases List.mem_cons.mp hc with h1 | h1
    · subst h1
      decide
    · rcases List.mem_append.mp h1 with h2 | h2
      · fin_cases h2 <;> decide
      · have hcu := List.all_eq_true.mp hchars c h2
        have hq := ne_of_class isUsernameChar c '?' hcu (by decide)
        have hh := ne_of_class isUsernameChar c '#' hcu (by decide)
        simp [hq, hh]
  have hpsh : parsePathSearchHash true (inSegChars ++ name) =
      (inSegChars ++ name, [], []) := by
    rw [show (inSegChars ++ name : List Char) =
        '/' :: ("in/".data ++ name) from rfl,
      parsePathSearchHash_slash,
      splitAtFirst_of_forall _ _ hnodelim]
    rfl
  have hmain := jsUrlParseList_special httpsSchemeChars linkedinHostChars []
    (inSegChars ++ name) (Or.inr rfl) (by decide) (by decide) (by decide)
    (Or.inr ⟨"in/".data ++ name, rfl⟩)
  rw [show (canonicalBaseChars ++ name : List Char) =
    httpsSchemeChars ++ ':' ::
      ('/' :: '/' :: (linkedinHostChars ++ portPart []) ++
        (inSegChars ++ name)) from rfl]
  rw [hmain, hpsh]
  rfl

theorem extractPathUsername_canonical (name : List Char)
    (hchars : name.all isUsernameChar = true) :
    extractPathUsername (inSegChars ++ name) = name := by
  unfold extractPathUsername
  have hrm : removeFirstOcc "/in/".data (inSegChars ++ name) = name := by
    rw [show (inSegChars ++ name : List Char) = '/' :: ("in/".data ++ name)
      from rfl]
    unfold removeFirstOcc
    rw [if_pos (show ("/in/".data.isPrefixOf
      ('/' :: ("in/".data ++ name))) = true
      from listIsPrefixOf_append "/in/".data name)]
    rfl
  rw [hrm, splitSep_no_sep '/' name ?hn]
  case hn =>
    intro c hc
    exact ne_of_class isUsernameChar c '/'
      (List.all_eq_true.mp hchars c hc) (by decide)
  rfl

theorem serializeUrl_canonical (name : List Char) :
    serializeUrl (canonicalRec name) = canonicalBaseChars ++ name := by
  unfold serializeUrl canonicalRec
  dsimp only
  rw [if_pos (by decide : ¬(linkedinHostChars : List Char) = [])]
  simp only [List.append_nil]
  rfl

theorem trimChars_canonical (name : List Char)
    (hchars : name.all isUsernameChar = true) :
    trimChars (canonicalBaseChars ++ name) = canonicalBaseChars ++ name := by
  apply trimChars_eq_self
  intro c hc
  rcases List.mem_append.mp hc with h1 | h1
  · have h2 : c ∈ "https://linkedin.com/in/".data := h1
    fin_cases h2 <;> decide
  · exact not_ws_of_usernameChar c (List.all_eq_true.mp hchars c h1)

theorem stripTrailingSlashes_canonical (name : List Char)
    (h3 : 3 ≤ name.length) (hchars : name.all isUsernameChar = true) :
    stripTrailingSlashes (canonicalBaseChars ++ name) =
      canonicalBaseChars ++ name := by
  obtain ⟨d, ds, hrev⟩ : ∃ d ds, name.reverse = d :: ds := by
    cases hnr : name.reverse with
    | nil =>
      rw [List.reverse_eq_nil_iff] at hnr
      subst hnr
      simp at h3
    | cons d ds => exact ⟨d, ds, rfl⟩
  have hd : d ∈ name := by
    rw [← List.mem_reverse, hrev]
    exact List.mem_cons_self d ds
  unfold stripTrailingSlashes
  rw [List.reverse_append, hrev, List.cons_append,
    dropWhile_eq_self_of_head _ _ _ ?hd2]
  case hd2 =>
    simp only [decide_eq_true_eq]
    exact ne_of_class isUsernameChar d '/'
      (List.all_eq_true.mp hchars d hd) (by decide)
  rw [← List.cons_append, ← hrev, ← List.reverse_append,
    List.reverse_reverse]

theorem flexibleTransform_canonical (name : List Char)
    (h3 : 3 ≤ name.length) (hchars : name.all isUsernameChar = true) :
    flexibleTransform (canonicalBaseChars ++ name) =
      canonicalBaseChars ++ name := by
  have hsl : (canonicalBaseChars ++ name).contains '/' = true :=
    contains_eq_true_of_mem _ _ (List.mem_append.mpr (Or.inl (by decide)))
  have hp1 : ciHasPrefix "linkedin.com/in/"
    (canonicalBaseChars ++ name) = false := rfl
  have hp2 : ciHasPrefix "www.linkedin.com/in/"
    (canonicalBaseChars ++ name) = false := rfl
  have hp3 : ciHasPrefix "http://linkedin.com/in/"
    (canonicalBaseChars ++ name) = false := rfl
  have hp4 : ciHasPrefix "http://www.linkedin.com/in/"
    (canonicalBaseChars ++ name) = false := rfl
  unfold flexibleTransform
  rw [stripTrailingSlashes_canonical name h3 hchars,
    trimChars_canonical name hchars]
  rw [if_neg (by rw [hsl]; simp),
    if_neg (by intro hc; rw [hp1] at hc; exact Bool.false_ne_true hc),
    if_neg (by intro hc; rw [hp2] at hc; exact Bool.false_ne_true hc),
    if_neg (by intro hc; rw [hp3] at hc; exact Bool.false_ne_true hc),
    if_neg (by intro hc; rw [hp4] at hc; exact Bool.false_ne_true hc)]

theorem usernameCheck_canonical (name : List Char)
    (hname : validateLinkedinUsername name = true) :
    normalizationUsernameCheck (canonicalBaseChars ++ name) = true := by
  obtain ⟨h3, h100, hchars⟩ := validateLinkedinUsername_spec name hname
  have hsl : (canonicalBaseChars ++ name).contains '/' = true :=
    contains_eq_true_of_mem _ _ (List.mem_append.mpr (Or.inl (by decide)))
  have hdot : (canonicalBaseChars ++ name).contains '.' = true :=
    contains_eq_true_of_mem _ _ (List.mem_append.mpr (Or.inl (by decide)))
  unfold normalizationUsernameCheck
  rw [if_neg (by rw [hsl, hdot]; simp), if_pos ?hinf]
  case hinf =>
    rw [show (canonicalBaseChars ++ name : List Char) =
      "https://linkedin.com".data ++ ("/in/".data ++ name) from rfl]
    exact listIsInfixOf_append_left _ _ _
      (listIsInfixOf_append_of_front _ _ (listIsPrefixOf_append _ _))
  rw [trimChars_canonical name hchars, jsUrlParseList_canonical name hchars]
  show validateLinkedinUsername
    (extractPathUsername (canonicalRec name).pathname) = true
  rw [show (canonicalRec name).pathname = inSegChars ++ name from rfl,
    extractPathUsername_canonical name hchars]
  exact hname

theorem cleanTracking_canonical (name : List Char)
    (hchars : name.all isUsernameChar = true) :
    cleanTrackingParameters (String.mk (canonicalBaseChars ++ name)) =
      String.mk (canonicalBaseChars ++ name) := by
  unfold cleanTrackingParameters
  rw [show jsUrlParse (String.mk (canonicalBaseChars ++ name)) =
      jsUrlParseList (trimChars (canonicalBaseChars ++ name)) from rfl,
    trimChars_canonical name hchars, jsUrlParseList_canonical name hchars]
  show (setSearch (canonicalRec name) (serializeQueryPairs
    (TRACKING_PARAMETERS.foldl
      (fun acc nm => deleteQueryParam acc nm.data)
      (parseQueryPairs (canonicalRec name).search)))).href =
    String.mk (canonicalBaseChars ++ name)
  rw [show parseQueryPairs (canonicalRec name).search = [] from rfl]
  rw [show TRACKING_PARAMETERS.foldl
    (fun acc nm => deleteQueryParam acc nm.data)
    ([] : List (List Char × List Char)) = [] from rfl]
  rw [show serializeQueryPairs [] = ([] : List Char) from rfl]
  rw [show setSearch (canonicalRec name) [] = canonicalRec name from rfl]
  unfold UrlRec.href
  rw [serializeUrl_canonical name]

theorem canonicalizeHost_canonical (name : List Char)
    (hchars : name.all isUsernameChar = true) :
    canonicalizeLinkedinHost (String.mk (canonicalBaseChars ++ name)) =
      String.mk (canonicalBaseChars ++ name) := by
  unfold canonicalizeLinkedinHost
  rw [show jsUrlParse (String.mk (canonicalBaseChars ++ name)) =
      jsUrlParseList (trimChars (canonicalBaseChars ++ name)) from rfl,
    trimChars_canonical name hchars, jsUrlParseList_canonical name hchars]
  show (if (canonicalRec name).host = "www.linkedin.com".data then
      ({ canonicalRec name with host := "linkedin.com".data } : UrlRec).href
    else (canonicalRec name).href) = String.mk (canonicalBaseChars ++ name)
  rw [if_neg (show ¬ (canonicalRec name).host = "www.linkedin.com".data by
    rw [show (canonicalRec name).host = linkedinHostChars from rfl]
    decide)]
  unfold UrlRec.href
  rw [serializeUrl_canonical name]

theorem validate_canonical (name : List Char)
    (hname : validateLinkedinUsername name = true) :
    validateLinkedinUrl (String.mk (canonicalBaseChars ++ name)) = true := by
  obtain ⟨h3, h100, hchars⟩ := validateLinkedinUsername_spec name hname
  unfold validateLinkedinUrl
  rw [show jsUrlParse (String.mk (canonicalBaseChars ++ name)) =
      jsUrlParseList (trimChars (canonicalBaseChars ++ name)) from rfl,
    trimChars_canonical name hchars, jsUrlParseList_canonical name hchars]
  show ((canonicalRec name).protocol = "https:".data &&
    ((canonicalRec name).host = "linkedin.com".data ||
      (canonicalRec name).host = "www.linkedin.com".data) &&
    "/in/".data.isPrefixOf (canonicalRec name).pathname &&
    validateLinkedinUsername
      (extractPathUsername (canonicalRec name).pathname)) = true
  rw [show (canonicalRec name).pathname = inSegChars ++ name from rfl,
    extractPathUsername_canonical name hchars]
  simp only [Bool.and_eq_true]
  refine ⟨⟨⟨?_, ?_⟩, ?_⟩, hname⟩
  · exact decide_eq_true rfl
  · rw [Bool.or_eq_true]
    left
    exact decide_eq_true rfl
  · exact listIsPrefixOf_append _ _

/-- Normalization maps a canonical identifier to itself. -/
theorem normalize_canonical (name : List Char)
    (hname : validateLinkedinUsername name = true) :
    normalizeLinkedinUrl (String.mk (canonicalBaseChars ++ name)) =
      some (String.mk (canonicalBaseChars ++ name)) := by
  obtain ⟨h3, h100, hchars⟩ := validateLinkedinUsername_spec name hname
  have hsl : (canonicalBaseChars ++ name).contains '/' = true :=
    contains_eq_true_of_mem _ _ (List.mem_append.mpr (Or.inl (by decide)))
  unfold normalizeLinkedinUrl
  rw [show (String.mk (canonicalBaseChars ++ name)).data =
    canonicalBaseChars ++ name from rfl]
  rw [trimChars_canonical name hchars]
  rw [if_neg (show ¬ (canonicalBaseChars ++ name : List Char) = [] by
    intro hc
    have : ('h' : Char) ∈ canonicalBaseChars ++ name :=
      List.mem_append.mpr (Or.inl (by decide))
    rw [hc] at this
    cases this)]
  dsimp only
  rw [flexibleTransform_canonical name h3 hchars]
  have hproc : (if (!(canonicalBaseChars ++ name).contains '/' &&
      !(canonicalBaseChars ++ name).contains '.') = true then
      LINKEDIN_BASE_URL.data ++ (canonicalBaseChars ++ name)
    else canonicalBaseChars ++ name) = canonicalBaseChars ++ name := by
    rw [if_neg (by rw [hsl]; simp)]
  rw [hproc]
  rw [if_neg (by rw [usernameCheck_canonical name hname]; simp)]
  rw [cleanTracking_canonical name hchars,
    canonicalizeHost_canonical name hchars]
  rw [if_pos (validate_canonical name hname)]

/-- A canonical identifier as the specification describes it:
`https://linkedin.com/in/<username>` with `<username>` matching
`[A-Za-z0-9_-]{3,100}` and nothing after it. -/
def isCanonicalIdentifier (s : String) : Bool :=
  canonicalBaseChars.isPrefixOf s.data &&
    validateLinkedinUsername (s.data.drop canonicalBaseChars.length)

/-- **C6.** Normalization is idempotent: for every already-canonical
identifier `u` (a string of the form `https://linkedin.com/in/<username>`
with `<username>` matching `[A-Za-z0-9_-]{3,100}`), `normalizeLinkedinUrl`
succeeds on `u` and returns `u` unchanged. -/
theorem normalizeLinkedinUrl_idempotent (u : String)
    (h : isCanonicalIdentifier u = true) :
    normalizeLinkedinUrl u = some u := by
  unfold isCanonicalIdentifier at h
  rw [Bool.and_eq_true] at h
  obtain ⟨hpre, hname⟩ := h
  obtain ⟨t, ht⟩ : ∃ t, canonicalBaseChars ++ t = u.data :=
    List.isPrefixOf_iff_prefix.mp hpre
  have hdrop : u.data.drop canonicalBaseChars.length = t := by
    rw [← ht]
    exact List.drop_left _ _
  rw [hdrop] at hname
  have hu : u = String.mk (canonicalBaseChars ++ t) := by
    rw [ht]
  rw [hu]
  exact normalize_canonical t hname

/-- C6 witness: a concrete canonical identifier mapped to itself. -/
theorem normalizeLinkedinUrl_idempotent_witness :
    isCanonicalIdentifier "https://linkedin.com/in/johndoe" = true ∧
    normalizeLinkedinUrl "https://linkedin.com/in/johndoe" =
      some "https://linkedin.com/in/johndoe" :=
  ⟨by decide, normalizeLinkedinUrl_idempotent
    "https://linkedin.com/in/johndoe" (by decide)⟩

/-! ### Scheme stability through serialization -/

theorem toNat_ofNat_of_lt (n : Nat) (h : n < 55296) :
    (Char.ofNat n).toNat = n := by
  unfold Char.ofNat
  rw [dif_pos (Or.inl h)]
  rfl

theorem toLower_toNat (c : Char) :
    (Char.toLower c).toNat =
      if 65 ≤ c.toNat ∧ c.toNat ≤ 90 then c.toNat + 32 else c.toNat := by
  unfold Char.toLower
  by_cases h : 65 ≤ c.toNat ∧ c.toNat ≤ 90
  · rw [if_pos h, if_pos h, toNat_ofNat_of_lt _ (by omega)]
  · rw [if_neg h, if_neg h]

theorem char_eq_of_toNat_eq (c d : Char) (h : c.toNat = d.toNat) : c = d := by
  have := congrArg Char.ofNat h
  rwa [Char.ofNat_toNat, Char.ofNat_toNat] at this

theorem toLower_idem (c : Char) :
    Char.toLower (Char.toLower c) = Char.toLower c := by
  apply char_eq_of_toNat_eq
  have hnot : ¬ (65 ≤ (Char.toLower c).toNat ∧
      (Char.toLower c).toNat ≤ 90) := by
    rw [toLower_toNat c]
    by_cases h : 65 ≤ c.toNat ∧ c.toNat ≤ 90
    · rw [if_pos h]
      omega
    · rw [if_neg h]
      exact h
  rw [toLower_toNat (Char.toLower c), if_neg hnot]

theorem map_toLower_idem (l : List Char) :
    (l.map Char.toLower).map Char.toLower = l.map Char.toLower := by
  rw [List.map_map]
  apply List.map_congr_left
  intro c _
  simp only [Function.comp_apply]
  exact toLower_idem c

theorem isLower_of_toNat (c : Char) (h1 : 97 ≤ c.toNat)
    (h2 : c.toNat ≤ 122) : c.isLower = true := by
  unfold Char.isLower
  simp only [Bool.and_eq_true, decide_eq_true_eq, UInt32.le_def,
    BitVec.le_def]
  exact ⟨h1, h2⟩

theorem isSchemeChar_toLower (c : Char) (h : isSchemeChar c = true) :
    isSchemeChar (Char.toLower c) = true := by
  by_cases hu : 65 ≤ c.toNat ∧ c.toNat ≤ 90
  · have ht := toLower_toNat c
    rw [if_pos hu] at ht
    unfold isSchemeChar Char.isAlphanum Char.isAlpha
    rw [isLower_of_toNat _ (by omega) (by omega)]
    simp
  · have ht := toLower_toNat c
    rw [if_neg hu] at ht
    rw [char_eq_of_toNat_eq _ _ ht]
    exact h

theorem not_ws_of_schemeChar (c : Char) (h : isSchemeChar c = true) :
    ¬ isWsChar c = true := by
  intro hw
  unfold isWsChar at hw
  simp only [Bool.or_eq_true, decide_eq_true_eq] at hw
  rcases hw with ((h1 | h1) | h1) | h1 <;> subst h1 <;>
    exact absurd h (by decide)

/-- Whatever branch the parser takes, the stored scheme is the lowered
scheme span, and it is nonempty. -/
theorem jsUrlParseList_scheme (l : List Char) (r : UrlRec)
    (h : jsUrlParseList l = some r) :
    r.scheme =
      (splitAtFirst (fun c => !isSchemeChar c) l).1.map Char.toLower ∧
    r.scheme ≠ [] := by
  unfold jsUrlParseList at h
  dsimp only at h
  split at h
  · split at h
    · split at h
      · simp at h
      · rename_i hmap
        split at h
        · simp at h
        · split at h
          · have hsch := parseSpecialRest_scheme _ _ _ h
            rw [hsch]
            exact ⟨rfl, by rw [hmap]; simp⟩
          · have hsch := parseNonSpecialRest_scheme _ _ _ h
            rw [hsch]
            exact ⟨rfl, by rw [hmap]; simp⟩
    · simp at h
  · simp at h

theorem jsUrlParseList_scheme_wf (l : List Char) (r : UrlRec)
    (h : jsUrlParseList l = some r) :
    r.scheme ≠ [] ∧ r.scheme.all isSchemeChar = true ∧
      r.scheme.map Char.toLower = r.scheme := by
  obtain ⟨hsch, hne⟩ := jsUrlParseList_scheme l r h
  refine ⟨hne, ?_, ?_⟩
  · rw [hsch, List.all_eq_true]
    intro c hc
    rcases List.mem_map.mp hc with ⟨d, hd, rfl⟩
    have := splitAtFirst_fst_mem (fun c => !isSchemeChar c) l d hd
    rw [Bool.not_eq_false'] at this
    exact isSchemeChar_toLower d this
  · rw [hsch]
    exact map_toLower_idem _

/-- If the parser succeeded and stored a special scheme, the output
record carries all the special-branch wellformedness facts. -/
theorem jsUrlParseList_special_wf (l : List Char) (r : UrlRec)
    (h : jsUrlParseList l = some r)
    (hs : r.scheme = "http".data ∨ r.scheme = "https".data) :
    r.host ≠ [] ∧ r.host.all isHostChar = true ∧
    wfPort r.scheme r.port = true ∧
    (∃ p0, r.pathname = '/' :: p0) ∧
    r.pathname.all (fun c => !(c = '?' || c = '#')) = true ∧
    wfSearch r.search = true ∧ wfHash r.hash = true := by
  unfold jsUrlParseList at h
  dsimp only at h
  split at h
  · split at h
    · split at h
      · simp at h
      · split at h
        · simp at h
        · split at h
          · have hsch := parseSpecialRest_scheme _ _ _ h
            have := parseSpecialRest_wf _ _ _ h
            rw [← hsch] at this
            exact this
          · rename_i hns
            have hsch := parseNonSpecialRest_scheme _ _ _ h
            rw [hsch] at hs
            apply absurd ?_ hns
            simp only [Bool.or_eq_true, decide_eq_true_eq]
            exact hs
    · simp at h
  · simp at h

theorem serializeUrl_scheme_shape (r : UrlRec) :
    serializeUrl r = (r.scheme ++ [':']) ++
      ((if r.host ≠ [] then
          '/' :: '/' ::
            (r.host ++ (if r.port = [] then [] else ':' :: r.port))
        else []) ++ r.pathname ++ r.search ++ r.hash) := by
  unfold serializeUrl
  simp [List.append_assoc]

/-- Scheme stability: re-parsing a serialized record (with trimming, as
`new URL` does) reproduces its scheme. -/
theorem jsUrlParse_serialize_scheme (r r2 : UrlRec)
    (hs0 : r.scheme ≠ []) (hsc : r.scheme.all isSchemeChar = true)
    (hlow : r.scheme.map Char.toLower = r.scheme)
    (h : jsUrlParseList (trimChars (serializeUrl r)) = some r2) :
    r2.scheme = r.scheme := by
  have hnws : ∀ d ∈ r.scheme ++ [':'], ¬ isWsChar d = true := by
    intro d hd
    rcases List.mem_append.mp hd with h1 | h1
    · exact not_ws_of_schemeChar d (List.all_eq_true.mp hsc d h1)
    · rcases List.mem_cons.mp h1 with h1 | h1
      · subst h1
        decide
      · cases h1
  have htrim : trimChars (serializeUrl r) = (r.scheme ++ [':']) ++
      trimRightChars ((if r.host ≠ [] then
          '/' :: '/' ::
            (r.host ++ (if r.port = [] then [] else ':' :: r.port))
        else []) ++ r.pathname ++ r.search ++ r.hash) := by
    rw [serializeUrl_scheme_shape r]
    exact trimChars_append_anchor3 _ _ (by simp [hs0]) hnws
  have hsplit : splitAtFirst (fun c => !isSchemeChar c)
      (trimChars (serializeUrl r)) =
      (r.scheme, ':' :: trimRightChars ((if r.host ≠ [] then
          '/' :: '/' ::
            (r.host ++ (if r.port = [] then [] else ':' :: r.port))
        else []) ++ r.pathname ++ r.search ++ r.hash)) := by
    rw [htrim, List.append_assoc, List.singleton_append,
      splitAtFirst_append _ _ _ (by
        intro c hc
        have hcs := List.all_eq_true.mp hsc c hc
        simp [hcs]),
      splitAtFirst_cons_of_pos _ _ _ (by decide)]
    simp
  obtain ⟨hsch, _⟩ := jsUrlParseList_scheme _ _ h
  rw [hsch, hsplit]
  exact hlow

/-! ### Claim C1: shape of normalized identifiers -/

theorem normalizeLinkedinUrl_inv (s u : String)
    (h : normalizeLinkedinUrl s = some u) :
    validateLinkedinUrl u = true ∧
    ∃ p : String, u = canonicalizeLinkedinHost (cleanTrackingParameters p) := by
  unfold normalizeLinkedinUrl at h
  dsimp only at h
  split at h
  · simp at h
  · split at h
    · simp at h
      obtain ⟨hcheck, hval2, hu2⟩ := h
      subst hu2
      exact ⟨hval2, ⟨_, rfl⟩⟩
    · simp at h
      obtain ⟨hcheck, hval2, hu2⟩ := h
      subst hu2
      exact ⟨hval2, ⟨_, rfl⟩⟩

theorem scheme_of_protocol_https (sch : List Char)
    (h : sch ++ [':'] = "https:".data) : sch = "https".data := by
  have h2 : sch ++ [':'] = "https".data ++ [':'] := by
    rw [h]
    rfl
  exact (List.append_inj' h2 rfl).1

/-- C1, counterexample: the claimed invariant — every successful
normalization returns exactly `https://linkedin.com/in/<username>` — is
violated: a query string survives normalization. -/
theorem normalizeLinkedinUrl_shape_counterexample :
    normalizeLinkedinUrl "https://linkedin.com/in/johndoe?foo=bar" =
      some "https://linkedin.com/in/johndoe?foo=bar" ∧
    isCanonicalIdentifier "https://linkedin.com/in/johndoe?foo=bar" =
      false := by
  constructor
  · rfl
  · decide

/-- C1 (amended): for every input on which normalization succeeds,
the returned string parses as a URL with scheme `https`, host exactly
`linkedin.com` (never `www.linkedin.com`), a path starting with `/in/`
and a valid username as the first path segment; query, fragment, port
and extra path segments may however survive normalization. -/
theorem normalizeLinkedinUrl_output_shape (s u : String)
    (h : normalizeLinkedinUrl s = some u) :
    ∃ r, jsUrlParse u = some r ∧
      r.protocol = "https:".data ∧ r.host = "linkedin.com".data ∧
      "/in/".data.isPrefixOf r.pathname = true ∧
      validateLinkedinUsername (extractPathUsername r.pathname) = true := by
  obtain ⟨hval, p, hu⟩ := normalizeLinkedinUrl_inv s u h
  unfold validateLinkedinUrl at hval
  cases hparse : jsUrlParse u with
  | none =>
    rw [hparse] at hval
    simp at hval
  | some r5 =>
    rw [hparse] at hval
    simp only [Bool.and_eq_true, decide_eq_true_eq, Bool.or_eq_true] at hval
    obtain ⟨⟨⟨hproto, hhost⟩, hpre⟩, husr⟩ := hval
    refine ⟨r5, rfl, hproto, ?_, hpre, husr⟩
    -- rule out the `www.linkedin.com` alternative via host stability
    set q := cleanTrackingParameters p with hqdef
    unfold canonicalizeLinkedinHost at hu
    cases hq : jsUrlParse q with
    | none =>
      rw [hq] at hu
      dsimp only at hu
      rw [hu] at hparse
      rw [show jsUrlParse q = jsUrlParseList (trimChars q.data) from rfl]
        at hq
      rw [show jsUrlParse q = jsUrlParseList (trimChars q.data) from rfl]
        at hparse
      rw [hq] at hparse
      cases hparse
    | some r3 =>
      rw [hq] at hu
      dsimp only at hu
      have hq3 : jsUrlParseList (trimChars q.data) = some r3 := hq
      obtain ⟨hs3ne, hs3c, hs3low⟩ := jsUrlParseList_scheme_wf _ _ hq3
      -- u is the serialization of r4 := r3 with a non-www host
      have hr4 : ∃ r4 : UrlRec, u = String.mk (serializeUrl r4) ∧
          r4.scheme = r3.scheme ∧ r4.host ≠ "www.linkedin.com".data ∧
          (r4.host = r3.host ∨ r4.host = "linkedin.com".data) ∧
          r4.port = r3.port ∧ r4.pathname = r3.pathname := by
        split at hu
        · rename_i hwww
          refine ⟨{ r3 with host := "linkedin.com".data }, hu, rfl, ?_,
            Or.inr rfl, rfl, rfl⟩
          rw [show ({ r3 with host := "linkedin.com".data } : UrlRec).host =
            "linkedin.com".data from rfl]
          decide
        · rename_i hwww
          exact ⟨r3, hu, rfl, hwww, Or.inl rfl, rfl, rfl⟩
      obtain ⟨r4, hu4, hsch4, hwww4, hhost4, hport4, hpath4⟩ := hr4
      have hparse4 : jsUrlParseList (trimChars (serializeUrl r4)) =
          some r5 := by
        rw [← show (String.mk (serializeUrl r4)).data = serializeUrl r4
          from rfl, ← hu4]
        exact hparse
      have hs5 : r5.scheme = r4.scheme :=
        jsUrlParse_serialize_scheme r4 r5 (hsch4 ▸ hs3ne) (hsch4 ▸ hs3c)
          (hsch4 ▸ hs3low) hparse4
      have hs3https : r3.scheme = "https".data := by
        rw [← hsch4, ← hs5]
        exact scheme_of_protocol_https r5.scheme hproto
      obtain ⟨hh3ne, hh3c, hp3, hpa3, _, _, _⟩ :=
        jsUrlParseList_special_wf _ _ hq3 (Or.inr hs3https)
      have hh4ne : r4.host ≠ [] := by
        rcases hhost4 with h4 | h4 <;> rw [h4]
        · exact hh3ne
        · decide
      have hh4c : r4.host.all isHostChar = true := by
        rcases hhost4 with h4 | h4 <;> rw [h4]
        · exact hh3c
        · decide
      have hstab := jsUrlParseList_trim_serialize r4
        (Or.inr (hsch4 ▸ hs3https)) hh4ne hh4c
        (by rw [hsch4, hport4]; exact hp3)
        (by rw [hpath4]; exact hpa3)
      rw [hstab] at hparse4
      have hr5host : r5.host = r4.host := by
        cases hparse4
        rfl
      rcases hhost with h5 | h5
      · exact h5
      · exact absurd (hr5host ▸ h5) hwww4

/-- C1 witness: a concrete successful normalization satisfying the
amended shape (its output retains the query string). -/
theorem normalizeLinkedinUrl_output_shape_witness :
    ∃ r, jsUrlParse "https://linkedin.com/in/johndoe?foo=bar" = some r ∧
      r.protocol = "https:".data ∧ r.host = "linkedin.com".data ∧
      "/in/".data.isPrefixOf r.pathname = true ∧
      validateLinkedinUsername (extractPathUsername r.pathname) = true :=
  normalizeLinkedinUrl_output_shape "https://linkedin.com/in/johndoe?foo=bar"
    "https://linkedin.com/in/johndoe?foo=bar" (by rfl)

/-! ### Claim C7: tracking parameters — right-trim stability -/

theorem trimRightChars_append_of_ne (a b : List Char)
    (h : trimRightChars b ≠ []) :
    trimRightChars (a ++ b) = a ++ trimRightChars b := by
  have hb : List.dropWhile isWsChar b.reverse ≠ [] := by
    intro h0
    apply h
    unfold trimRightChars
    rw [h0]
    rfl
  unfold trimRightChars
  rw [List.reverse_append, dropWhile_append_of_ne _ _ _ hb,
    List.reverse_append, List.reverse_reverse]

theorem trimRightChars_append_anchor (a b : List Char) (c : Char)
    (hc : ¬ isWsChar c = true) :
    trimRightChars ((a ++ [c]) ++ b) = (a ++ [c]) ++ trimRightChars b := by
  by_cases h0 : trimRightChars b = []
  · have hb : List.dropWhile isWsChar b.reverse = [] := by
      unfold trimRightChars at h0
      rwa [List.reverse_eq_nil_iff] at h0
    rw [h0, List.append_nil]
    unfold trimRightChars
    rw [List.reverse_append, dropWhile_append_nil _ _ _ hb,
      List.reverse_append, List.reverse_cons, List.reverse_nil,
      List.nil_append, List.singleton_append,
      dropWhile_eq_self_of_head _ _ _ hc,
      List.reverse_cons, List.reverse_reverse]
  · exact trimRightChars_append_of_ne _ _ h0

theorem dropWhile_head_not (p : Char → Bool) (l : List Char) (c : Char)
    (cs : List Char) (h : List.dropWhile p l = c :: cs) : ¬ p c = true := by
  induction l with
  | nil => cases h
  | cons b bs ih =>
    rw [List.dropWhile_cons] at h
    by_cases hb : p b = true
    · rw [if_pos hb] at h
      exact ih h
    · rw [if_neg hb] at h
      cases h
      exact hb

theorem dropWhile_idem (p : Char → Bool) (l : List Char) :
    List.dropWhile p (List.dropWhile p l) = List.dropWhile p l := by
  cases hd : List.dropWhile p l with
  | nil => rfl
  | cons c cs =>
    exact dropWhile_eq_self_of_head p c cs (dropWhile_head_not p l c cs hd)

theorem trimRightChars_idem (l : List Char) :
    trimRightChars (trimRightChars l) = trimRightChars l := by
  unfold trimRightChars
  rw [List.reverse_reverse, dropWhile_idem]

theorem trimRightChars_subset (l : List Char) :
    ∀ c ∈ trimRightChars l, c ∈ l := by
  intro c hc
  unfold trimRightChars at hc
  rw [List.mem_reverse] at hc
  rw [← List.mem_reverse]
  exact (List.dropWhile_sublist isWsChar).subset hc

theorem trimRightChars_ne_nil_of_mem (l : List Char) (c : Char)
    (hc : c ∈ l) (hws : ¬ isWsChar c = true) : trimRightChars l ≠ [] := by
  intro h0
  unfold trimRightChars at h0
  rw [List.reverse_eq_nil_iff, List.dropWhile_eq_nil_iff] at h0
  exact hws (h0 c (List.mem_reverse.mpr hc))

def namesOfSearch (search : List Char) : List (List Char) :=
  (parseQueryPairs search).map Prod.fst

theorem serializeQueryPairs_mem_eq (p : List Char × List Char)
    (ps : List (List Char × List Char)) :
    '=' ∈ serializeQueryPairs (p :: ps) := by
  cases ps with
  | nil =>
    rw [show serializeQueryPairs [p] = p.1 ++ '=' :: p.2 from rfl]
    exact List.mem_append.mpr (Or.inr (List.mem_cons_self _ _))
  | cons q qs =>
    rw [show serializeQueryPairs (p :: q :: qs) =
      (p.1 ++ '=' :: p.2) ++ '&' :: serializeQueryPairs (q :: qs) from rfl]
    exact List.mem_append.mpr (Or.inl
      (List.mem_append.mpr (Or.inr (List.mem_cons_self _ _))))

/-- Names survive a right trim of a serialized query: trimming only eats
into the final value, never into a name. -/
theorem namesOfSearch_rtrim_serialize (ps : List (List Char × List Char))
    (h : wfPairs ps = true) :
    namesOfSearch ('?' :: trimRightChars (serializeQueryPairs ps)) =
      ps.map Prod.fst := by
  induction ps with
  | nil => rfl
  | cons p ps ih =>
    have hw := List.all_eq_true.mp h p (List.mem_cons_self p ps)
    simp only [Bool.and_eq_true, Bool.not_eq_true'] at hw
    have hp1amp := forall_ne_of_contains_eq_false p.1 '&' hw.1.1
    have hp1eq := forall_ne_of_contains_eq_false p.1 '=' hw.1.2
    have hp2amp := forall_ne_of_contains_eq_false p.2 '&' hw.2
    cases ps with
    | nil =>
      rw [show serializeQueryPairs [p] = (p.1 ++ ['=']) ++ p.2 from by
          rw [show serializeQueryPairs [p] = p.1 ++ '=' :: p.2 from rfl]
          simp,
        trimRightChars_append_anchor _ _ _ (by decide)]
      rw [show ((p.1 ++ ['=']) ++ trimRightChars p.2 : List Char) =
        p.1 ++ '=' :: trimRightChars p.2 from by simp]
      have hpiece : ∀ c ∈ p.1 ++ '=' :: trimRightChars p.2, ¬ c = '&' := by
        intro c hc
        rcases List.mem_append.mp hc with h1 | h1
        · exact hp1amp c h1
        · rcases List.mem_cons.mp h1 with h1 | h1
          · subst h1; decide
          · exact hp2amp c (trimRightChars_subset _ c h1)
      unfold namesOfSearch
      rw [parseQueryPairs_quest, splitSep_no_sep '&' _ hpiece]
      rw [List.filter_cons_of_pos (by simp)]
      rw [show List.filter (fun piece => decide (piece ≠ []))
        ([] : List (List Char)) = [] from rfl]
      rw [List.map_cons, List.map_cons]
      have hsp : splitAtFirst (fun c => c = '=')
          (p.1 ++ '=' :: trimRightChars p.2) =
          (p.1, '=' :: trimRightChars p.2) := by
        rw [splitAtFirst_append _ _ _ (by
            intro c hc
            simp only [decide_eq_true_eq]
            exact hp1eq c hc),
          splitAtFirst_cons_of_pos _ _ _ (by simp)]
        simp
      rw [hsp]
      rfl
    | cons q qs =>
      have hSne : trimRightChars (serializeQueryPairs (q :: qs)) ≠ [] :=
        trimRightChars_ne_nil_of_mem _ '='
          (serializeQueryPairs_mem_eq q qs) (by decide)
      rw [show serializeQueryPairs (p :: q :: qs) =
        (p.1 ++ '=' :: p.2) ++ '&' :: serializeQueryPairs (q :: qs)
        from rfl]
      rw [show ((p.1 ++ '=' :: p.2) ++ '&' :: serializeQueryPairs (q :: qs) :
          List Char) =
        ((p.1 ++ '=' :: p.2) ++ ['&']) ++ serializeQueryPairs (q :: qs)
        from by simp]
      rw [trimRightChars_append_anchor _ _ _ (by decide)]
      rw [show (((p.1 ++ '=' :: p.2) ++ ['&']) ++
          trimRightChars (serializeQueryPairs (q :: qs)) : List Char) =
        (p.1 ++ '=' :: p.2) ++
          '&' :: trimRightChars (serializeQueryPairs (q :: qs))
        from by simp]
      have hpiece : ∀ c ∈ p.1 ++ '=' :: p.2, ¬ c = '&' := by
        intro c hc
        rcases List.mem_append.mp hc with h1 | h1
        · exact hp1amp c h1
        · rcases List.mem_cons.mp h1 with h1 | h1
          · subst h1; decide
          · exact hp2amp c h1
      unfold namesOfSearch
      rw [parseQueryPairs_quest, splitSep_append_cons '&' _ _ hpiece]
      rw [List.filter_cons_of_pos (by simp)]
      rw [List.map_cons, List.map_cons]
      have hsp : splitAtFirst (fun c => c = '=') (p.1 ++ '=' :: p.2) =
          (p.1, '=' :: p.2) := by
        rw [splitAtFirst_append _ _ _ (by
            intro c hc
            simp only [decide_eq_true_eq]
            exact hp1eq c hc),
          splitAtFirst_cons_of_pos _ _ _ (by simp)]
        simp
      rw [hsp]
      have htail := ih (by
        rw [wfPairs] at h ⊢
        rw [List.all_cons, Bool.and_eq_true] at h
        exact h.2)
      unfold namesOfSearch at htail
      rw [parseQueryPairs_quest] at htail
      rw [htail]
      rfl

/-- The search component obtained after right-trimming a serialized
wellformed tail: unchanged, emptied, or right-trimmed behind its `?`. -/
theorem searchComp_trim (p0 s h : List Char)
    (hpc : ('/' :: p0).all (fun c => !(c = '?' || c = '#')) = true)
    (hs : wfSearch s = true) (hh : wfHash h = true) :
    (parsePathSearchHash true
        (trimRightChars (('/' :: p0) ++ s ++ h))).2.1 = s ∨
    (parsePathSearchHash true
        (trimRightChars (('/' :: p0) ++ s ++ h))).2.1 = [] ∨
    (∃ S, s = '?' :: S ∧
      (parsePathSearchHash true
        (trimRightChars (('/' :: p0) ++ s ++ h))).2.1 =
        '?' :: trimRightChars S) := by
  have hpnd : ∀ c ∈ '/' :: p0, ¬ (c = '?' || c = '#' : Bool) = true := by
    intro c hc
    have h1 := List.all_eq_true.mp hpc c hc
    rw [Bool.not_eq_true'] at h1
    intro hcontra
    rw [h1] at hcontra
    exact Bool.false_ne_true hcontra
  rcases wfHash_cases h hh with rfl | ⟨t0, rfl, ht0⟩
  · rw [List.append_nil]
    rcases wfSearch_cases s hs with rfl | ⟨S, rfl, hSne, hSc⟩
    · rw [List.append_nil, trimRightChars_cons _ _ (by decide),
        parsePathSearchHash_slash, splitAtFirst_of_forall _ _ ?noDelim]
      case noDelim =>
        intro c hc
        rcases List.mem_cons.mp hc with h1 | h1
        · subst h1
          decide
        · exact hpnd c (List.mem_cons_of_mem '/'
            (trimRightChars_subset _ c h1))
      right
      left
      rfl
    · have hSnotHash : ∀ c ∈ trimRightChars S, ¬ (c = '#' : Bool) = true := by
        intro c hc
        have h1 := List.all_eq_true.mp hSc c (trimRightChars_subset _ c hc)
        rw [Bool.not_eq_true'] at h1
        intro hcontra
        rw [h1] at hcontra
        exact Bool.false_ne_true hcontra
      rw [show ((('/' :: p0) ++ '?' :: S : List Char)) =
        (('/' :: p0) ++ ['?']) ++ S from by simp]
      rw [trimRightChars_append_anchor _ _ _ (by decide)]
      rw [show (((('/' :: p0) ++ ['?']) ++ trimRightChars S : List Char)) =
        '/' :: (p0 ++ '?' :: trimRightChars S) from by simp]
      rw [parsePathSearchHash_slash]
      rw [show (('/' :: (p0 ++ '?' :: trimRightChars S) : List Char)) =
        ('/' :: p0) ++ '?' :: trimRightChars S from rfl]
      rw [splitAtFirst_append _ _ _ hpnd,
        splitAtFirst_cons_of_pos _ _ _ (by decide)]
      dsimp only
      rw [parseSearchHash_quest, splitAtFirst_of_forall _ _ hSnotHash]
      dsimp only
      by_cases hrS : trimRightChars S = []
      · rw [if_pos hrS]
        right
        left
        rfl
      · rw [if_neg hrS]
        right
        right
        exact ⟨S, rfl, rfl⟩
  · rw [show ((('/' :: p0) ++ s) ++ '#' :: t0 : List Char) =
      ((('/' :: p0) ++ s) ++ ['#']) ++ t0 from by simp]
    rw [trimRightChars_append_anchor _ _ _ (by decide)]
    by_cases hrt : trimRightChars t0 = []
    · rw [hrt, List.append_nil]
      rcases wfSearch_cases s hs with rfl | ⟨S, rfl, hSne, hSc⟩
      · rw [List.append_nil]
        rw [show (('/' :: p0) ++ ['#'] : List Char) =
          '/' :: (p0 ++ ['#']) from rfl]
        rw [parsePathSearchHash_slash]
        rw [show (('/' :: (p0 ++ ['#']) : List Char)) =
          ('/' :: p0) ++ ['#'] from rfl]
        rw [splitAtFirst_append _ _ _ hpnd,
          splitAtFirst_cons_of_pos _ _ _ (by decide)]
        left
        rfl
      · have hSnotHash : ∀ c ∈ S, ¬ (c = '#' : Bool) = true := by
          intro c hc
          have h1 := List.all_eq_true.mp hSc c hc
          rw [Bool.not_eq_true'] at h1
          intro hcontra
          rw [h1] at hcontra
          exact Bool.false_ne_true hcontra
        rw [show ((('/' :: p0) ++ '?' :: S) ++ ['#'] : List Char) =
          '/' :: (p0 ++ '?' :: (S ++ ['#'])) from by simp]
        rw [parsePathSearchHash_slash]
        rw [show (('/' :: (p0 ++ '?' :: (S ++ ['#'])) : List Char)) =
          ('/' :: p0) ++ '?' :: (S ++ ['#']) from rfl]
        rw [splitAtFirst_append _ _ _ hpnd,
          splitAtFirst_cons_of_pos _ _ _ (by decide)]
        dsimp only
        rw [parseSearchHash_quest,
          splitAtFirst_append _ _ _ hSnotHash,
          splitAtFirst_cons_of_pos _ _ _ (by decide)]
        dsimp only
        rw [List.append_nil, if_neg hSne]
        left
        rfl
    · have hwfh : wfHash ('#' :: trimRightChars t0) = true := by
        cases hx : trimRightChars t0 with
        | nil => exact absurd hx hrt
        | cons a as => rfl
      rw [show (((('/' :: p0) ++ s) ++ ['#']) ++ trimRightChars t0
          : List Char) =
        (('/' :: p0) ++ s) ++ ('#' :: trimRightChars t0) from by simp]
      rw [show ((('/' :: p0) ++ s) ++ ('#' :: trimRightChars t0)
          : List Char) =
        ('/' :: p0) ++ s ++ ('#' :: trimRightChars t0) from rfl]
      rw [parsePathSearchHash_decomp p0 s _ hpc hs hwfh]
      left
      rfl

/-! ### Claim C7: tracking-parameter stripping and detection -/

theorem mem_foldl_deleteQueryParam (names : List String)
    (ps : List (List Char × List Char)) (pr : List Char × List Char)
    (h : pr ∈ List.foldl (fun acc name => deleteQueryParam acc name.data)
      ps names) :
    pr ∈ ps ∧ ∀ n ∈ names, ¬ pr.1 = n.data := by
  induction names generalizing ps with
  | nil =>
    rw [List.foldl_nil] at h
    refine ⟨h, ?_⟩
    intro n hn
    cases hn
  | cons n ns ih =>
    rw [List.foldl_cons] at h
    obtain ⟨h1, h2⟩ := ih _ h
    rw [deleteQueryParam, List.mem_filter] at h1
    obtain ⟨h3, h4⟩ := h1
    refine ⟨h3, ?_⟩
    intro m hm
    rcases List.mem_cons.mp hm with rfl | hm
    · simpa using h4
    · exact h2 m hm

theorem wfPairs_of_mem_subset (ps qs : List (List Char × List Char))
    (hsub : ∀ p ∈ qs, p ∈ ps) (h : wfPairs ps = true) :
    wfPairs qs = true := by
  rw [wfPairs] at h ⊢
  rw [List.all_eq_true] at h ⊢
  intro p hp
  exact h p (hsub p hp)

/-- Every character of a parsed query pair comes from the search text
behind the `?`. -/
theorem parseQueryPairs_mem_chars (t : List Char)
    (p : List Char × List Char) (hp : p ∈ parseQueryPairs ('?' :: t)) :
    ∀ c, c ∈ p.1 ∨ c ∈ p.2 → c ∈ t := by
  rw [parseQueryPairs_quest] at hp
  rcases List.mem_map.mp hp with ⟨piece, hpiece, hFp⟩
  obtain ⟨hpieceSep, _⟩ := List.mem_filter.mp hpiece
  have hchars : ∀ c ∈ piece, c ∈ t := splitSep_chars '&' t piece hpieceSep
  intro c hc
  rcases splitAtFirst_snd_shape (fun c => c = '=') piece with
    hsnd | ⟨c0, cs, hsnd, hc0⟩
  · rw [hsnd] at hFp
    have hFp2 : ((splitAtFirst (fun c => c = '=') piece).1,
        ([] : List Char)) = p := hFp
    rw [← hFp2] at hc
    rcases hc with hc | hc
    · apply hchars
      rw [← splitAtFirst_recombine (fun c => c = '=') piece]
      exact List.mem_append.mpr (Or.inl hc)
    · cases hc
  · have hc0e : c0 = '=' := by simpa using hc0
    subst hc0e
    rw [hsnd] at hFp
    have hFp2 : ((splitAtFirst (fun c => c = '=') piece).1, cs) = p := hFp
    rw [← hFp2] at hc
    rcases hc with hc | hc
    · apply hchars
      rw [← splitAtFirst_recombine (fun c => c = '=') piece]
      exact List.mem_append.mpr (Or.inl hc)
    · apply hchars
      rw [← splitAtFirst_recombine (fun c => c = '=') piece, hsnd]
      exact List.mem_append.mpr (Or.inr (List.mem_cons_of_mem '=' hc))

theorem hasQueryParamPairs_eq_false (ps : List (List Char × List Char))
    (n : List Char) (h : ∀ p ∈ ps, ¬ p.1 = n) :
    hasQueryParamPairs ps n = false := by
  rw [hasQueryParamPairs, List.any_eq_false]
  intro p hp
  simpa using h p hp

/-- When the guard of `detectSuspiciousUrlIndicators` passes and the URL
parses, the tracking flag is exactly the tracking-name query test. -/
theorem detect_hasTrackingParams (t : String) (r : UrlRec) (hne : t ≠ "")
    (hinf : listIsInfixOf "://".data t.data = true)
    (hr : jsUrlParse t = some r) :
    (detectSuspiciousUrlIndicators t).hasTrackingParams =
      TRACKING_PARAMETERS.any
        (fun q => hasQueryParamPairs (parseQueryPairs r.search) q.data) := by
  have htr : trimChars t.data ≠ [] := by
    intro h0
    rw [show jsUrlParse t = jsUrlParseList (trimChars t.data) from rfl, h0]
      at hr
    cases hr
  unfold detectSuspiciousUrlIndicators
  rw [if_neg ?hguard]
  case hguard =>
    simp only [Bool.or_eq_true, Bool.not_eq_true', decide_eq_true_eq]
    intro hcase
    rcases hcase with (h1 | h1) | h1
    · exact hne h1
    · exact htr h1
    · rw [hinf] at h1
      cases h1
  rw [hr]

/-- Core of the cleaning claim: when a string of the exact shape produced
by `normalizeLinkedinUrl` — host canonicalization after tracking
cleaning — validates and parses, its query carries no tracking name. -/
theorem cleanTracking_search_names (p u : String) (r5 : UrlRec)
    (hu : u = canonicalizeLinkedinHost (cleanTrackingParameters p))
    (hval : validateLinkedinUrl u = true)
    (hr5 : jsUrlParse u = some r5) :
    ∀ name ∈ TRACKING_PARAMETERS,
      hasQueryParamPairs (parseQueryPairs r5.search) name.data = false := by
  have hproto : r5.protocol = "https:".data := by
    unfold validateLinkedinUrl at hval
    rw [hr5] at hval
    simp only [Bool.and_eq_true, decide_eq_true_eq, Bool.or_eq_true] at hval
    exact hval.1.1.1
  unfold cleanTrackingParameters at hu
  cases hp2 : jsUrlParse p with
  | none =>
    rw [hp2] at hu
    dsimp only at hu
    unfold canonicalizeLinkedinHost at hu
    rw [hp2] at hu
    dsimp only at hu
    rw [hu, hp2] at hr5
    cases hr5
  | some r2 =>
    rw [hp2] at hu
    dsimp only at hu
    obtain ⟨cleaned, hcl⟩ : ∃ cleaned, cleaned = TRACKING_PARAMETERS.foldl
        (fun acc name => deleteQueryParam acc name.data)
        (parseQueryPairs r2.search) := ⟨_, rfl⟩
    rw [← hcl] at hu
    unfold canonicalizeLinkedinHost at hu
    cases hq : jsUrlParse
        ((setSearch r2 (serializeQueryPairs cleaned)).href) with
    | none =>
      rw [hq] at hu
      dsimp only at hu
      rw [hu, hq] at hr5
      cases hr5
    | some r3 =>
      rw [hq] at hu
      dsimp only at hu
      have hp2l : jsUrlParseList (trimChars p.data) = some r2 := hp2
      have hq3 : jsUrlParseList (trimChars
          (serializeUrl (setSearch r2 (serializeQueryPairs cleaned)))) =
          some r3 := hq
      obtain ⟨hs2ne, hs2c, hs2low⟩ := jsUrlParseList_scheme_wf _ _ hp2l
      obtain ⟨hs3ne, hs3c, hs3low⟩ := jsUrlParseList_scheme_wf _ _ hq3
      -- u is the serialization of r4 := r3 with a possibly replaced host
      have hr4 : ∃ r4 : UrlRec, u = String.mk (serializeUrl r4) ∧
          r4.scheme = r3.scheme ∧
          (r4.host = r3.host ∨ r4.host = "linkedin.com".data) ∧
          r4.port = r3.port ∧ r4.pathname = r3.pathname ∧
          r4.search = r3.search ∧ r4.hash = r3.hash := by
        split at hu
        · exact ⟨{ r3 with host := "linkedin.com".data }, hu, rfl,
            Or.inr rfl, rfl, rfl, rfl, rfl⟩
        · exact ⟨r3, hu, rfl, Or.inl rfl, rfl, rfl, rfl, rfl⟩
      obtain ⟨r4, hu4, hsch4, hhost4, hport4, hpath4, hsrch4, hhash4⟩ := hr4
      have hparse4 : jsUrlParseList (trimChars (serializeUrl r4)) =
          some r5 := by
        rw [← show (String.mk (serializeUrl r4)).data = serializeUrl r4
          from rfl, ← hu4]
        exact hr5
      -- propagate the https scheme back through both serializations
      have hs5 : r5.scheme = r4.scheme :=
        jsUrlParse_serialize_scheme r4 r5 (hsch4 ▸ hs3ne) (hsch4 ▸ hs3c)
          (hsch4 ▸ hs3low) hparse4
      have hr3https : r3.scheme = "https".data := by
        rw [← hsch4, ← hs5]
        exact scheme_of_protocol_https r5.scheme hproto
      have hs3eq : r3.scheme =
          (setSearch r2 (serializeQueryPairs cleaned)).scheme :=
        jsUrlParse_serialize_scheme
          (setSearch r2 (serializeQueryPairs cleaned)) r3
          (show (setSearch r2 (serializeQueryPairs cleaned)).scheme ≠ []
            from hs2ne)
          (show (setSearch r2 (serializeQueryPairs cleaned)).scheme.all
            isSchemeChar = true from hs2c)
          (show (setSearch r2 (serializeQueryPairs cleaned)).scheme.map
            Char.toLower =
            (setSearch r2 (serializeQueryPairs cleaned)).scheme
            from hs2low)
          hq3
      have hr2https : r2.scheme = "https".data := by
        have hs3eq2 : r3.scheme = r2.scheme := hs3eq
        rw [← hs3eq2]
        exact hr3https
      obtain ⟨hh2ne, hh2c, hp2w, ⟨p02, hpath2⟩, hpc2, hsearch2, hhash2⟩ :=
        jsUrlParseList_special_wf _ r2 hp2l (Or.inr hr2https)
      obtain ⟨hh3ne, hh3c, hp3w, ⟨p03, hpath3⟩, hpc3, hsearch3, hhash3⟩ :=
        jsUrlParseList_special_wf _ r3 hq3 (Or.inr hr3https)
      -- the cleaned pairs are wellformed
      have hwfps : wfPairs (parseQueryPairs r2.search) = true :=
        wfPairs_parseQueryPairs _ hsearch2
      have hwfc : wfPairs cleaned = true :=
        wfPairs_of_mem_subset _ _
          (fun q hq0 =>
            (mem_foldl_deleteQueryParam _ _ q (hcl ▸ hq0)).1) hwfps
      -- their serialization contains no hash character
      have hQhash : ∀ c ∈ serializeQueryPairs cleaned, ¬ c = '#' := by
        intro c hc
        rcases serializeQueryPairs_chars cleaned c hc with
          h1 | h1 | ⟨pr, hpr, hcc⟩
        · subst h1
          decide
        · subst h1
          decide
        · have hpr2 := (mem_foldl_deleteQueryParam _ _ pr (hcl ▸ hpr)).1
          rcases wfSearch_cases r2.search hsearch2 with
            h20 | ⟨s0, h20, hs0ne, hs0c⟩
          · rw [h20, parseQueryPairs_nil] at hpr2
            cases hpr2
          · rw [h20] at hpr2
            have hct := parseQueryPairs_mem_chars s0 pr hpr2 c hcc
            have h1 := List.all_eq_true.mp hs0c c hct
            rw [Bool.not_eq_true'] at h1
            intro hcontra
            rw [hcontra] at h1
            simp at h1
      -- the setter output is a wellformed search component
      have hwfrS : wfSearch
          (setSearch r2 (serializeQueryPairs cleaned)).search = true := by
        rw [show (setSearch r2 (serializeQueryPairs cleaned)).search =
          if serializeQueryPairs cleaned = [] then []
          else '?' :: serializeQueryPairs cleaned from rfl]
        by_cases hQ0 : serializeQueryPairs cleaned = []
        · rw [if_pos hQ0]
          rfl
        · rw [if_neg hQ0]
          rw [show wfSearch ('?' :: serializeQueryPairs cleaned) =
            (!(serializeQueryPairs cleaned).isEmpty &&
              (serializeQueryPairs cleaned).all (fun c => !(c = '#')))
            from rfl]
          rw [Bool.and_eq_true]
          constructor
          · rw [Bool.not_eq_true', List.isEmpty_eq_false]
            exact hQ0
          · rw [List.all_eq_true]
            intro c hc
            simp only [Bool.not_eq_true', decide_eq_false_iff_not]
            exact hQhash c hc
      -- the first trim-and-reparse: characterize r3.search
      have hpc2a : ('/' :: p02).all (fun c => !(c = '?' || c = '#'))
          = true := by
        rw [← hpath2]
        exact hpc2
      have hq3r := hq3
      rw [jsUrlParseList_trim_serialize
        (setSearch r2 (serializeQueryPairs cleaned))
        (Or.inr (show (setSearch r2 (serializeQueryPairs cleaned)).scheme =
          "https".data from hr2https))
        (show (setSearch r2 (serializeQueryPairs cleaned)).host ≠ []
          from hh2ne)
        (show (setSearch r2 (serializeQueryPairs cleaned)).host.all
          isHostChar = true from hh2c)
        (show wfPort (setSearch r2 (serializeQueryPairs cleaned)).scheme
          (setSearch r2 (serializeQueryPairs cleaned)).port = true
          from hp2w)
        ⟨p02, show (setSearch r2 (serializeQueryPairs cleaned)).pathname =
          '/' :: p02 from hpath2⟩] at hq3r
      have hr3search : r3.search = (parsePathSearchHash true
          (trimRightChars
            ((setSearch r2 (serializeQueryPairs cleaned)).pathname ++
              (setSearch r2 (serializeQueryPairs cleaned)).search ++
              (setSearch r2 (serializeQueryPairs cleaned)).hash))).2.1 := by
        cases hq3r
        rfl
      rw [show (setSearch r2 (serializeQueryPairs cleaned)).pathname =
          r2.pathname from rfl, hpath2,
        show (setSearch r2 (serializeQueryPairs cleaned)).hash = r2.hash
          from rfl] at hr3search
      have h3cases := searchComp_trim p02
        ((setSearch r2 (serializeQueryPairs cleaned)).search) r2.hash
        hpc2a hwfrS hhash2
      rw [← hr3search] at h3cases
      -- the second trim-and-reparse: characterize r5.search
      have hh4ne : r4.host ≠ [] := by
        rcases hhost4 with h4 | h4 <;> rw [h4]
        · exact hh3ne
        · decide
      have hh4c : r4.host.all isHostChar = true := by
        rcases hhost4 with h4 | h4 <;> rw [h4]
        · exact hh3c
        · decide
      have hparse4r := hparse4
      rw [jsUrlParseList_trim_serialize r4
        (Or.inr (hsch4 ▸ hr3https)) hh4ne hh4c
        (by rw [hsch4, hport4]; exact hp3w)
        (by rw [hpath4]; exact ⟨p03, hpath3⟩)] at hparse4r
      have hr5search : r5.search = (parsePathSearchHash true
          (trimRightChars (r4.pathname ++ r4.search ++ r4.hash))).2.1 := by
        cases hparse4r
        rfl
      rw [hpath4, hpath3, hsrch4, hhash4] at hr5search
      have hpc3a : ('/' :: p03).all (fun c => !(c = '?' || c = '#'))
          = true := by
        rw [← hpath3]
        exact hpc3
      have h5cases := searchComp_trim p03 r3.search r3.hash
        hpc3a hsearch3 hhash3
      rw [← hr5search] at h5cases
      -- fold both stages into a three-way family over the cleaned query
      have hfam3 : r3.search =
          (setSearch r2 (serializeQueryPairs cleaned)).search ∨
          r3.search = [] ∨
          r3.search = '?' :: trimRightChars (serializeQueryPairs cleaned) := by
        rcases h3cases with h1 | h1 | ⟨S, hS, h1⟩
        · exact Or.inl h1
        · exact Or.inr (Or.inl h1)
        · by_cases hQ0 : serializeQueryPairs cleaned = []
          · rw [show (setSearch r2 (serializeQueryPairs cleaned)).search =
              if serializeQueryPairs cleaned = [] then []
              else '?' :: serializeQueryPairs cleaned from rfl,
              if_pos hQ0] at hS
            cases hS
          · rw [show (setSearch r2 (serializeQueryPairs cleaned)).search =
              if serializeQueryPairs cleaned = [] then []
              else '?' :: serializeQueryPairs cleaned from rfl,
              if_neg hQ0] at hS
            injection hS with hS0 hS1
            right
            right
            rw [h1, ← hS1]
      have hfam5 : r5.search =
          (setSearch r2 (serializeQueryPairs cleaned)).search ∨
          r5.search = [] ∨
          r5.search = '?' :: trimRightChars (serializeQueryPairs cleaned) := by
        rcases h5cases with h1 | h1 | ⟨S3, hS3, h1⟩
        · rw [h1]
          exact hfam3
        · exact Or.inr (Or.inl h1)
        · rcases hfam3 with h3 | h3 | h3
          · rw [h3] at hS3
            by_cases hQ0 : serializeQueryPairs cleaned = []
            · rw [show (setSearch r2 (serializeQueryPairs cleaned)).search =
                if serializeQueryPairs cleaned = [] then []
                else '?' :: serializeQueryPairs cleaned from rfl,
                if_pos hQ0] at hS3
              cases hS3
            · rw [show (setSearch r2 (serializeQueryPairs cleaned)).search =
                if serializeQueryPairs cleaned = [] then []
                else '?' :: serializeQueryPairs cleaned from rfl,
                if_neg hQ0] at hS3
              injection hS3 with hS0 hS1
              right
              right
              rw [h1, ← hS1]
          · rw [h3] at hS3
            cases hS3
          · rw [h3] at hS3
            injection hS3 with hS0 hS1
            right
            right
            rw [h1, ← hS1, trimRightChars_idem]
      -- names of the final search component all come from the cleaned pairs
      have hpq := parseQueryPairs_of_serialize cleaned hwfc
      have hRSnames : namesOfSearch
          ((setSearch r2 (serializeQueryPairs cleaned)).search) =
          cleaned.map Prod.fst := by
        rw [show (setSearch r2 (serializeQueryPairs cleaned)).search =
          if serializeQueryPairs cleaned = [] then []
          else '?' :: serializeQueryPairs cleaned from rfl]
        unfold namesOfSearch
        rw [hpq]
      have hnames5 : namesOfSearch r5.search = cleaned.map Prod.fst ∨
          namesOfSearch r5.search = [] := by
        rcases hfam5 with h1 | h1 | h1
        · rw [h1]
          exact Or.inl hRSnames
        · rw [h1]
          exact Or.inr rfl
        · rw [h1]
          exact Or.inl (namesOfSearch_rtrim_serialize cleaned hwfc)
      intro name hname
      apply hasQueryParamPairs_eq_false
      intro pr hpr hpr1
      have hm : pr.1 ∈ namesOfSearch r5.search :=
        List.mem_map_of_mem Prod.fst hpr
      rcases hnames5 with h1 | h1
      · rw [h1] at hm
        rcases List.mem_map.mp hm with ⟨q, hq0, hq1⟩
        have hnot := (mem_foldl_deleteQueryParam TRACKING_PARAMETERS _ q
          (hcl ▸ hq0)).2
        exact hnot name hname (hq1.trans hpr1)
      · rw [h1] at hm
        cases hm

/-- C7 (amended): stripping is unconditional — every successful
normalization leaves a query without any tracking-parameter name — but
the detection half of the claim needs the input itself to pass the
suspicion guard (non-empty after trimming and containing `://`) and to
parse; then the tracking flag is exactly the tracking-name query test.
On scheme-less inputs such as `linkedin.com/in/johndoe?ref=x`
normalization succeeds and strips `ref`, yet the analysis reports
`hasTrackingParams = false`, refuting the original claim. -/
theorem normalizeLinkedinUrl_strips_tracking (s u : String) (r5 : UrlRec)
    (hnorm : normalizeLinkedinUrl s = some u)
    (hr5 : jsUrlParse u = some r5) :
    (∀ name ∈ TRACKING_PARAMETERS,
      hasQueryParamPairs (parseQueryPairs r5.search) name.data = false) ∧
    (∀ t : String, ∀ r : UrlRec, t ≠ "" →
      listIsInfixOf "://".data t.data = true → jsUrlParse t = some r →
      (detectSuspiciousUrlIndicators t).hasTrackingParams =
        TRACKING_PARAMETERS.any
          (fun q => hasQueryParamPairs (parseQueryPairs r.search) q.data)) := by
  obtain ⟨hval, p, hu⟩ := normalizeLinkedinUrl_inv s u hnorm
  exact ⟨cleanTracking_search_names p u r5 hu hval hr5,
    fun t r ht hinf hr => detect_hasTrackingParams t r ht hinf hr⟩

/-- C7, counterexample: the input `linkedin.com/in/johndoe?ref=x`
carries the tracking parameter `ref` (visible in the parse of its
scheme-completed form) and normalizes successfully, yet the suspicion
analysis of the raw input — which requires a literal `://` — reports
`hasTrackingParams = false`. -/
theorem detectTracking_counterexample :
    normalizeLinkedinUrl "linkedin.com/in/johndoe?ref=x" =
      some "https://linkedin.com/in/johndoe" ∧
    (∃ r, jsUrlParse "https://linkedin.com/in/johndoe?ref=x" = some r ∧
      hasQueryParamPairs (parseQueryPairs r.search) "ref".data = true) ∧
    (detectSuspiciousUrlIndicators
      "linkedin.com/in/johndoe?ref=x").hasTrackingParams = false := by
  refine ⟨rfl, ⟨_, rfl, rfl⟩, rfl⟩

/-- C7 witness: the amended theorem applied to the normalization of
`linkedin.com/in/johndoe?ref=x`. -/
theorem normalizeLinkedinUrl_strips_tracking_witness :
    (∀ name ∈ TRACKING_PARAMETERS,
      hasQueryParamPairs
        (parseQueryPairs (canonicalRec "johndoe".data).search)
        name.data = false) ∧
    (∀ t : String, ∀ r : UrlRec, t ≠ "" →
      listIsInfixOf "://".data t.data = true → jsUrlParse t = some r →
      (detectSuspiciousUrlIndicators t).hasTrackingParams =
        TRACKING_PARAMETERS.any
          (fun q => hasQueryParamPairs (parseQueryPairs r.search) q.data)) :=
  normalizeLinkedinUrl_strips_tracking "linkedin.com/in/johndoe?ref=x"
    "https://linkedin.com/in/johndoe" (canonicalRec "johndoe".data)
    (by rfl) (by rfl)

end Scan2SayHi
